import Mathlib

/-!
vingo: a shallow embedding of the template engine.

The Go sources `tokens.go`, `eval.go`, `nodes.go` and `vingo.go` are translated
function by function.  Go strings are modelled as lists of characters (Unicode
scalar values), Go's `interface{}` values as the closed type `Value`, a Go
`(T, error)` result as `Outcome T`, which also records a run-time panic.

Conventions
* every recursive definition is structural, so that it evaluates on concrete
  input by `decide` / `rfl`;
* the standard-library functions used by the sources (`strings`, `strconv`,
  `regexp`, `fmt`, `html`) are modelled next to their first use, each with the
  behaviour of the Go function it stands for.
-/

set_option autoImplicit false

namespace Vingo

/-- A Go string, as the sequence of its characters. -/
abbrev Str := List Char

/-! ## package `strings` / `unicode` -/

/-- `unicode.IsSpace`: the characters with the Unicode White_Space property. -/
def isSpace (c : Char) : Bool :=
  let n := c.toNat
  (9 ≤ n && n ≤ 13) || n = 32 || n = 0x85 || n = 0xA0 || n = 0x1680
    || (0x2000 ≤ n && n ≤ 0x200A) || n = 0x2028 || n = 0x2029 || n = 0x202F
    || n = 0x205F || n = 0x3000

/-- `strings.TrimLeftFunc(s, unicode.IsSpace)`. -/
def trimLeft (s : Str) : Str := s.dropWhile isSpace

/-- `strings.TrimRightFunc(s, unicode.IsSpace)`. -/
def trimRight (s : Str) : Str := (s.reverse.dropWhile isSpace).reverse

/-- `strings.TrimSpace`. -/
def trimSpace (s : Str) : Str := trimRight (trimLeft s)

/-- Prepend a character to the first string of a non-empty list of strings. -/
def consHead (c : Char) : List Str → List Str
  | [] => [[c]]
  | p :: ps => (c :: p) :: ps

/-- `strings.Split(s, sep)` for a separator `sep` of two characters `d1 d2`:
the pieces between the non-overlapping occurrences of `sep`, found left to
right.  The result is never empty. -/
def splitOn2 (d1 d2 : Char) : Str → List Str
  | [] => [[]]
  | [a] => [[a]]
  | a :: b :: rest =>
    if a = d1 ∧ b = d2 then [] :: splitOn2 d1 d2 rest
    else consHead a (splitOn2 d1 d2 (b :: rest))

/-- `strings.Split(s, sep)` for a separator of one character. -/
def splitOn1 (d : Char) : Str → List Str
  | [] => [[]]
  | a :: tl => if a = d then [] :: splitOn1 d tl else consHead a (splitOn1 d tl)

/-- `strings.SplitN(s, sep, 2)` for a separator of two characters: `none` when
the separator does not occur (Go returns the one-element slice `[s]`), otherwise
the text before and after its first occurrence. -/
def cut2 (d1 d2 : Char) : Str → Option (Str × Str)
  | [] => none
  | [_] => none
  | a :: b :: rest =>
    if a = d1 ∧ b = d2 then some ([], rest)
    else (cut2 d1 d2 (b :: rest)).map fun p => (a :: p.1, p.2)

/-- `strings.SplitN(s, sep, 2)` for a separator of one character. -/
def cut1 (d : Char) : Str → Option (Str × Str)
  | [] => none
  | a :: tl => if a = d then some ([], tl) else (cut1 d tl).map fun p => (a :: p.1, p.2)

/-- `strings.Fields`: the maximal runs of non-space characters, in order. -/
def fields : Str → List Str
  | [] => []
  | [c] => if isSpace c then [] else [[c]]
  | c :: d :: t =>
    if isSpace c then fields (d :: t)
    else if isSpace d then [c] :: fields (d :: t)
    else consHead c (fields (d :: t))

/-- `strings.HasPrefix(s, p)`. -/
def hasPrefix (s p : Str) : Bool := p.isPrefixOf s

/-- `strings.HasSuffix(s, p)`. -/
def hasSuffix (s p : Str) : Bool := p.reverse.isPrefixOf s.reverse

/-- `s[len(p):]` when `s` starts with `p`. -/
def dropPrefix? : Str → Str → Option Str
  | s, [] => some s
  | [], _ :: _ => none
  | c :: s, d :: p => if c = d then dropPrefix? s p else none

/-- `strings.ReplaceAll(s, string(d), by)` for a one-character pattern. -/
def replaceAll1 (d : Char) (by_ : Str) : Str → Str
  | [] => []
  | c :: t => if c = d then by_ ++ replaceAll1 d by_ t else c :: replaceAll1 d by_ t

/-- Go's `<` on strings: lexicographic order (on valid UTF-8 the byte order and
the order of code points agree). -/
def strLt : Str → Str → Bool
  | _, [] => false
  | [], _ :: _ => true
  | a :: s, b :: t => a.toNat < b.toNat || (a = b && strLt s t)

/-- `strings.Join(parts, sep)`. -/
def join (sep : Str) : List Str → Str
  | [] => []
  | [p] => p
  | p :: q :: ps => p ++ sep ++ join sep (q :: ps)

/-! ## package `html` -/

/-- `html.EscapeString`: the five characters `&`, `'`, `<`, `>`, `"` are
replaced by their entities. -/
def escapeString : Str → Str
  | [] => []
  | c :: t =>
    (if c = '&' then "&amp;".toList
     else if c = '\'' then "&#39;".toList
     else if c = '<' then "&lt;".toList
     else if c = '>' then "&gt;".toList
     else if c = '"' then "&#34;".toList
     else [c]) ++ escapeString t

/-! ## Results -/

/-- The `error` values of the package: one constructor per `fmt.Errorf` call
site, and one for each of the two calls of package `os` whose error
`getOrCompile` passes on. -/
inductive Err
  /-- `unknown logical operator %s` (evalCondition) -/
  | unknownLogicalOp
  /-- `invalid comparison in '%s'` (evalSimpleCond) -/
  | invalidComparison
  /-- `unsupported comparison between %T and %T` (compareValues) -/
  | unsupportedComparison
  /-- `unexpected token %v at position %d` (compileTokens) -/
  | unexpectedToken
  /-- `unexpected token inside if` (parseIf) -/
  | unexpectedInIf
  /-- `unclosed if starting at token %d` (parseIf) -/
  | unclosedIf
  /-- `invalid for tag` (parseFor) -/
  | invalidFor
  /-- `unexpected token in for` (parseFor) -/
  | unexpectedInFor
  /-- `unclosed for starting at token %d` (parseFor) -/
  | unclosedFor
  /-- `unexpected token in switch` (parseSwitch) -/
  | unexpectedInSwitch
  /-- `unclosed switch starting at token %d` (parseSwitch) -/
  | unclosedSwitch
  /-- The error of `os.Stat` (getOrCompile) -/
  | statFailed
  /-- The error of `os.ReadFile` (getOrCompile) -/
  | readFailed
  deriving DecidableEq, Repr

/-- What a call of a Go function comes to: it returns a value with a nil error
(`ok`), returns a non-nil error (`error`), panics at run time (`fault`: an index
or slice bound out of range), or does not return (`diverge`, which the fuelled
loops of the parser report when their fuel is spent). -/
inductive Outcome (α : Type)
  | ok (a : α)
  | error (e : Err)
  | fault
  | diverge
  deriving DecidableEq, Repr

namespace Outcome

/-- Sequencing: everything but `ok` is passed on unchanged. -/
def bind {α β : Type} : Outcome α → (α → Outcome β) → Outcome β
  | ok a, f => f a
  | error e, _ => error e
  | fault, _ => fault
  | diverge, _ => diverge

instance : Monad Outcome where
  pure := Outcome.ok
  bind := Outcome.bind

/-- The Go test `err != nil`. -/
def isError {α : Type} : Outcome α → Bool
  | error _ => true
  | _ => false

end Outcome

/-! ## `float64` -/

/-- An IEEE-754 double: not-a-number, an infinity, negative zero, or a finite
value other than negative zero, given by the rational number it denotes. -/
inductive F64
  | nan
  | inf (neg : Bool)
  | negZero
  | fin (q : ℚ)
  deriving DecidableEq

namespace F64

/-- The number a finite double denotes (0 for the others). -/
def num : F64 → ℚ
  | fin q => q
  | _ => 0

/-- The order of two doubles, `none` when one of them is not-a-number. -/
def cmp : F64 → F64 → Option Ordering
  | nan, _ => none
  | _, nan => none
  | inf a, inf b => some (if a = b then .eq else if a then .lt else .gt)
  | inf a, _ => some (if a then .lt else .gt)
  | _, inf b => some (if b then .gt else .lt)
  | x, y => some (if x.num < y.num then .lt else if x.num = y.num then .eq else .gt)

/-- Go's `a == b` on doubles. -/
def eq (a b : F64) : Bool :=
  match cmp a b with
  | some .eq => true
  | _ => false
/-- Go's `a != b` on doubles. -/
def ne (a b : F64) : Bool := !(eq a b)
/-- Go's `a < b` on doubles. -/
def lt (a b : F64) : Bool :=
  match cmp a b with
  | some .lt => true
  | _ => false
/-- Go's `a > b` on doubles. -/
def gt (a b : F64) : Bool :=
  match cmp a b with
  | some .gt => true
  | _ => false
/-- Go's `a <= b` on doubles. -/
def le (a b : F64) : Bool := lt a b || eq a b
/-- Go's `a >= b` on doubles. -/
def ge (a b : F64) : Bool := gt a b || eq a b

/-- The number of binary digits of `n` (`fuel` ≥ that number). -/
def bitLen : Nat → Nat → Nat
  | 0, _ => 0
  | fuel + 1, n => if n = 0 then 0 else bitLen fuel (n / 2) + 1

/-- The integer nearest to `a / b`, ties to the even one (`b > 0`). -/
def roundHalfEven (a b : Nat) : Nat :=
  let q := a / b
  let r := a % b
  if 2 * r < b then q else if b < 2 * r then q + 1 else if q % 2 = 0 then q else q + 1

/-- Round the positive rational `num / den` to the nearest double, ties to
even; `none` when the result overflows the finite range (it is `2^1024` or
more; the rounded significand `m` is at most `2^53`).  Integers of magnitude
at most `2^53` are representable and returned as they are; otherwise the value
is rounded to a multiple of the unit in the last place `2^(e-52)`, where `e` is
its binary exponent, not below the exponent `-1022` of the subnormals. -/
def roundMag (num den : Nat) : Option ℚ :=
  if den ∣ num ∧ num / den ≤ 2 ^ 53 then some ((num / den : Nat) : ℚ)
  else
    let e0 : Int := (bitLen num num : Int) - (bitLen den den : Int)
    let e : Int :=
      if 0 ≤ e0 then (if den * 2 ^ e0.toNat ≤ num then e0 else e0 - 1)
      else (if den ≤ num * 2 ^ (-e0).toNat then e0 else e0 - 1)
    let s : Int := (if e < -1022 then -1022 else e) - 52
    if 0 ≤ s then
      let m := roundHalfEven num (den * 2 ^ s.toNat)
      if 971 ≤ s.toNat ∧ 2 ^ (1024 - s.toNat) ≤ m then none
      else some ((m * 2 ^ s.toNat : Nat) : ℚ)
    else
      let m := roundHalfEven (num * 2 ^ (-s).toNat) den
      some (mkRat m (2 ^ (-s).toNat))

/-- The double nearest to `± num / den`; `none` on overflow. -/
def round (neg : Bool) (num den : Nat) : Option F64 :=
  if num = 0 then some (if neg then negZero else fin 0)
  else (roundMag num den).map fun q => fin (if neg then -q else q)

/-- The conversion `float64(n)` of an integer (of at most 64 bits, so that it
cannot overflow). -/
def ofInt (n : Int) : F64 :=
  if n.natAbs ≤ 2 ^ 53 then fin n
  else (round (decide (n < 0)) n.natAbs 1).getD (inf (decide (n < 0)))

end F64

/-! ## package `strconv` -/

/-- A decimal digit `'0'..'9'`. -/
def isDigit (c : Char) : Bool := 48 ≤ c.toNat && c.toNat ≤ 57

/-- The value of a run of decimal digits read after `acc`; `none` when a
character is not a digit. -/
def digitsVal (acc : Nat) : Str → Option Nat
  | [] => some acc
  | c :: t => if isDigit c then digitsVal (acc * 10 + (c.toNat - 48)) t else none

/-- Whether a text starts with the sign `-`. -/
def isNegative (s : Str) : Bool :=
  match s with
  | '-' :: _ => true
  | _ => false

/-- A text without its leading sign `-` or `+`, if it has one. -/
def stripSign (s : Str) : Str :=
  match s with
  | '-' :: t => t
  | '+' :: t => t
  | _ => s

/-- `strconv.Atoi` on a 64-bit platform: an optional sign, then one or more
decimal digits, the value within the range of `int64`; `none` for an error. -/
def atoi (s : Str) : Option Int :=
  if stripSign s = [] then none
  else
    match digitsVal 0 (stripSign s) with
    | none => none
    | some n =>
      let v : Int := if isNegative s then -(n : Int) else (n : Int)
      if -(2 ^ 63) ≤ v ∧ v < 2 ^ 63 then some v else none

/-- `strconv.Itoa` / the verb `%v` on a non-negative integer. -/
def formatNat (n : Nat) : Str := Nat.toDigits 10 n

/-- The verb `%v` on an integer: its decimal digits, `-` in front of a
negative one. -/
def formatInt (i : Int) : Str :=
  if i < 0 then '-' :: formatNat i.natAbs else formatNat i.natAbs

/-- The value of a hexadecimal digit (`unhex`). -/
def hexVal? (c : Char) : Option Nat :=
  let n := c.toNat
  if 48 ≤ n ∧ n ≤ 57 then some (n - 48)
  else if 97 ≤ n ∧ n ≤ 102 then some (n - 97 + 10)
  else if 65 ≤ n ∧ n ≤ 70 then some (n - 65 + 10)
  else none

/-- The letters `a..f`, `A..F`. -/
def isHexLetter (c : Char) : Bool :=
  (97 ≤ c.toNat && c.toNat ≤ 102) || (65 ≤ c.toNat && c.toNat ≤ 70)

/-- The state of `readFloat` while it scans the digits of the mantissa: the
value of the digits read so far, how many of them stood after the point,
whether a point, a digit, an underscore has been seen. -/
structure Scan where
  mant : Nat
  frac : Nat
  sawDot : Bool
  sawDigits : Bool
  underscores : Bool
  deriving DecidableEq

/-- The digit loop of `readFloat`, for base 10 or (`hex`) 16: it stops at the
first character that is no digit, underscore or first point, and returns what
is left. -/
def scanMant (hex : Bool) : Scan → Str → Scan × Str
  | st, [] => (st, [])
  | st, c :: t =>
    if c = '_' then scanMant hex { st with underscores := true } t
    else if c = '.' then
      if st.sawDot then (st, c :: t) else scanMant hex { st with sawDot := true } t
    else if isDigit c then
      scanMant hex { st with
        sawDigits := true
        mant := st.mant * (if hex then 16 else 10) + (c.toNat - 48)
        frac := if st.sawDot then st.frac + 1 else st.frac } t
    else if hex && isHexLetter c then
      scanMant hex { st with
        sawDigits := true
        mant := st.mant * 16 + (hexVal? c).getD 0
        frac := if st.sawDot then st.frac + 1 else st.frac } t
    else (st, c :: t)

/-- The exponent loop of `readFloat`: digits and underscores; the value stops
growing once it has reached 10000. -/
def scanExp : Nat → Bool → Str → Nat × Bool × Str
  | e, us, [] => (e, us, [])
  | e, us, c :: t =>
    if c = '_' then scanExp e true t
    else if isDigit c then scanExp (if e < 10000 then e * 10 + (c.toNat - 48) else e) us t
    else (e, us, c :: t)

/-- The tracking state of `underscoreOK`. -/
inductive Last
  | start
  | digit
  | underscore
  | other
  deriving DecidableEq

/-- The loop of `underscoreOK`: an underscore must follow a digit and be
followed by one. -/
def underscoreLoop (hex : Bool) : Last → Str → Bool
  | i, [] => i ≠ Last.underscore
  | i, c :: t =>
    if isDigit c || (hex && isHexLetter c) then underscoreLoop hex Last.digit t
    else if c = '_' then
      if i ≠ Last.digit then false else underscoreLoop hex Last.underscore t
    else if i = Last.underscore then false
    else underscoreLoop hex Last.other t

/-- `strconv.underscoreOK`. -/
def underscoreOK (s : Str) : Bool :=
  match stripSign s with
  | '0' :: c :: t =>
    if c = 'b' ∨ c = 'B' ∨ c = 'o' ∨ c = 'O' ∨ c = 'x' ∨ c = 'X' then
      underscoreLoop (decide (c = 'x' ∨ c = 'X')) Last.digit t
    else underscoreLoop false Last.start (stripSign s)
  | _ => underscoreLoop false Last.start (stripSign s)

/-- ASCII lower-casing of `A..Z`, as `commonPrefixLenIgnoreCase` does it. -/
def lowerAZ (c : Char) : Char :=
  if 65 ≤ c.toNat ∧ c.toNat ≤ 90 then Char.ofNat (c.toNat + 32) else c

/-- The test of `readFloat` for the prefix `0x` of a hexadecimal mantissa, on
the text after the sign: at least one character must follow the prefix. -/
def hexPrefix (body : Str) : Bool :=
  match body with
  | '0' :: c :: _ :: _ => decide (c = 'x' ∨ c = 'X')
  | _ => false

/-- The optional exponent of `readFloat`, read from what follows the mantissa:
its value, whether an underscore has been seen so far, and the rest; `none` for
a syntax error (a hexadecimal mantissa must have an exponent, an exponent must
have a digit). -/
def readExp (hex : Bool) (underscores : Bool) (rest : Str) : Option (Int × Bool × Str) :=
  match rest with
  | c :: t =>
    if (hex ∧ (c = 'p' ∨ c = 'P')) ∨ (¬ hex ∧ (c = 'e' ∨ c = 'E')) then
      match stripSign t with
      | d :: _ =>
        if isDigit d then
          let r := scanExp 0 underscores (stripSign t)
          some ((if isNegative t then -1 else 1) * (r.1 : Int), r.2.1, r.2.2)
        else none
      | [] => none
    else if hex then none
    else some (0, underscores, rest)
  | [] => if hex then none else some (0, underscores, rest)

/-- The double nearest to the number with the digits `mant`, of which `frac`
stand after the point, and the exponent `e` (of ten, or of two after a
hexadecimal mantissa); `none` when it overflows. -/
def floatValue (neg hex : Bool) (mant frac : Nat) (e : Int) : Option F64 :=
  let scale : Int := if hex then e - 4 * (frac : Int) else e - (frac : Int)
  let base : Nat := if hex then 2 else 10
  if 0 ≤ scale then F64.round neg (mant * base ^ scale.toNat) 1
  else F64.round neg mant (base ^ (-scale).toNat)

/-- `strconv.ParseFloat(s, 64)`, `none` for an error (of syntax or of range).
The accepted texts are `nan`, an optionally signed `inf` or `infinity` (in any
case of the letters), and an optionally signed decimal or hexadecimal
floating-point literal; the result is the double nearest to the number
written, and a number that rounds to an infinity is a range error. -/
def parseFloat (s : Str) : Option F64 :=
  if (stripSign s).map lowerAZ = "inf".toList ∨ (stripSign s).map lowerAZ = "infinity".toList then
    some (F64.inf (isNegative s))
  else if s.map lowerAZ = "nan".toList then some F64.nan
  else
    let hex := hexPrefix (stripSign s)
    let r := scanMant hex ⟨0, 0, false, false, false⟩
      (if hex then (stripSign s).drop 2 else stripSign s)
    if !r.1.sawDigits then none
    else
      match readExp hex r.1.underscores r.2 with
      | none => none
      | some (e, us, rest) =>
        if rest ≠ [] then none
        else if us ∧ ¬ underscoreOK s then none
        else floatValue (isNegative s) hex r.1.mant r.1.frac e

/-- The digits `\x`, `\u`, `\U` escapes are made of: the value of the first
`n` characters of `s` read as hexadecimal digits after `v`, and the rest. -/
def readHex : Nat → Nat → Str → Option (Nat × Str)
  | 0, v, s => some (v, s)
  | _ + 1, _, [] => none
  | n + 1, v, c :: t =>
    match hexVal? c with
    | none => none
    | some x => readHex n (v * 16 + x) t

/-- An octal digit `'0'..'7'`. -/
def octVal? (c : Char) : Option Nat :=
  if 48 ≤ c.toNat ∧ c.toNat ≤ 55 then some (c.toNat - 48) else none

/-- `strconv.UnquoteChar(s, quote)`: the first character or escape sequence of
`s` and the rest, `none` for a syntax error.  A byte `\x80..\xff` written with
a `\x` or octal escape is represented by the character of that number. -/
def unquoteChar (quote : Char) : Str → Option (Char × Str)
  | [] => none
  | c :: t =>
    if c = quote ∧ (quote = '\'' ∨ quote = '"') then none
    else if c ≠ '\\' then some (c, t)
    else
      match t with
      | [] => none
      | k :: u =>
        if k = 'a' then some (Char.ofNat 7, u)
        else if k = 'b' then some (Char.ofNat 8, u)
        else if k = 'f' then some (Char.ofNat 12, u)
        else if k = 'n' then some ('\n', u)
        else if k = 'r' then some ('\r', u)
        else if k = 't' then some ('\t', u)
        else if k = 'v' then some (Char.ofNat 11, u)
        else if k = 'x' then (readHex 2 0 u).map fun p => (Char.ofNat p.1, p.2)
        else if k = 'u' ∨ k = 'U' then
          match readHex (if k = 'u' then 4 else 8) 0 u with
          | none => none
          | some (v, r) =>
            if v < 0xD800 ∨ (0xDFFF < v ∧ v ≤ 0x10FFFF) then some (Char.ofNat v, r) else none
        else if (octVal? k).isSome then
          match u with
          | d1 :: d2 :: r =>
            match octVal? k, octVal? d1, octVal? d2 with
            | some a, some b, some c3 =>
              let v := (a * 8 + b) * 8 + c3
              if v > 255 then none else some (Char.ofNat v, r)
            | _, _, _ => none
          | _ => none
        else if k = '\\' then some ('\\', u)
        else if k = '\'' ∨ k = '"' then (if k ≠ quote then none else some (k, u))
        else none

/-- The loop of `strconv.unquote` over a quoted text with escape sequences,
after the opening quote: the unescaped text up to the closing quote, which must
end the input (`strconv.Unquote` rejects a remainder).  `fuel` bounds the number
of characters read. -/
def unquoteLoop (quote : Char) : Nat → Str → Str → Option Str
  | 0, _, _ => none
  | _ + 1, _, [] => none
  | fuel + 1, buf, c :: t =>
    if c = quote then (if t = [] then some buf else none)
    else
      match unquoteChar quote (c :: t) with
      | none => none
      | some (r, tail) =>
        if c = '\n' then none
        else if quote = '\'' then
          -- a single-quoted text is one character: the closing quote must follow
          match tail with
          | q :: rest => if q = quote ∧ rest = [] then some (buf ++ [r]) else none
          | [] => none
        else unquoteLoop quote fuel (buf ++ [r]) tail

/-- `strconv.Unquote` on a text that starts with `"` or `'` (the sources call
it on nothing else): the text between the quotes with its escape sequences
replaced, `none` for a syntax error. -/
def unquote (s : Str) : Option Str :=
  match s with
  | [] => none
  | [_] => none
  | quote :: rest =>
    if quote ≠ '"' ∧ quote ≠ '\'' then none
    else
      match cut1 quote rest with
      | none => none
      | some (inner, after) =>
        if ¬ ('\\' ∈ inner) ∧ ¬ ('\n' ∈ inner) then
          -- no escape sequence up to the first closing quote
          if after ≠ [] then none
          else if quote = '"' then some inner
          else if inner.length ≤ 1 then some inner
          else none
        else unquoteLoop quote (rest.length + 1) [] rest

/-! ## package `regexp`

The eleven tag patterns and `compOpRe` are written with a few backtracking
combinators, one per regular-expression construct they use.  A combinator takes
the continuation that matches the rest of the pattern, and tries its own
alternatives in the order of Go's leftmost-first semantics (a greedy repetition
the longest run first, a lazy one the shortest first), so that the first
success is the match `FindStringSubmatch` reports. -/

/-- The class `\s` of RE2: tab, newline, form feed, carriage return, space. -/
def reSpace (c : Char) : Bool :=
  c = '\t' || c = '\n' || c.toNat = 12 || c = '\r' || c = ' '

/-- The class `\w` of RE2: `[0-9A-Za-z_]`. -/
def reWord (c : Char) : Bool :=
  isDigit c || (65 ≤ c.toNat && c.toNat ≤ 90) || (97 ≤ c.toNat && c.toNat ≤ 122) || c = '_'

/-- The class `.`: any character but newline. -/
def reDot (c : Char) : Bool := c ≠ '\n'

/-- Greedy `p*` and then `k`, which receives the text matched by `p*` and the
rest of the input. -/
def many {α : Type} (p : Char → Bool) : (Str → Str → Option α) → Str → Option α
  | k, [] => k [] []
  | k, c :: t =>
    if p c then
      match many p (fun cap rest => k (c :: cap) rest) t with
      | some r => some r
      | none => k [] (c :: t)
    else k [] (c :: t)

/-- Greedy `p+` and then `k`. -/
def many1 {α : Type} (p : Char → Bool) (k : Str → Str → Option α) : Str → Option α
  | [] => none
  | c :: t => if p c then many p (fun cap rest => k (c :: cap) rest) t else none

/-- Lazy `p*?` and then `k`. -/
def lazyMany {α : Type} (p : Char → Bool) : (Str → Str → Option α) → Str → Option α
  | k, [] => k [] []
  | k, c :: t =>
    match k [] (c :: t) with
    | some r => some r
    | none => if p c then lazyMany p (fun cap rest => k (c :: cap) rest) t else none

/-- The literal text `w` and then `k`. -/
def lit {α : Type} (w : Str) (k : Str → Option α) (s : Str) : Option α :=
  (dropPrefix? s w).bind k

/-- The anchor `$` (end of text) closing a pattern, with the captures `v`. -/
def eos {α : Type} (v : α) : Str → Option α
  | [] => some v
  | _ :: _ => none

/-- Greedy `(?:\.\w+)*` and then `k`; `fuel` bounds the number of
repetitions (each one consumes at least two characters). -/
def segs {α : Type} : Nat → (Str → Str → Option α) → Str → Option α
  | 0, k, s => k [] s
  | fuel + 1, k, s =>
    match lit ['.'] (many1 reWord fun w =>
        segs fuel fun cap rest => k ('.' :: w ++ cap) rest) s with
    | some r => some r
    | none => k [] s

/-- The pattern `^kw\s+(.+)$` for a keyword `kw`; the result is the capture. -/
def keywordPattern (kw : Str) (tag : Str) : Option Str :=
  lit kw (many1 reSpace fun _ => many1 reDot fun cap => eos cap) tag

/-- The pattern `^if\s+(.+)$`. -/
def ifPattern : Str → Option Str := keywordPattern "if".toList
/-- The pattern `^elseif\s+(.+)$`. -/
def elseifPattern : Str → Option Str := keywordPattern "elseif".toList
/-- The pattern `^switch\s+(.+)$`. -/
def switchPattern : Str → Option Str := keywordPattern "switch".toList
/-- The pattern `^case\s+(.+)$`. -/
def casePattern : Str → Option Str := keywordPattern "case".toList
/-- The pattern `^else$`. -/
def elsePattern (tag : Str) : Bool := tag = "else".toList
/-- The pattern `^/if$`. -/
def endifPattern (tag : Str) : Bool := tag = "/if".toList
/-- The pattern `^/for$`. -/
def endforPattern (tag : Str) : Bool := tag = "/for".toList
/-- The pattern `^default$`. -/
def defaultPattern (tag : Str) : Bool := tag = "default".toList
/-- The pattern `^/switch$`. -/
def endswitchPattern (tag : Str) : Bool := tag = "/switch".toList

/-- The pattern `^for\s+(.+)\s+in\s+(.+)$`; the result is the two captures. -/
def forPattern (tag : Str) : Option (Str × Str) :=
  lit "for".toList (many1 reSpace fun _ => many1 reDot fun a => many1 reSpace fun _ =>
    lit "in".toList (many1 reSpace fun _ => many1 reDot fun b => eos (a, b))) tag

/-- The pattern `^\s*(\w+(?:\.\w+)*)(?:\s*\|\s*"(.*?)")?\s*$`; the result is
the two captures, the second one empty when its group takes no part. -/
def varPattern (tag : Str) : Option (Str × Str) :=
  many reSpace (fun _ => many1 reWord fun w => segs tag.length fun ws rest =>
    match many reSpace (fun _ => lit ['|'] (many reSpace fun _ => lit ['"']
        (lazyMany reDot fun d => lit ['"'] (many reSpace fun _ => eos (w ++ ws, d))))) rest with
    | some r => some r
    | none => many reSpace (fun _ => eos (w ++ ws, [])) rest) tag

/-- The alternation `(==|!=|>=|<=|>|<)` at the head of `s`: the operator
matched and the rest. -/
def compOp (s : Str) : Option (Str × Str) :=
  match s with
  | '=' :: '=' :: r => some ("==".toList, r)
  | '!' :: '=' :: r => some ("!=".toList, r)
  | '>' :: '=' :: r => some (">=".toList, r)
  | '<' :: '=' :: r => some ("<=".toList, r)
  | '>' :: r => some (">".toList, r)
  | '<' :: r => some ("<".toList, r)
  | _ => none

/-- A match of `compOpRe`, `\s*(==|!=|>=|<=|>|<)\s*`, that starts at the head
of `s`: the operator and the text after the match. -/
def compOpAt (s : Str) : Option (Str × Str) :=
  many reSpace (fun _ r => (compOp r).map fun p => (p.1, p.2.dropWhile reSpace)) s

/-- The leftmost match of `compOpRe` in `s`: the text before the match, the
operator (`FindStringSubmatch(s)[1]`) and the text after the match; the first
and the last are the two pieces of `compOpRe.Split(s, 2)`.  `none` when
`compOpRe.MatchString(s)` is false. -/
def compOpRe : Str → Option (Str × Str × Str)
  | [] => none
  | c :: t =>
    match compOpAt (c :: t) with
    | some (op, right) => some ([], op, right)
    | none => (compOpRe t).map fun r => (c :: r.1, r.2.1, r.2.2)

/-! ## tokens.go -/

/-- `TokenType`. -/
inductive TokenType
  | TText
  | TVar
  | TIf
  | TElseIf
  | TElse
  | TEndIf
  | TFor
  | TEndFor
  | TSwitch
  | TCase
  | TDefault
  | TEndSwitch
  deriving DecidableEq, Repr

open TokenType

/-- `Token`. -/
structure Token where
  /-- `Type` -/
  type : TokenType
  /-- `Value` -/
  value : Str := []
  /-- `Default` -/
  dflt : Str := []
  /-- `Raw` -/
  raw : Str := []
  deriving DecidableEq, Repr

/-- The `switch` of `tokenize` on a tag: the token of the first pattern that
matches; for a tag no pattern matches, a text token holding `rest`. -/
def classifyTag (tag rest : Str) : Token :=
  match ifPattern tag with
  | some v => { type := TIf, value := v, raw := tag }
  | none =>
  match elseifPattern tag with
  | some v => { type := TElseIf, value := v, raw := tag }
  | none =>
  if elsePattern tag then { type := TElse, raw := tag }
  else if endifPattern tag then { type := TEndIf, raw := tag }
  else
  match forPattern tag with
  | some (a, b) => { type := TFor, value := trimSpace a ++ [':'] ++ trimSpace b, raw := tag }
  | none =>
  if endforPattern tag then { type := TEndFor, raw := tag }
  else
  match switchPattern tag with
  | some v => { type := TSwitch, value := v, raw := tag }
  | none =>
  match casePattern tag with
  | some v => { type := TCase, value := v, raw := tag }
  | none =>
  if defaultPattern tag then { type := TDefault, raw := tag }
  else if endswitchPattern tag then { type := TEndSwitch, raw := tag }
  else
  match varPattern tag with
  | some (v, d) => { type := TVar, value := v, dflt := d, raw := tag }
  | none => { type := TText, value := rest }

/-- The body of the loop of `tokenize`: the tokens of one piece of the input
split at the opening delimiter. -/
def tokenizePart (part0 : Str) : List Token :=
  let part := trimSpace part0
  if part = [] then []
  else
    match cut2 '}' '>' part with
    | some (sub0, rest) =>
      classifyTag (trimSpace sub0) rest ::
        (if rest ≠ [] then [{ type := TText, value := rest }] else [])
    | none => [{ type := TText, value := part }]

/-- The loop of `tokenize` over the pieces. -/
def tokenizeParts : List Str → List Token
  | [] => []
  | p :: ps => tokenizePart p ++ tokenizeParts ps

/-- `tokenize`. -/
def tokenize (input : Str) : List Token :=
  tokenizeParts (splitOn2 '<' '{' input)

/-- The opening delimiter of a tag. -/
def OPEN : Str := ['<', '{']
/-- The closing delimiter of a tag. -/
def CLOSE : Str := ['}', '>']
/-- The text of the tag with body `body`: the body between the delimiters. -/
def tag (body : String) : Str := OPEN ++ body.toList ++ CLOSE

/-! ## Values and contexts -/

/-- A Go value held in an `interface{}`.  `int` stands for a value of one of
the ten predeclared integer types, `float` for a `float32` or `float64`, `seq`
for a slice or an array, `map` for a map whose key type is `string` (as
`map[string]interface{}`).

`typedMap` is a map with any other key type: `shown` is what `%v` prints,
`len` its length, and `stringKind` tells whether the kind of the key type is
`reflect.String` (a defined type such as `type Key string`).

`record` is a struct: `shown` is what `%v` prints, and `fields` lists, for
every name that `reflect.Value.FieldByName` resolves, the value of that field,
`none` standing for a field the read of which panics: a field that is not
exported (`Interface()` panics), or a field promoted through an embedded
pointer that is nil (`FieldByName` panics).

`other` is a value of any other type (a function, a channel, a pointer, a
value of a defined type over `bool`, `string` or a number, ...) that `%v`
prints as `shown`. -/
inductive Value
  | null
  | bool (b : Bool)
  | int (i : Int)
  | float (f : F64)
  | str (s : Str)
  | seq (items : List Value)
  | map (entries : List (Str × Value))
  | typedMap (shown : Str) (len : Nat) (stringKind : Bool)
  | record (shown : Str) (fields : List (Str × Option Value))
  | other (shown : Str)

/-- A rendering context `map[string]interface{}`: the first pair with a key is
its entry. -/
abbrev Ctx := List (Str × Value)

/-- The map access `m[k]` with its `ok` flag. -/
def Ctx.get (m : Ctx) (k : Str) : Option Value :=
  match m with
  | [] => none
  | (k1, v) :: rest => if k1 = k then some v else Ctx.get rest k

/-- The map without its entry for `k`. -/
def Ctx.erase (m : Ctx) (k : Str) : Ctx :=
  match m with
  | [] => []
  | (k1, v) :: rest => if k1 = k then Ctx.erase rest k else (k1, v) :: Ctx.erase rest k

/-- The assignment `m[k] = v`. -/
def Ctx.set (m : Ctx) (k : Str) (v : Value) : Ctx := (k, v) :: Ctx.erase m k

/-- `shallowCopyMap`: a new map with the same entries (maps are values here, so
the copy is the map). -/
def shallowCopyMap (m : Ctx) : Ctx := m

/-- What the embedding takes as given: the three library functions it does not
model, and the package variable `AutoEscape`. -/
structure Env where
  /-- `fmt.Sprintf("%v", f)` for a `float64` (the shortest decimal text that
  reads back as `f`) -/
  fmtFloat : F64 → Str
  /-- `strings.ToUpper` (the Unicode upper-case mapping) -/
  toUpper : Str → Str
  /-- `strings.ToLower` (the Unicode lower-case mapping) -/
  toLower : Str → Str
  /-- The package variable `AutoEscape` -/
  autoEscape : Bool

/-- Insert a pair into a list of pairs sorted by key. -/
def insertByKey (e : Str × Str) : List (Str × Str) → List (Str × Str)
  | [] => [e]
  | x :: xs => if strLt x.1 e.1 then x :: insertByKey e xs else e :: x :: xs

/-- Sort pairs by key (`fmt` prints a map in the order of its keys). -/
def sortByKey : List (Str × Str) → List (Str × Str)
  | [] => []
  | x :: xs => insertByKey x (sortByKey xs)

mutual
/-- `fmt.Sprintf("%v", v)`. -/
def formatValue (E : Env) : Value → Str
  | .null => "<nil>".toList
  | .bool b => if b then "true".toList else "false".toList
  | .int i => formatInt i
  | .float f => E.fmtFloat f
  | .str s => s
  | .seq items => ['['] ++ join [' '] (formatSeq E items) ++ [']']
  | .map entries =>
    "map[".toList ++ join [' '] ((sortByKey (formatEntries E entries)).map
      fun e => e.1 ++ [':'] ++ e.2) ++ [']']
  | .typedMap shown _ _ => shown
  | .record shown _ => shown
  | .other shown => shown
/-- The elements of a slice, each printed with `%v`. -/
def formatSeq (E : Env) : List Value → List Str
  | [] => []
  | v :: vs => formatValue E v :: formatSeq E vs
/-- The entries of a map, each value printed with `%v`. -/
def formatEntries (E : Env) : List (Str × Value) → List (Str × Str)
  | [] => []
  | (k, v) :: es => (k, formatValue E v) :: formatEntries E es
end

/-! ## eval.go: lookup, literals, comparison, truthiness -/

/-- The test `lookup` and `literalFromString` make for a quoted text:
`(HasPrefix(s, "\"") && HasSuffix(s, "\"")) || (HasPrefix(s, "'") && HasSuffix(s, "'"))`. -/
def isQuoted (s : Str) : Bool :=
  (hasPrefix s ['"'] && hasSuffix s ['"']) || (hasPrefix s ['\''] && hasSuffix s ['\''])

/-- `reflect.Value.FieldByName` on a struct with the field table `fields`:
`none` when the result is not valid (no field of that name), otherwise the
field, itself `none` when reading it panics. -/
def fieldByName (fields : List (Str × Option Value)) (seg : Str) : Option (Option Value) :=
  match fields with
  | [] => none
  | (k, f) :: rest => if k = seg then some f else fieldByName rest seg

/-- The loop of `lookup` over the segments of a dotted path, from the value
`cur`.  A map with key type `string` is indexed by the segment.  A map whose
key type is another type of kind `reflect.String` makes `MapIndex` panic (the
key passed is a `string`), a map with any other key type is a miss.  A struct
is entered by the field of that name, a miss when there is none and a panic
when the field cannot be read (`Interface()` on a field that is not exported).
Nothing else can be entered. -/
def lookupPath : Value → List Str → Outcome (Option Value)
  | cur, [] => .ok (some cur)
  | cur, seg :: segs =>
    match cur with
    | .map entries =>
      match Ctx.get entries seg with
      | none => .ok none
      | some v => lookupPath v segs
    | .typedMap _ _ stringKind => if stringKind then .fault else .ok none
    | .record _ fs =>
      match fieldByName fs seg with
      | none => .ok none
      | some none => .fault
      | some (some v) => lookupPath v segs
    | _ => .ok none

/-- `lookup`: the value and `true` (`.ok (some v)`), `nil, false` (`.ok none`),
or a panic inside package `reflect` (`.fault`). -/
def lookup (data : Ctx) (path : Str) : Outcome (Option Value) :=
  let p := trimSpace path
  if p = [] then .ok none
  else
    match (if isQuoted p then unquote p else none) with
    | some unq => .ok (some (.str unq))
    | none =>
      match atoi p with
      | some i => .ok (some (.int i))
      | none =>
        match parseFloat p with
        | some f => .ok (some (.float f))
        | none =>
          if p = "true".toList then .ok (some (.bool true))
          else if p = "false".toList then .ok (some (.bool false))
          else lookupPath (.map data) (splitOn1 '.' p)

/-- `lookupVal`: the value of `lookup`, `nil` when there is none. -/
def lookupVal (data : Ctx) (path : Str) : Outcome Value :=
  (lookup data path).bind fun r => .ok (r.getD .null)

/-- `literalFromString`.  The slice `s[1 : len(s)-1]` taken when `Unquote`
fails panics for a text of one character. -/
def literalFromString (s0 : Str) : Outcome Value :=
  let s := trimSpace s0
  if isQuoted s then
    match unquote s with
    | some unq => .ok (.str unq)
    | none =>
      if s.length < 2 then .fault
      else .ok (.str ((s.drop 1).take (s.length - 2)))
  else if s = "true".toList then .ok (.bool true)
  else if s = "false".toList then .ok (.bool false)
  else
    match atoi s with
    | some i => .ok (.int i)
    | none =>
      match parseFloat s with
      | some f => .ok (.float f)
      | none => .ok (.str s)

/-- `toFloat`: the number and `true` (`some`), or `0, false` (`none`). -/
def toFloat (E : Env) : Value → Option F64
  | .int i => some (F64.ofInt i)
  | .float f => some f
  | v =>
    let s := formatValue E v
    if s ≠ [] then parseFloat s else none

/-- The last part of `compareValues`: the comparison of the two values printed
with `%v`, and the error for an operator that is none of the six. -/
def compareStrings (E : Env) (a b : Value) (op : Str) : Outcome Bool :=
  let as := formatValue E a
  let bs := formatValue E b
  if op = "==".toList then .ok (decide (as = bs))
  else if op = "!=".toList then .ok (decide (as ≠ bs))
  else if op = ">".toList then .ok (strLt bs as)
  else if op = "<".toList then .ok (strLt as bs)
  else if op = ">=".toList then .ok (!(strLt as bs))
  else if op = "<=".toList then .ok (!(strLt bs as))
  else .error .unsupportedComparison

/-- The middle part of `compareValues`: two booleans under `==` and `!=`;
everything else goes on to the comparison of strings. -/
def compareBools (E : Env) (a b : Value) (op : Str) : Outcome Bool :=
  match a, b with
  | .bool ab, .bool bb =>
    if op = "==".toList then .ok (decide (ab = bb))
    else if op = "!=".toList then .ok (decide (ab ≠ bb))
    else compareStrings E a b op
  | _, _ => compareStrings E a b op

/-- `compareValues`. -/
def compareValues (E : Env) (a b : Value) (op : Str) : Outcome Bool :=
  match toFloat E a, toFloat E b with
  | some af, some bf =>
    if op = "==".toList then .ok (F64.eq af bf)
    else if op = "!=".toList then .ok (F64.ne af bf)
    else if op = ">".toList then .ok (F64.gt af bf)
    else if op = "<".toList then .ok (F64.lt af bf)
    else if op = ">=".toList then .ok (F64.ge af bf)
    else if op = "<=".toList then .ok (F64.le af bf)
    else compareBools E a b op
  | _, _ => compareBools E a b op

/-- `condTruthy`. -/
def condTruthy : Value → Bool
  | .null => false
  | .bool t => t
  | .str t => decide (t ≠ [])
  | .int i => decide (i ≠ 0)
  | .float f => F64.ne f (F64.fin 0)
  | .seq items => decide (0 < items.length)
  | .map entries => decide (0 < entries.length)
  | .typedMap _ len _ => decide (0 < len)
  | .record _ _ => true
  | .other _ => true

/-! ## eval.go: conditions -/

/-- The loop of `splitLogical` over the words, `cur` being the operand under
construction. -/
def splitLogicalLoop : Str → List Str → List Str
  | cur, [] => if cur ≠ [] then [trimSpace cur] else []
  | cur, w :: ws =>
    if w = "and".toList ∨ w = "or".toList then trimSpace cur :: w :: splitLogicalLoop [] ws
    else splitLogicalLoop (if cur = [] then w else cur ++ [' '] ++ w) ws

/-- `splitLogical`. -/
def splitLogical (expr : Str) : List Str :=
  splitLogicalLoop [] (fields (trimSpace expr))

/-- The operand resolution of `evalSimpleCond`: `lookup`, and on a miss
`literalFromString`. -/
def lookupOrLiteral (data : Ctx) (s : Str) : Outcome Value :=
  (lookup data s).bind fun r =>
  match r with
  | some v => .ok v
  | none => literalFromString s

/-- `evalSimpleCond`. -/
def evalSimpleCond (E : Env) (cond : Str) (data : Ctx) : Outcome Bool :=
  match compOpRe cond with
  | some (l, op, r) =>
    (lookupOrLiteral data (trimSpace l)).bind fun lv =>
    (lookupOrLiteral data (trimSpace r)).bind fun rv =>
    compareValues E lv rv op
  | none =>
    (lookup data cond).bind fun r =>
    match r with
    | some v => .ok (condTruthy v)
    | none => (literalFromString cond).bind fun v2 => .ok (condTruthy v2)

/-- The loop of `evalCondition` from index `i` on, the list being
`tokens[i:]`: it reads `tokens[i]` (the operator) and `tokens[i+1]` (the next
operand), and the latter read panics when the list has one element left. -/
def evalConditionLoop (E : Env) (data : Ctx) : Bool → List Str → Outcome Bool
  | res, [] => .ok res
  | _, [_] => .fault
  | res, op :: nextExpr :: rest =>
    (evalSimpleCond E (trimSpace nextExpr) data).bind fun nextRes =>
    if trimSpace op = "and".toList then evalConditionLoop E data (res && nextRes) rest
    else if trimSpace op = "or".toList then evalConditionLoop E data (res || nextRes) rest
    else .error .unknownLogicalOp

/-- `evalCondition`. -/
def evalCondition (E : Env) (expr : Str) (data : Ctx) : Outcome Bool :=
  match splitLogical expr with
  | [] => .ok false
  | t0 :: rest =>
    (evalSimpleCond E (trimSpace t0) data).bind fun res =>
    evalConditionLoop E data res rest

/-- The internal name the scrutinee of a switch is bound to. -/
def switchName : Str := "__switch__".toList

/-- The loop of `evalConditionWithValue` over the comma-separated parts of a
case expression. -/
def caseParts (E : Env) (value : Value) (tmp : Ctx) : List Str → Outcome Bool
  | [] => .ok false
  | p0 :: ps =>
    let p := trimSpace p0
    (literalFromString p).bind fun lit =>
    if compareValues E value lit "==".toList = .ok true then .ok true
    else
      match evalCondition E p tmp with
      | .ok true => .ok true
      | .fault => .fault
      | _ => caseParts E value tmp ps

/-- `evalConditionWithValue`. -/
def evalConditionWithValue (E : Env) (condExpr : Str) (value : Value) (data : Ctx) :
    Outcome Bool :=
  let tmp := (shallowCopyMap data).set switchName value
  let s := trimSpace condExpr
  if s = [] then .ok false
  else if s = ".".toList ∨ s = "value".toList ∨ s = switchName then .ok (condTruthy value)
  else if ',' ∈ s then caseParts E value tmp (splitOn1 ',' s)
  else if (compOpRe s).isSome then evalCondition E (replaceAll1 '.' switchName s) tmp
  else
    (literalFromString s).bind fun lit =>
    if compareValues E value lit "==".toList = .ok true then .ok true
    else if formatValue E value = formatValue E lit then .ok true
    else
      match evalCondition E (replaceAll1 '.' switchName s) tmp with
      | .ok res => .ok res
      | .fault => .fault
      | _ => .ok false

/-! ## nodes.go -/

/-- `Node`: the five node types.  An `IfBranch` is the pair of its `Expr` and
`Body`, a `SwitchCase` the pair of its `Cond` and `Body`. -/
inductive Node
  | TextNode (text : Str)
  | VarNode (name dflt : Str) (filters : List Str)
  | IfNode (branches : List (Str × List Node)) (els : List Node)
  | ForNode (indexVar itemVar listExpr : Str) (body : List Node)
  | SwitchNode (expr : Str) (cases : List (Str × List Node)) (dflt : List Node)

open Node

/-- `containsFilter`. -/
def containsFilter (filters : List Str) (name : Str) : Bool := decide (name ∈ filters)

/-- `applyFilter`. -/
def applyFilter (E : Env) (name input : Str) : Str :=
  if name = "upper".toList then E.toUpper input
  else if name = "lower".toList then E.toLower input
  else if name = "escape".toList then escapeString input
  else input

/-- `(*VarNode).Eval`. -/
def evalVar (E : Env) (name dflt : Str) (filters : List Str) (data : Ctx) : Outcome Str :=
  (lookup data name).bind fun r =>
  let out0 : Str :=
    match r with
    | some val => formatValue E val
    | none => if dflt ≠ [] then dflt else []
  let out := filters.foldl (fun o f => applyFilter E f o) out0
  if E.autoEscape then
    if !containsFilter filters "raw".toList && !containsFilter filters "safe".toList
        && !containsFilter filters "noescape".toList then .ok (escapeString out)
    else .ok out
  else .ok out

/-- The loop of `(*ForNode).Eval` from index `i` on, over the elements
`v.Index(i)`, ... that are left; `body` renders the body of the loop in a
context. -/
def forLoop (body : Ctx → Outcome Str) (indexVar itemVar : Str) (data : Ctx) (length : Nat) :
    Nat → List Value → Outcome Str
  | _, [] => .ok []
  | i, item :: rest =>
    let newData0 := shallowCopyMap data
    let newData1 := if indexVar ≠ [] then newData0.set indexVar (.int i) else newData0
    let newData2 := newData1.set itemVar item
    let loopMeta : Value := .map
      [("Index".toList, .int i), ("First".toList, .bool (decide (i = 0))),
       ("Last".toList, .bool (decide ((i : Int) = (length : Int) - 1))),
       ("Length".toList, .int length)]
    let newData := newData2.set "loop".toList loopMeta
    (body newData).bind fun out =>
    (forLoop body indexVar itemVar data length (i + 1) rest).bind fun more =>
    .ok (out ++ more)

mutual
/-- The method `Eval` of a node. -/
def Node.Eval (E : Env) : Node → Ctx → Outcome Str
  | TextNode text, _ => .ok text
  | VarNode name dflt filters, data => evalVar E name dflt filters data
  | IfNode branches els, data =>
    match evalBranches E branches data with
    | some r => r
    | none => evalNodes E els data
  | ForNode indexVar itemVar listExpr body, data =>
    (lookup data listExpr).bind fun r =>
    match r with
    | some (.seq items) =>
      forLoop (fun d => evalNodes E body d) indexVar itemVar data items.length 0 items
    | _ => .ok []
  | SwitchNode expr cases dflt, data =>
    (lookupVal data expr).bind fun val =>
    match evalCases E val cases data with
    | some r => r
    | none => evalNodes E dflt data
/-- `evalNodes`. -/
def evalNodes (E : Env) : List Node → Ctx → Outcome Str
  | [], _ => .ok []
  | n :: ns, data =>
    (Node.Eval E n data).bind fun a => (evalNodes E ns data).bind fun b => .ok (a ++ b)
/-- The loop of `(*IfNode).Eval` over the branches: what the first branch whose
condition is true with a nil error renders, `none` when the loop ends. -/
def evalBranches (E : Env) : List (Str × List Node) → Ctx → Option (Outcome Str)
  | [], _ => none
  | (expr, body) :: bs, data =>
    match evalCondition E expr data with
    | .ok true => some (evalNodes E body data)
    | .fault => some .fault
    | _ => evalBranches E bs data
/-- The loop of `(*SwitchNode).Eval` over the cases. -/
def evalCases (E : Env) (val : Value) : List (Str × List Node) → Ctx → Option (Outcome Str)
  | [], _ => none
  | (cond, body) :: cs, data =>
    match evalConditionWithValue E cond val data with
    | .ok true => some (evalNodes E body data)
    | .fault => some .fault
    | _ => evalCases E val cs data
end

/-! ## eval.go: the compiler from tokens to nodes -/

/-- Append a node to the body of the last branch (`*currentBody = append(...)`
when `currentBody` points into `branches`). -/
def appendLast (n : Node) : List (Str × List Node) → List (Str × List Node)
  | [] => []
  | [b] => [(b.1, b.2 ++ [n])]
  | b :: c :: bs => b :: appendLast n (c :: bs)

/-- The local variables of `parseIf`: `branches`, `elseBody`, and where
`currentBody` points (at `elseBody`, or at the body of the last branch). -/
structure IfState where
  branches : List (Str × List Node)
  elseBody : List Node
  inElse : Bool

/-- The statement `*currentBody = append(*currentBody, n)` of `parseIf`. -/
def IfState.append (st : IfState) (n : Node) : IfState :=
  if st.inElse then { st with elseBody := st.elseBody ++ [n] }
  else { st with branches := appendLast n st.branches }

/-- The local variables of `parseSwitch`: the node under construction,
`currentCond` and `currentBody`. -/
structure SwitchState where
  expr : Str
  cases : List (Str × List Node)
  dflt : List Node
  currentCond : Str
  currentBody : List Node

/-- The closure `flushCase` of `parseSwitch`. -/
def SwitchState.flushCase (st : SwitchState) : SwitchState :=
  let st1 : SwitchState :=
    if st.currentCond ≠ [] then { st with cases := st.cases ++ [(st.currentCond, st.currentBody)] }
    else if 0 < st.currentBody.length then { st with dflt := st.currentBody }
    else st
  { st1 with currentCond := [], currentBody := [] }

/-- The statement `currentBody = append(currentBody, n)` of `parseSwitch`. -/
def SwitchState.append (st : SwitchState) (n : Node) : SwitchState :=
  { st with currentBody := st.currentBody ++ [n] }

/-- The head of `parseFor`: the `ForNode` with an empty body that the value of
the `for` token gives (`indexVar`, `itemVar`, `listExpr`), or the error for a
value without `:`. -/
def forHead (value : Str) : Outcome (Str × Str × Str) :=
  match cut1 ':' value with
  | none => .error .invalidFor
  | some (p0, p1) =>
    let left := trimSpace p0
    let listExpr := trimSpace p1
    match cut1 ',' left with
    | some (a, b) => .ok (trimSpace a, trimSpace b, listExpr)
    | none => .ok ([], left, listExpr)

mutual
/-- The loop of `compileTokens` from index `i` on, with the nodes built so
far.  Every step of a loop spends one unit of `fuel`. -/
def compileLoop : Nat → List Token → Nat → List Node → Outcome (List Node)
  | 0, _, _, _ => .diverge
  | fuel + 1, tokens, i, nodes =>
    match tokens[i]? with
    | none => .ok nodes
    | some t =>
      match t.type with
      | TText => compileLoop fuel tokens (i + 1) (nodes ++ [TextNode t.value])
      | TVar => compileLoop fuel tokens (i + 1) (nodes ++ [VarNode t.value t.dflt []])
      | TIf =>
        match parseIfLoop fuel tokens i ⟨[(t.value, [])], [], false⟩ 0 (i + 1) with
        | .ok (ifNode, ni) => compileLoop fuel tokens ni (nodes ++ [ifNode])
        | .error e => .error e
        | .fault => .fault
        | .diverge => .diverge
      | TFor =>
        match forHead t.value with
        | .ok (iv, it, le) =>
          match parseForLoop fuel tokens i iv it le [] 0 (i + 1) with
          | .ok (forNode, ni) => compileLoop fuel tokens ni (nodes ++ [forNode])
          | .error e => .error e
          | .fault => .fault
          | .diverge => .diverge
        | .error e => .error e
        | .fault => .fault
        | .diverge => .diverge
      | TSwitch =>
        match parseSwitchLoop fuel tokens i ⟨t.value, [], [], [], []⟩ 0 (i + 1) with
        | .ok (switchNode, ni) => compileLoop fuel tokens ni (nodes ++ [switchNode])
        | .error e => .error e
        | .fault => .fault
        | .diverge => .diverge
      | _ => .error .unexpectedToken
termination_by structural fuel => fuel
/-- The loop of `parseIf` (started at token `start`) from index `i` on. -/
def parseIfLoop : Nat → List Token → Nat → IfState → Nat → Nat → Outcome (Node × Nat)
  | 0, _, _, _, _, _ => .diverge
  | fuel + 1, tokens, start, st, depth, i =>
    match tokens[i]? with
    | none => .error .unclosedIf
    | some t =>
      match t.type with
      | TIf =>
        match parseIfLoop fuel tokens i ⟨[(t.value, [])], [], false⟩ 0 (i + 1) with
        | .ok (nested, ni) => parseIfLoop fuel tokens start (st.append nested) depth ni
        | .error e => .error e
        | .fault => .fault
        | .diverge => .diverge
      | TEndIf =>
        if depth = 0 then .ok (IfNode st.branches st.elseBody, i + 1)
        else parseIfLoop fuel tokens start (st.append (TextNode t.value)) (depth - 1) i
      | TElseIf =>
        if depth = 0 then
          parseIfLoop fuel tokens start
            { st with branches := st.branches ++ [(t.value, [])], inElse := false } depth (i + 1)
        else parseIfLoop fuel tokens start (st.append (TextNode t.value)) depth i
      | TElse =>
        if depth = 0 then
          parseIfLoop fuel tokens start { st with elseBody := [], inElse := true } depth (i + 1)
        else parseIfLoop fuel tokens start (st.append (TextNode t.value)) depth i
      | TFor =>
        match forHead t.value with
        | .ok (iv, it, le) =>
          match parseForLoop fuel tokens i iv it le [] 0 (i + 1) with
          | .ok (fnode, ni) => parseIfLoop fuel tokens start (st.append fnode) depth ni
          | .error e => .error e
          | .fault => .fault
          | .diverge => .diverge
        | .error e => .error e
        | .fault => .fault
        | .diverge => .diverge
      | TSwitch =>
        match parseSwitchLoop fuel tokens i ⟨t.value, [], [], [], []⟩ 0 (i + 1) with
        | .ok (snode, ni) => parseIfLoop fuel tokens start (st.append snode) depth ni
        | .error e => .error e
        | .fault => .fault
        | .diverge => .diverge
      | TText => parseIfLoop fuel tokens start (st.append (TextNode t.value)) depth (i + 1)
      | TVar => parseIfLoop fuel tokens start (st.append (VarNode t.value t.dflt [])) depth (i + 1)
      | _ => .error .unexpectedInIf
termination_by structural fuel => fuel
/-- The loop of `parseFor` (started at token `start`) from index `i` on, the
node under construction being `ForNode indexVar itemVar listExpr body`. -/
def parseForLoop : Nat → List Token → Nat → Str → Str → Str → List Node → Nat → Nat →
    Outcome (Node × Nat)
  | 0, _, _, _, _, _, _, _, _ => .diverge
  | fuel + 1, tokens, start, indexVar, itemVar, listExpr, body, depth, i =>
    match tokens[i]? with
    | none => .error .unclosedFor
    | some t =>
      match t.type with
      | TFor =>
        match forHead t.value with
        | .ok (iv, it, le) =>
          match parseForLoop fuel tokens i iv it le [] 0 (i + 1) with
          | .ok (nf, ni) =>
            parseForLoop fuel tokens start indexVar itemVar listExpr (body ++ [nf]) depth ni
          | .error e => .error e
          | .fault => .fault
          | .diverge => .diverge
        | .error e => .error e
        | .fault => .fault
        | .diverge => .diverge
      | TEndFor =>
        if depth = 0 then .ok (ForNode indexVar itemVar listExpr body, i + 1)
        else
          parseForLoop fuel tokens start indexVar itemVar listExpr
            (body ++ [TextNode t.value]) (depth - 1) i
      | TIf =>
        match parseIfLoop fuel tokens i ⟨[(t.value, [])], [], false⟩ 0 (i + 1) with
        | .ok (ifn, ni) =>
          parseForLoop fuel tokens start indexVar itemVar listExpr (body ++ [ifn]) depth ni
        | .error e => .error e
        | .fault => .fault
        | .diverge => .diverge
      | TSwitch =>
        match parseSwitchLoop fuel tokens i ⟨t.value, [], [], [], []⟩ 0 (i + 1) with
        | .ok (sn, ni) =>
          parseForLoop fuel tokens start indexVar itemVar listExpr (body ++ [sn]) depth ni
        | .error e => .error e
        | .fault => .fault
        | .diverge => .diverge
      | TText =>
        parseForLoop fuel tokens start indexVar itemVar listExpr
          (body ++ [TextNode t.value]) depth (i + 1)
      | TVar =>
        parseForLoop fuel tokens start indexVar itemVar listExpr
          (body ++ [VarNode t.value t.dflt []]) depth (i + 1)
      | _ => .error .unexpectedInFor
termination_by structural fuel => fuel
/-- The loop of `parseSwitch` (started at token `start`) from index `i` on. -/
def parseSwitchLoop : Nat → List Token → Nat → SwitchState → Nat → Nat → Outcome (Node × Nat)
  | 0, _, _, _, _, _ => .diverge
  | fuel + 1, tokens, start, st, depth, i =>
    match tokens[i]? with
    | none => .error .unclosedSwitch
    | some t =>
      match t.type with
      | TSwitch =>
        -- `depth++` comes before the recursive call
        match parseSwitchLoop fuel tokens i ⟨t.value, [], [], [], []⟩ 0 (i + 1) with
        | .ok (nn, ni) => parseSwitchLoop fuel tokens start (st.append nn) (depth + 1) ni
        | .error e => .error e
        | .fault => .fault
        | .diverge => .diverge
      | TEndSwitch =>
        if depth = 0 then
          let st1 := st.flushCase
          .ok (SwitchNode st1.expr st1.cases st1.dflt, i + 1)
        else
          parseSwitchLoop fuel tokens start (st.append (TextNode t.value)) (depth - 1) (i + 1)
      | TCase =>
        if depth = 0 then
          parseSwitchLoop fuel tokens start { st.flushCase with currentCond := t.value } depth
            (i + 1)
        else parseSwitchLoop fuel tokens start (st.append (TextNode t.value)) depth (i + 1)
      | TDefault =>
        if depth = 0 then
          parseSwitchLoop fuel tokens start { st.flushCase with currentCond := [] } depth (i + 1)
        else parseSwitchLoop fuel tokens start (st.append (TextNode t.value)) depth (i + 1)
      | TIf =>
        match parseIfLoop fuel tokens i ⟨[(t.value, [])], [], false⟩ 0 (i + 1) with
        | .ok (n, ni) => parseSwitchLoop fuel tokens start (st.append n) depth ni
        | .error e => .error e
        | .fault => .fault
        | .diverge => .diverge
      | TFor =>
        match forHead t.value with
        | .ok (iv, it, le) =>
          match parseForLoop fuel tokens i iv it le [] 0 (i + 1) with
          | .ok (fn, ni) => parseSwitchLoop fuel tokens start (st.append fn) depth ni
          | .error e => .error e
          | .fault => .fault
          | .diverge => .diverge
        | .error e => .error e
        | .fault => .fault
        | .diverge => .diverge
      | TText => parseSwitchLoop fuel tokens start (st.append (TextNode t.value)) depth (i + 1)
      | TVar =>
        parseSwitchLoop fuel tokens start (st.append (VarNode t.value t.dflt [])) depth (i + 1)
      | _ => .error .unexpectedInSwitch
termination_by structural fuel => fuel
end

/-- `parseIf(tokens, start)` with `fuel` units for its loop; reading
`tokens[start]` panics when `start` is out of range. -/
def parseIf (fuel : Nat) (tokens : List Token) (start : Nat) : Outcome (Node × Nat) :=
  match tokens[start]? with
  | none => .fault
  | some t => parseIfLoop fuel tokens start ⟨[(t.value, [])], [], false⟩ 0 (start + 1)

/-- `parseFor(tokens, start)` with `fuel` units for its loop. -/
def parseFor (fuel : Nat) (tokens : List Token) (start : Nat) : Outcome (Node × Nat) :=
  match tokens[start]? with
  | none => .fault
  | some t =>
    match forHead t.value with
    | .ok (iv, it, le) => parseForLoop fuel tokens start iv it le [] 0 (start + 1)
    | .error e => .error e
    | .fault => .fault
    | .diverge => .diverge

/-- `parseSwitch(tokens, start)` with `fuel` units for its loop. -/
def parseSwitch (fuel : Nat) (tokens : List Token) (start : Nat) : Outcome (Node × Nat) :=
  match tokens[start]? with
  | none => .fault
  | some t => parseSwitchLoop fuel tokens start ⟨t.value, [], [], [], []⟩ 0 (start + 1)

/-- `compileTokens`.  Every step of the loops consumes a token, so that
`len(tokens) + 1` units of fuel are never spent. -/
def compileTokens (tokens : List Token) : Outcome (List Node) :=
  compileLoop (tokens.length + 1) tokens 0 []

/-! ## vingo.go: rendering, the cache of compiled templates -/

/-- The two steps of `getOrCompile` that do not touch the file system or the
cache, followed by the evaluation loop of `Render`: tokenize the source,
compile the tokens, evaluate the nodes in the context. -/
def renderSource (E : Env) (source : Str) (data : Ctx) : Outcome Str :=
  (compileTokens (tokenize source)).bind fun nodes => evalNodes E nodes data

/-- A `time.Time` as far as the package looks at it: the instant, which is
what `Equal` compares, and the location, which it does not compare. -/
structure Time where
  instant : Int
  location : Nat
  deriving DecidableEq

/-- `time.Time.Equal`: the same instant, whatever the locations. -/
def Time.Equal (t u : Time) : Bool := decide (t.instant = u.instant)

/-- `Template`: a compiled template. -/
structure Template where
  filepath : Str
  nodes : List Node
  modTime : Time

/-- The package variable `tplCache`, a `map[string]*Template`: the entry of each
path that has one. -/
abbrev Cache := Str → Option Template

/-- The assignment `tplCache[path] = tpl`. -/
def Cache.set (cache : Cache) (path : Str) (tpl : Template) : Cache :=
  fun k => if k = path then some tpl else cache k

/-- The file system as `getOrCompile` sees it: `os.Stat(path)` followed by
`ModTime()`, and `os.ReadFile(path)`; `none` stands for a non-nil error. -/
structure FileSystem where
  stat : Str → Option Time
  readFile : Str → Option Str

/-- `getOrCompile`, with the cache as explicit state: what the call returns, and
the cache after the call. -/
def getOrCompile (fs : FileSystem) (cache : Cache) (path : Str) : Outcome Template × Cache :=
  match fs.stat path with
  | none => (.error .statFailed, cache)
  | some mod =>
    let hit : Option Template :=
      match cache path with
      | some tpl => if tpl.modTime.Equal mod then some tpl else none
      | none => none
    match hit with
    | some tpl => (.ok tpl, cache)
    | none =>
      match fs.readFile path with
      | none => (.error .readFailed, cache)
      | some content =>
        match compileTokens (tokenize content) with
        | .ok nodes =>
          let newTpl : Template := { filepath := path, nodes := nodes, modTime := mod }
          (.ok newTpl, cache.set path newTpl)
        | .error e => (.error e, cache)
        | .fault => (.fault, cache)
        | .diverge => (.diverge, cache)

/-- An `Env` for evaluating the embedding on concrete input: `AutoEscape` has
its initial value `true`; `toUpper` and `toLower` map the letters `a` to `z`
and `A` to `Z` and leave every other character, which is what
`strings.ToUpper` and `strings.ToLower` do on ASCII text; `fmtFloat` is the
constant `"NaN"`, which is right for the one `float64` the examples could
print (none of them prints a floating-point number). -/
def Env.sample : Env where
  fmtFloat := fun _ => "NaN".toList
  toUpper := fun s => s.map Char.toUpper
  toLower := fun s => s.map Char.toLower
  autoEscape := true

/-! ## Vocabulary of the statements -/

/-- A text token. -/
def textTok (v : Str) : Token := { type := TText, value := v }
/-- The variable token of a tag that is a plain name. -/
def varTok (name : String) : Token := { type := TVar, value := name.toList, raw := name.toList }

/-- The concatenation of the values of a list of tokens. -/
def concatValues : List Token → Str
  | [] => []
  | t :: ts => t.value ++ concatValues ts

/-- The text token that follows a tag, if there is text. -/
def optText (X : Str) : List Token := if X ≠ [] then [textTok X] else []

/-- The body of a branch that holds the text `X`, if there is text. -/
def optNodes (X : Str) : List Node := if X ≠ [] then [TextNode X] else []

/-- The template `<{ if p }>A<{ elseif q }>B<{ else }>C<{ /if }>`. -/
def ifElseTemplate (A B C : Str) : Str :=
  tag " if p " ++ A ++ tag " elseif q " ++ B ++ tag " else " ++ C ++ tag " /if "

/-- The template of the switch with a comma case. -/
def switchCommaTemplate : Str :=
  tag " switch n " ++ tag " case 1, 2 " ++ "low".toList ++ tag " default " ++ "hi".toList
    ++ tag " /switch "

/-- An identifier: a non-empty word of letters, digits and underscores. -/
def IsWord (x : Str) : Prop := x ≠ [] ∧ ∀ c ∈ x, reWord c = true

/-- The template `<{ if x }>A<{ else }>B<{ /if }>` for a condition `x`. -/
def ifTemplate (x : Str) : Str :=
  OPEN ++ " if ".toList ++ x ++ " ".toList ++ CLOSE ++ "A".toList ++ tag " else " ++ "B".toList
    ++ tag " /if "

/-- The keyword of a logical operator. -/
def opWord (isAnd : Bool) : Str := if isAnd then "and".toList else "or".toList

/-- The words of the operators and operands that follow the first operand: each
entry is an operator (`true` for `and`), the words of its operand and the value
of that operand. -/
def restWords : List (Bool × List Str × Bool) → List Str
  | [] => []
  | (isAnd, ws, _) :: r => opWord isAnd :: ws ++ restWords r

/-- The text of the condition `o1 op1 o2 ... op(k-1) ok`: its words separated
by one space. -/
def condText (o1 : List Str) (rest : List (Bool × List Str × Bool)) : Str :=
  join [' '] (o1 ++ restWords rest)

/-- The left fold of the operand values under the operators, from `v1`. -/
def foldCond (v1 : Bool) : List (Bool × List Str × Bool) → Bool
  | [] => v1
  | (isAnd, _, v) :: r => foldCond (if isAnd then v1 && v else v1 || v) r

/-- A word of an operand: not empty, without white space, and not a keyword. -/
def IsOperandWord (w : Str) : Prop :=
  w ≠ [] ∧ (∀ c ∈ w, isSpace c = false) ∧ w ≠ "and".toList ∧ w ≠ "or".toList

/-- The words of an operand: at least one. -/
def IsOperand (ws : List Str) : Prop := ws ≠ [] ∧ ∀ w ∈ ws, IsOperandWord w

/-- The operand `splitLogical` has built after the words `ws`, from `cur`. -/
def accWords (cur : Str) : List Str → Str
  | [] => cur
  | w :: ws => accWords (if cur = [] then w else cur ++ [' '] ++ w) ws

/-- The tokens `splitLogical` returns after the first operand. -/
def restTokens : List (Bool × List Str × Bool) → List Str
  | [] => []
  | (isAnd, ws, _) :: r => opWord isAnd :: join [' '] ws :: restTokens r

/-- One step of reading a decimal number: the value after the digit `c`. -/
def digitStep (acc : Nat) (c : Char) : Nat := acc * 10 + (c.toNat - 48)

/-- The comparison `m op n` of two integers, for the six operators. -/
def cmpInt (op : Str) (m n : Int) : Option Bool :=
  if op = "==".toList then some (decide (m = n))
  else if op = "!=".toList then some (decide (m ≠ n))
  else if op = ">".toList then some (decide (m > n))
  else if op = "<".toList then some (decide (m < n))
  else if op = ">=".toList then some (decide (m ≥ n))
  else if op = "<=".toList then some (decide (m ≤ n))
  else none

/-- The comparison `x op y` of two doubles, for the six operators. -/
def cmpF64 (op : Str) (x y : F64) : Option Bool :=
  if op = "==".toList then some (F64.eq x y)
  else if op = "!=".toList then some (F64.ne x y)
  else if op = ">".toList then some (F64.gt x y)
  else if op = "<".toList then some (F64.lt x y)
  else if op = ">=".toList then some (F64.ge x y)
  else if op = "<=".toList then some (F64.le x y)
  else none

/-- The template of the loop with its metadata. -/
def forTemplate : Str :=
  tag " for i, x in items " ++ tag " i " ++ ":".toList ++ tag " x " ++ "(".toList
    ++ tag " loop.First " ++ ",".toList ++ tag " loop.Last " ++ ") ".toList ++ tag " /for "

/-- The text `%v` prints for a boolean. -/
def boolText (b : Bool) : Str := if b then "true".toList else "false".toList

/-- What the body of the loop renders for the element `x` at index `i` of `k`
elements: `i:x(F,L)`. -/
def forLine (k i : Nat) (x : Str) : Str :=
  formatInt i ++ ":".toList ++ x ++ "(".toList ++ boolText (decide (i = 0)) ++ ",".toList
    ++ boolText (decide (i + 1 = k)) ++ ")".toList

/-- The lines of the elements from index `i` on, one after the other. -/
def forOutput (k : Nat) : Nat → List Str → Str
  | _, [] => []
  | i, x :: xs => forLine k i x ++ forOutput k (i + 1) xs

/-- A character `html.EscapeString` leaves as it is. -/
def htmlSafe (c : Char) : Bool := c ≠ '&' && c ≠ '\'' && c ≠ '<' && c ≠ '>' && c ≠ '"'

/-- The body of the loop of `forTemplate`. -/
def forBody : List Node :=
  [VarNode "i".toList [] [], TextNode ":".toList, VarNode "x".toList [] [], TextNode "(".toList,
   VarNode "loop.First".toList [] [], TextNode ",".toList, VarNode "loop.Last".toList [] [],
   TextNode ")".toList]

/-- The context of the iteration at index `i` over `length` elements, the
element being `item`. -/
def iterCtx (data : Ctx) (length i : Nat) (item : Value) : Ctx :=
  (((shallowCopyMap data).set "i".toList (.int i)).set "x".toList item).set "loop".toList
    (.map [("Index".toList, .int i), ("First".toList, .bool (decide (i = 0))),
       ("Last".toList, .bool (decide ((i : Int) = (length : Int) - 1))),
       ("Length".toList, .int length)])

/-- A token that compiles to a leaf: a text or a variable. -/
def IsLeaf (t : Token) : Prop := t.type = TText ∨ t.type = TVar

/-- A closing or branch token, which needs an opener before it. -/
def IsStray (t : Token) : Prop :=
  t.type = TElseIf ∨ t.type = TElse ∨ t.type = TEndIf ∨ t.type = TEndFor ∨ t.type = TCase
    ∨ t.type = TDefault ∨ t.type = TEndSwitch

/-- A file system with one file, read as `source` and last modified at the
instant `instant`, whatever the path. -/
def oneFile (instant : Int) (source : String) : FileSystem where
  stat := fun _ => some { instant := instant, location := 0 }
  readFile := fun _ => some source.toList

/-- The cache without entries. -/
def emptyCache : Cache := fun _ => none

/-- The entry of a template that is the text `hi`, compiled at the instant 5. -/
def hiTemplate : Template :=
  { filepath := "t".toList, nodes := [TextNode "hi".toList],
    modTime := { instant := 5, location := 0 } }

/-- What `getOrCompile` returns, and the cache it leaves, once the source has
been read and compiled with the result `r`, the file being last modified at
`t`. -/
def afterCompile (cache : Cache) (path : Str) (t : Time) :
    Outcome (List Node) → Outcome Template × Cache
  | .ok nodes =>
    (.ok { filepath := path, nodes := nodes, modTime := t },
      cache.set path { filepath := path, nodes := nodes, modTime := t })
  | .error e => (.error e, cache)
  | .fault => (.fault, cache)
  | .diverge => (.diverge, cache)

/-- The tokens of a switch nested in the case body of another switch:
`Switch a, Case c1, Switch b, Case c2, Text x, EndSwitch, EndSwitch`. -/
def nestedSwitchTokens (a c1 b c2 x : Str) : List Token :=
  [{ type := TSwitch, value := a }, { type := TCase, value := c1 },
   { type := TSwitch, value := b }, { type := TCase, value := c2 },
   { type := TText, value := x }, { type := TEndSwitch }, { type := TEndSwitch }]

/-- The template `<{ switch n }><{ case 1 }>one<{ case 2 }>two<{ /switch }>`. -/
def switchCaseTemplate : Str :=
  tag " switch n " ++ tag " case 1 " ++ "one".toList ++ tag " case 2 " ++ "two".toList
    ++ tag " /switch "

/-- One of the six comparison operators. -/
def IsCompOp (op : Str) : Prop :=
  op = "==".toList ∨ op = "!=".toList ∨ op = ">=".toList ∨ op = "<=".toList ∨ op = ">".toList
    ∨ op = "<".toList

/-- One of the two logical keywords. -/
def IsLogicalOp (w : Str) : Prop := w = "and".toList ∨ w = "or".toList

/-- A call that returns a value with a nil error, or panics: it returns no
error, and it does not run forever. -/
def Outcome.OkOrFault {α : Type} (r : Outcome α) : Prop := (∃ a, r = .ok a) ∨ r = .fault

/-- The lists `x1, op1, x2, op2, ..., xn, opn` of operands and logical
keywords that end in a keyword. -/
inductive EndsInOp : List Str → Prop
  | last (x w : Str) : IsLogicalOp w → EndsInOp [x, w]
  | cons (x w : Str) (rest : List Str) : IsLogicalOp w → EndsInOp rest → EndsInOp (x :: w :: rest)

/-- The lists `x1, op1, x2, ...` in which operands and logical keywords
alternate, whether they end in an operand or in a keyword. -/
inductive Alternating : List Str → Prop
  | nil : Alternating []
  | one (x : Str) : Alternating [x]
  | cons (x w : Str) (rest : List Str) : IsLogicalOp w → Alternating rest →
      Alternating (x :: w :: rest)

/-- What the loops of the parser keep to, for a result `r` of a loop that
starts at index `i` of `len` tokens with `fuel` units: no panic; a returned
index lies beyond `i` and within the tokens; and the fuel is not spent when
there is a unit for every token left and one more. -/
def Sound (len fuel i : Nat) (r : Outcome (Node × Nat)) : Prop :=
  r ≠ .fault ∧ (∀ n ni, r = .ok (n, ni) → i < ni ∧ ni ≤ len)
    ∧ (i ≤ len → len + 1 ≤ fuel + i → r ≠ .diverge)

/-- No token of type `ty` stands at an index from `i` on. -/
def NoneFrom (tokens : List Token) (i : Nat) (ty : TokenType) : Prop :=
  ∀ j t, i ≤ j → tokens[j]? = some t → t.type ≠ ty

/-- The node a text or variable token compiles to. -/
def leafNode (t : Token) : Node :=
  match t.type with
  | TText => TextNode t.value
  | _ => VarNode t.value t.dflt []

/-- The template `<{ switch n }>pre<{ case 0 }>one<{ /switch }>`: a text between
the switch tag and the first case tag, and no default tag. -/
def switchPreTemplate : Str :=
  tag " switch n " ++ "pre".toList ++ tag " case 0 " ++ "one".toList ++ tag " /switch "

/-- A token that opens a block. -/
def IsOpener (t : Token) : Prop := t.type = TIf ∨ t.type = TFor ∨ t.type = TSwitch

/-- The text of the string literal with content `s`: `s` between double
quotes. -/
def quoted (s : Str) : Str := '"' :: s ++ ['"']

/-- The expression `v == "s"`. -/
def eqQuoted (s : Str) : Str := "v == ".toList ++ quoted s

/-- A tag body that none of the eleven recognizers of `tokenize` matches. -/
def IsUnknownTag (tag : Str) : Prop :=
  ifPattern tag = none ∧ elseifPattern tag = none ∧ elsePattern tag = false
    ∧ endifPattern tag = false ∧ forPattern tag = none ∧ endforPattern tag = false
    ∧ switchPattern tag = none ∧ casePattern tag = none ∧ defaultPattern tag = false
    ∧ endswitchPattern tag = false ∧ varPattern tag = none

/-- A text that is one quote character, `"` or `'`. -/
def IsLoneQuote (q : Str) : Prop := q = ['"'] ∨ q = ['\'']

/-- The effect of one filter in the words of the specification: `raw` and
`safe` are no-ops that mark the value as already escaped; `upper`, `lower` and
`escape` transform the text; any other name passes the text through. -/
def specFilter (E : Env) (f s : Str) : Str :=
  if f = "raw".toList ∨ f = "safe".toList then s
  else if f = "upper".toList then E.toUpper s
  else if f = "lower".toList then E.toLower s
  else if f = "escape".toList then escapeString s
  else s

/-- The filter pipeline in the words of the specification: the filters one
after the other, in the order they are declared. -/
def specPipeline (E : Env) : List Str → Str → Str
  | [], s => s
  | f :: fs, s => specPipeline E fs (specFilter E f s)

/-- The text a variable node starts from in the words of the specification,
for the result `r` of the lookup: the value printed with `%v` when the path
resolves, otherwise the literal default (the empty string when there is
none). -/
def specBase (E : Env) (r : Option Value) (dflt : Str) : Str :=
  match r with
  | some v => formatValue E v
  | none => dflt

/-- The last step of a variable node in the words of the specification, with
auto-escaping enabled: the text goes through `html.EscapeString` unless one of
the filters is `raw`, `safe` or `noescape`. -/
def specEscape (filters : List Str) (s : Str) : Str :=
  if "raw".toList ∈ filters ∨ "safe".toList ∈ filters ∨ "noescape".toList ∈ filters then s
  else escapeString s

/-- A context that binds `name` to the text `<b>`. -/
def boldCtx : Ctx := [("name".toList, .str "<b>".toList)]

/-- A context that binds `s` to a struct `struct{ x int }{1}`, whose one field
is not exported. -/
def hiddenFieldCtx : Ctx := [("s".toList, .record "{1}".toList [("x".toList, none)])]

/-- A context that binds `m` to a map `map[Key]int{"a": 1}` whose key type is a
defined string type, `type Key string`. -/
def typedMapCtx : Ctx := [("m".toList, .typedMap "map[a:1]".toList 1 true)]

/-- The template `<{ switch n }>pre<{ case 0 }><{ if n }>a<{ /if }><{ /switch }>`:
a text before the first case tag, a case whose body is an `if` block, and no
default tag. -/
def switchIfTemplate : Str :=
  tag " switch n " ++ "pre".toList ++ tag " case 0 " ++ tag " if n " ++ "a".toList ++ tag " /if "
    ++ tag " /switch "

/-- The template `<{ switch n }><{ case 0 }>one<{ /switch }>`: nothing before
the first case tag, and no default tag. -/
def switchZeroTemplate : Str :=
  tag " switch n " ++ tag " case 0 " ++ "one".toList ++ tag " /switch "

/-! # Theorems -/

/-! ### trimming -/

theorem trimLeft_cons_space {c : Char} (s : Str) (h : isSpace c = true) :
    trimLeft (c :: s) = trimLeft s := by
  simp [trimLeft, List.dropWhile, h]

theorem trimLeft_cons_nonspace {c : Char} (s : Str) (h : isSpace c = false) :
    trimLeft (c :: s) = c :: s := by
  simp [trimLeft, List.dropWhile, h]

theorem trimRight_nil : trimRight [] = [] := rfl

theorem trimRight_concat_space {c : Char} (s : Str) (h : isSpace c = true) :
    trimRight (s ++ [c]) = trimRight s := by
  simp [trimRight, List.dropWhile, h]

theorem trimRight_concat_nonspace {c : Char} (s : Str) (h : isSpace c = false) :
    trimRight (s ++ [c]) = s ++ [c] := by
  simp [trimRight, List.dropWhile, h]

theorem trimRight_append_of_ne_nil (a b : Str) (h : trimRight b ≠ []) :
    trimRight (a ++ b) = a ++ trimRight b := by
  unfold trimRight at *
  have h1 : List.dropWhile isSpace b.reverse ≠ [] := by
    intro h2; apply h; rw [h2]; rfl
  rw [List.reverse_append, List.dropWhile_append]
  have : (List.dropWhile isSpace b.reverse).isEmpty = false := by
    cases hd : List.dropWhile isSpace b.reverse with
    | nil => exact absurd hd h1
    | cons x xs => rfl
  simp [this]

theorem trimRight_append_of_nil (a b : Str) (h : trimRight b = []) :
    trimRight (a ++ b) = trimRight a := by
  unfold trimRight at *
  have h1 : List.dropWhile isSpace b.reverse = [] := by
    have := congrArg List.reverse h
    simpa using this
  rw [List.reverse_append, List.dropWhile_append]
  simp [h1]

theorem trimRight_idem (s : Str) : trimRight (trimRight s) = trimRight s := by
  unfold trimRight
  simp only [List.reverse_reverse]
  rw [List.dropWhile_idempotent]

/-! ### splitting at a two-character separator -/

theorem cut2_cons_of_ne {d1 d2 a : Char} (s : Str) (h : a ≠ d1) :
    cut2 d1 d2 (a :: s) = (cut2 d1 d2 s).map fun p => (a :: p.1, p.2) := by
  cases s with
  | nil => rfl
  | cons b rest => simp [cut2, h]

theorem splitOn2_cons_of_ne {d1 d2 a : Char} (s : Str) (h : a ≠ d1) :
    splitOn2 d1 d2 (a :: s) = consHead a (splitOn2 d1 d2 s) := by
  cases s with
  | nil => rfl
  | cons b rest => simp [splitOn2, h]

theorem cut2_append_sep {d1 d2 : Char} (hd : d1 ≠ d2) (rest : Str) :
    ∀ pre : Str, cut2 d1 d2 pre = none →
      cut2 d1 d2 (pre ++ d1 :: d2 :: rest) = some (pre, rest)
  | [], _ => by simp [cut2]
  | [a], _ => by
    by_cases ha : a = d1
    · subst ha; simp [cut2, hd]
    · simp [cut2, ha]
  | a :: b :: t, h => by
    have hab : ¬ (a = d1 ∧ b = d2) := by
      intro hab; simp [cut2, hab] at h
    have ht : cut2 d1 d2 (b :: t) = none := by
      simpa [cut2, hab] using h
    have ih := cut2_append_sep hd rest (b :: t) ht
    simp only [List.cons_append] at ih ⊢
    simp [cut2, hab, ih]

theorem splitOn2_append_sep {d1 d2 : Char} (hd : d1 ≠ d2) (rest : Str) :
    ∀ pre : Str, cut2 d1 d2 pre = none →
      splitOn2 d1 d2 (pre ++ d1 :: d2 :: rest) = pre :: splitOn2 d1 d2 rest
  | [], _ => by simp [splitOn2]
  | [a], _ => by
    by_cases ha : a = d1
    · subst ha; simp [splitOn2, hd, consHead]
    · simp [splitOn2, ha, consHead]
  | a :: b :: t, h => by
    have hab : ¬ (a = d1 ∧ b = d2) := by
      intro hab; simp [cut2, hab] at h
    have ht : cut2 d1 d2 (b :: t) = none := by
      simpa [cut2, hab] using h
    have ih := splitOn2_append_sep hd rest (b :: t) ht
    simp only [List.cons_append] at ih ⊢
    simp [splitOn2, hab, ih, consHead]

theorem splitOn2_of_cut2_none {d1 d2 : Char} :
    ∀ s : Str, cut2 d1 d2 s = none → splitOn2 d1 d2 s = [s]
  | [], _ => rfl
  | [a], _ => rfl
  | a :: b :: t, h => by
    have hab : ¬ (a = d1 ∧ b = d2) := by
      intro hab; simp [cut2, hab] at h
    have ht : cut2 d1 d2 (b :: t) = none := by
      simpa [cut2, hab] using h
    simp [splitOn2, hab, splitOn2_of_cut2_none (b :: t) ht, consHead]

theorem cut2_eq_none_iff {d1 d2 : Char} :
    ∀ s : Str, cut2 d1 d2 s = none ↔ ¬ [d1, d2] <:+: s
  | [] => by simp [cut2]
  | [a] => by
    simp only [cut2, true_iff]
    intro h
    have := h.length_le
    simp at this
  | a :: b :: t => by
    have ih := @cut2_eq_none_iff d1 d2 (b :: t)
    rw [List.infix_cons_iff]
    by_cases hab : a = d1 ∧ b = d2
    · obtain ⟨h1, h2⟩ := hab
      subst h1 h2
      simp [cut2, List.prefix_cons_inj]
    · have hp : ¬ [d1, d2] <+: a :: b :: t := by
        intro hp
        apply hab
        rw [List.cons_prefix_cons, List.cons_prefix_cons] at hp
        exact ⟨hp.1.symm, hp.2.1.symm⟩
      simp [cut2, hab, ih, hp]

theorem trimSpace_sub (s : Str) : trimSpace s <:+: s := by
  unfold trimSpace
  have h1 : trimRight (trimLeft s) <+: trimLeft s := List.rdropWhile_prefix _ _
  have h2 : trimLeft s <:+ s := List.dropWhile_suffix _
  exact h1.isInfix.trans h2.isInfix

theorem trimRight_sub (s : Str) : trimRight s <:+: s :=
  (List.rdropWhile_prefix isSpace s).isInfix

theorem cut2_none_of_sub {d1 d2 : Char} {s t : Str} (h : t <:+: s)
    (hs : cut2 d1 d2 s = none) : cut2 d1 d2 t = none := by
  rw [cut2_eq_none_iff] at hs ⊢
  exact fun ht => hs (ht.trans h)

theorem tokenizePart_text {p : Str} (h : cut2 '}' '>' p = none) :
    tokenizePart p = if trimSpace p = [] then [] else [textTok (trimSpace p)] := by
  unfold tokenizePart
  simp only []
  split
  · rfl
  · rw [cut2_none_of_sub (trimSpace_sub p) h]
    rfl

/-- C4 (amended): for a text `T` without delimiter, `tokenize (T ++ <{ a }>)` is
the text token of `T` trimmed on both sides (no token when nothing is left)
followed by the variable token `a`, and `tokenize (<{ a }> ++ T ++ <{ b }>)` is
the token `a`, the text token of `T` with its trailing white space trimmed (no
token when nothing is left), and the token `b`. -/
theorem tokenize_text_trimmed (T : Str) (hO : ¬ OPEN <:+: T) (hC : ¬ CLOSE <:+: T) :
    tokenize (T ++ tag " a ")
        = (if trimSpace T = [] then [] else [textTok (trimSpace T)]) ++ [varTok "a"]
    ∧ tokenize (tag " a " ++ T ++ tag " b ")
        = [varTok "a"] ++ (if trimRight T = [] then [] else [textTok (trimRight T)])
            ++ [varTok "b"] := by
  have hO1 : cut2 '<' '{' T = none := (cut2_eq_none_iff T).2 hO
  have hC1 : cut2 '}' '>' T = none := (cut2_eq_none_iff T).2 hC
  constructor
  · have e : T ++ tag " a " = T ++ '<' :: '{' :: " a \x7d>".toList := rfl
    rw [e]
    unfold tokenize
    rw [splitOn2_append_sep (by decide) _ T hO1]
    have e2 : splitOn2 '<' '{' " a \x7d>".toList = [" a \x7d>".toList] := by decide
    rw [e2]
    simp only [tokenizeParts, tokenizePart_text hC1]
    have e3 : tokenizePart " a \x7d>".toList = [varTok "a"] := by decide
    rw [e3]
    simp
  · have e : tag " a " ++ T ++ tag " b "
        = '<' :: '{' :: ((' ' :: 'a' :: ' ' :: '}' :: '>' :: T) ++ '<' :: '{' :: " b \x7d>".toList) := by
      simp [tag, OPEN, CLOSE]
    rw [e]
    unfold tokenize
    have hpre : cut2 '<' '{' (' ' :: 'a' :: ' ' :: '}' :: '>' :: T) = none := by
      simp [cut2_cons_of_ne, hO1]
    rw [splitOn2, if_pos ⟨rfl, rfl⟩, splitOn2_append_sep (by decide) _ _ hpre]
    have e2 : splitOn2 '<' '{' " b \x7d>".toList = [" b \x7d>".toList] := by decide
    have e3 : tokenizePart " b \x7d>".toList = [varTok "b"] := by decide
    have e4 : tokenizePart [] = [] := by decide
    rw [e2]
    simp only [tokenizeParts, e3, e4, List.nil_append, List.append_nil]
    congr 1
    -- the piece ` a }>T`
    have hl : trimLeft (' ' :: 'a' :: ' ' :: '}' :: '>' :: T) = 'a' :: ' ' :: '}' :: '>' :: T := by
      rw [trimLeft_cons_space _ (by decide), trimLeft_cons_nonspace _ (by decide)]
    have hcls : ∀ R : Str, classifyTag (trimSpace "a ".toList) R = varTok "a" := fun R => rfl
    by_cases hT : trimRight T = []
    · have ht : trimSpace (' ' :: 'a' :: ' ' :: '}' :: '>' :: T) = "a \x7d>".toList := by
        unfold trimSpace
        rw [hl]
        have : ('a' :: ' ' :: '}' :: '>' :: T) = "a \x7d>".toList ++ T := rfl
        rw [this, trimRight_append_of_nil _ _ hT]
        decide
      unfold tokenizePart
      simp only [ht, hT]
      decide
    · have ht : trimSpace (' ' :: 'a' :: ' ' :: '}' :: '>' :: T)
          = 'a' :: ' ' :: '}' :: '>' :: trimRight T := by
        unfold trimSpace
        rw [hl]
        have : ('a' :: ' ' :: '}' :: '>' :: T) = "a \x7d>".toList ++ T := rfl
        rw [this, trimRight_append_of_ne_nil _ _ hT]
        rfl
      unfold tokenizePart
      simp only [ht, hT]
      have hc : cut2 '}' '>' ('a' :: ' ' :: '}' :: '>' :: trimRight T)
          = some ("a ".toList, trimRight T) := by
        simp [cut2]
      simp only [hc, hT, ne_eq, not_false_eq_true, if_true, if_false, List.cons.injEq, and_true]
      first | exact hcls _ | (rw [hcls]; rfl)

/-- C4 (amended) at `T = " x "`. -/
theorem tokenize_text_trimmed_witness :
    ¬ OPEN <:+: " x ".toList ∧ ¬ CLOSE <:+: " x ".toList ∧
    tokenize (" x ".toList ++ tag " a ") = [textTok "x".toList, varTok "a"] ∧
    tokenize (tag " a " ++ " x ".toList ++ tag " b ")
      = [varTok "a", textTok " x".toList, varTok "b"] :=
  ⟨by decide, by decide, (tokenize_text_trimmed " x ".toList (by decide) (by decide)).1,
    (tokenize_text_trimmed " x ".toList (by decide) (by decide)).2⟩

/-- C4 as stated fails at `T = " x "`: the text token does not hold `T`. -/
theorem tokenize_text_not_verbatim :
    tokenize (" x ".toList ++ tag " a ") ≠ [textTok " x ".toList, varTok "a"] := by
  decide

/-! ### a source without closing delimiter -/

theorem splitOn2_pieces {d1 d2 : Char} :
    ∀ s : Str, ∃ q qs, splitOn2 d1 d2 s = q :: qs ∧ q <+: s ∧ ∀ p ∈ qs, p <:+: s
  | [] => ⟨[], [], rfl, List.prefix_refl _, by simp⟩
  | [a] => ⟨[a], [], rfl, List.prefix_refl _, by simp⟩
  | a :: b :: t => by
    by_cases hab : a = d1 ∧ b = d2
    · obtain ⟨q, qs, h1, h2, h3⟩ := @splitOn2_pieces d1 d2 t
      refine ⟨[], q :: qs, by simp [splitOn2, hab, h1], List.nil_prefix, ?_⟩
      intro p hp
      have hsuf : t <:+ a :: b :: t := ⟨[a, b], rfl⟩
      rcases List.mem_cons.1 hp with rfl | hp
      · exact h2.isInfix.trans hsuf.isInfix
      · exact (h3 p hp).trans hsuf.isInfix
    · obtain ⟨q, qs, h1, h2, h3⟩ := @splitOn2_pieces d1 d2 (b :: t)
      refine ⟨a :: q, qs, by simp [splitOn2, hab, h1, consHead], ?_, ?_⟩
      · exact (List.cons_prefix_cons).2 ⟨rfl, h2⟩
      · intro p hp
        exact (h3 p hp).trans (List.suffix_cons a (b :: t)).isInfix

theorem splitOn2_mem_sub {d1 d2 : Char} {s p : Str} (h : p ∈ splitOn2 d1 d2 s) : p <:+: s := by
  obtain ⟨q, qs, h1, h2, h3⟩ := @splitOn2_pieces d1 d2 s
  rw [h1] at h
  rcases List.mem_cons.1 h with rfl | hp
  · exact h2.isInfix
  · exact h3 p hp

theorem tokenizeParts_text :
    ∀ ps : List Str, (∀ p ∈ ps, cut2 '}' '>' p = none) →
      tokenizeParts ps = (((ps.map trimSpace).filter fun p => decide (p ≠ [])).map textTok)
  | [], _ => rfl
  | p :: ps, h => by
    have ih := tokenizeParts_text ps fun q hq => h q (List.mem_cons_of_mem _ hq)
    simp only [tokenizeParts, tokenizePart_text (h p (List.mem_cons_self _ _)), ih, List.map_cons,
      List.filter_cons]
    by_cases hp : trimSpace p = [] <;> simp [hp]

/-- C5 (amended): for a source without closing delimiter, `tokenize` returns
text tokens only: one for each piece between the opening delimiters that is not
blank, holding that piece with its white space trimmed on both sides.  The
opening delimiters themselves are in no token. -/
theorem tokenize_unclosed (src : Str) (h : ¬ CLOSE <:+: src) :
    tokenize src
      = ((((splitOn2 '<' '{' src).map trimSpace).filter fun p => decide (p ≠ [])).map textTok) := by
  have hsrc : cut2 '}' '>' src = none := (cut2_eq_none_iff src).2 h
  exact tokenizeParts_text _ fun p hp => cut2_none_of_sub (splitOn2_mem_sub hp) hsrc

/-- C5 (amended) at the source `a <{ b`. -/
theorem tokenize_unclosed_witness :
    ¬ CLOSE <:+: ("a ".toList ++ OPEN ++ " b".toList) ∧
    tokenize ("a ".toList ++ OPEN ++ " b".toList) = [textTok "a".toList, textTok "b".toList] :=
  ⟨by decide, by
    rw [tokenize_unclosed _ (by decide)]
    decide⟩

/-- C5 as stated fails at the source `a<{b`: the values of the tokens
concatenate to `ab`, not to the source. -/
theorem tokenize_unclosed_loses_text :
    concatValues (tokenize ("a".toList ++ OPEN ++ "b".toList)) ≠ "a".toList ++ OPEN ++ "b".toList := by
  decide

/-! ### a tag followed by text -/

theorem trimLeft_append_of_ne_nil (a b : Str) (h : trimLeft a ≠ []) :
    trimLeft (a ++ b) = trimLeft a ++ b := by
  unfold trimLeft at *
  rw [List.dropWhile_append]
  have : (List.dropWhile isSpace a).isEmpty = false := by
    cases hd : List.dropWhile isSpace a with
    | nil => exact absurd hd h
    | cons x xs => rfl
  simp [this]

theorem trimSpace_trimLeft (s : Str) : trimSpace (trimLeft s) = trimSpace s := by
  unfold trimSpace trimLeft
  rw [List.dropWhile_idempotent]

theorem tokenizePart_tag (b X : Str) (hb : cut2 '}' '>' b = none) (hne : trimLeft b ≠ [])
    (hX : trimRight X = X) :
    tokenizePart (b ++ '}' :: '>' :: X) = classifyTag (trimSpace b) X :: optText X := by
  have h1 : trimLeft (b ++ '}' :: '>' :: X) = trimLeft b ++ '}' :: '>' :: X :=
    trimLeft_append_of_ne_nil _ _ hne
  have h2 : trimRight (trimLeft b ++ '}' :: '>' :: X) = trimLeft b ++ '}' :: '>' :: X := by
    by_cases hx : X = []
    · subst hx
      have : trimLeft b ++ ['}', '>'] = (trimLeft b ++ ['}']) ++ ['>'] := by simp
      rw [this, trimRight_concat_nonspace _ (by decide)]
    · have : trimLeft b ++ '}' :: '>' :: X = (trimLeft b ++ ['}', '>']) ++ X := by simp
      rw [this, trimRight_append_of_ne_nil _ _ (by rw [hX]; exact hx), hX]
  have h3 : trimSpace (b ++ '}' :: '>' :: X) = trimLeft b ++ '}' :: '>' :: X := by
    unfold trimSpace; rw [h1, h2]
  have h4 : cut2 '}' '>' (trimLeft b ++ '}' :: '>' :: X) = some (trimLeft b, X) :=
    cut2_append_sep (by decide) X _
      (cut2_none_of_sub (List.dropWhile_suffix _).isInfix hb)
  unfold tokenizePart
  simp only [h3, h4, trimSpace_trimLeft]
  have : trimLeft b ++ '}' :: '>' :: X ≠ [] := by
    cases trimLeft b <;> simp
  simp [this, optText, textTok]

theorem evalNodes_optNodes (E : Env) (X : Str) (data : Ctx) :
    evalNodes E (optNodes X) data = .ok X := by
  unfold optNodes
  by_cases h : X = []
  · subst h; rfl
  · simp [h, evalNodes, Node.Eval, Outcome.bind]

theorem ifElse_tokens (A B C : Str) (hA : ¬ OPEN <:+: A) (hB : ¬ OPEN <:+: B)
    (hC : ¬ OPEN <:+: C) (tA : trimRight A = A) (tB : trimRight B = B) (tC : trimRight C = C) :
    tokenize (ifElseTemplate A B C)
      = { type := TIf, value := "p".toList, raw := "if p".toList } :: optText A
        ++ { type := TElseIf, value := "q".toList, raw := "elseif q".toList } :: optText B
        ++ { type := TElse, raw := "else".toList } :: optText C
        ++ [{ type := TEndIf, raw := "/if".toList }] := by
  have hA1 : cut2 '<' '{' A = none := (cut2_eq_none_iff A).2 hA
  have hB1 : cut2 '<' '{' B = none := (cut2_eq_none_iff B).2 hB
  have hC1 : cut2 '<' '{' C = none := (cut2_eq_none_iff C).2 hC
  have e : ifElseTemplate A B C = '<' :: '{' :: ((" if p ".toList ++ '}' :: '>' :: A) ++ '<' :: '{' ::
      ((" elseif q ".toList ++ '}' :: '>' :: B) ++ '<' :: '{' ::
      ((" else ".toList ++ '}' :: '>' :: C) ++ '<' :: '{' :: " /if \x7d>".toList))) := by
    simp [ifElseTemplate, tag, OPEN, CLOSE]
  rw [e]
  unfold tokenize
  have p1 : cut2 '<' '{' (" if p ".toList ++ '}' :: '>' :: A) = none := by
    simp [cut2_cons_of_ne, hA1]
  have p2 : cut2 '<' '{' (" elseif q ".toList ++ '}' :: '>' :: B) = none := by
    simp [cut2_cons_of_ne, hB1]
  have p3 : cut2 '<' '{' (" else ".toList ++ '}' :: '>' :: C) = none := by
    simp [cut2_cons_of_ne, hC1]
  rw [splitOn2, if_pos ⟨rfl, rfl⟩, splitOn2_append_sep (by decide) _ _ p1,
    splitOn2_append_sep (by decide) _ _ p2, splitOn2_append_sep (by decide) _ _ p3]
  have e2 : splitOn2 '<' '{' " /if \x7d>".toList = [" /if \x7d>".toList] := by decide
  have e3 : tokenizePart " /if \x7d>".toList = [{ type := TEndIf, raw := "/if".toList }] := by decide
  have e4 : tokenizePart [] = [] := by decide
  rw [e2]
  simp only [tokenizeParts, e3, e4, List.nil_append, List.append_nil]
  rw [tokenizePart_tag _ A (by decide) (by decide) tA,
    tokenizePart_tag _ B (by decide) (by decide) tB,
    tokenizePart_tag _ C (by decide) (by decide) tC]
  have c1 : classifyTag (trimSpace " if p ".toList) A
      = { type := TIf, value := "p".toList, raw := "if p".toList } := rfl
  have c2 : classifyTag (trimSpace " elseif q ".toList) B
      = { type := TElseIf, value := "q".toList, raw := "elseif q".toList } := rfl
  have c3 : classifyTag (trimSpace " else ".toList) C = { type := TElse, raw := "else".toList } := rfl
  rw [c1, c2, c3]
  simp

theorem ifElse_compiled (A B C : Str) :
    compileTokens
      ({ type := TIf, value := "p".toList, raw := "if p".toList } :: optText A
        ++ { type := TElseIf, value := "q".toList, raw := "elseif q".toList } :: optText B
        ++ { type := TElse, raw := "else".toList } :: optText C
        ++ [{ type := TEndIf, raw := "/if".toList }])
      = .ok [IfNode [("p".toList, optNodes A), ("q".toList, optNodes B)] (optNodes C)] := by
  unfold optText optNodes
  by_cases hA : A = [] <;> by_cases hB : B = [] <;> by_cases hC : C = [] <;>
    simp only [hA, hB, hC, ne_eq, not_true_eq_false, not_false_eq_true, if_true, if_false] <;> rfl

/-! ### conditions that are one word -/

theorem lookup_name (data : Ctx) (p : Str) (h1 : trimSpace p = p) (h2 : p ≠ [])
    (h3 : isQuoted p = false) (h4 : atoi p = none) (h5 : parseFloat p = none)
    (h6 : p ≠ "true".toList) (h7 : p ≠ "false".toList) (h8 : splitOn1 '.' p = [p]) :
    lookup data p = .ok (Ctx.get data p) := by
  unfold lookup
  simp only [h1, h2, h3, h4, h5, h6, h7, h8, if_false, lookupPath]
  cases Ctx.get data p <;> rfl

theorem evalCondition_word_hit (E : Env) (data : Ctx) (x : Str) (v : Value)
    (h1 : splitLogical x = [x]) (h2 : trimSpace x = x) (h3 : compOpRe x = none)
    (h4 : lookup data x = .ok (some v)) :
    evalCondition E x data = .ok (condTruthy v) := by
  unfold evalCondition
  simp only [h1, h2, evalSimpleCond, h3, h4, Outcome.bind, evalConditionLoop]

theorem evalCondition_word_miss (E : Env) (data : Ctx) (x : Str) (v : Value)
    (h1 : splitLogical x = [x]) (h2 : trimSpace x = x) (h3 : compOpRe x = none)
    (h4 : lookup data x = .ok none) (h5 : literalFromString x = .ok v) :
    evalCondition E x data = .ok (condTruthy v) := by
  unfold evalCondition
  simp only [h1, h2, evalSimpleCond, h3, h4, h5, Outcome.bind, evalConditionLoop]

theorem evalCondition_p (E : Env) (data : Ctx) (b : Bool)
    (h : Ctx.get data "p".toList = some (.bool b)) : evalCondition E "p".toList data = .ok b := by
  have hl : lookup data "p".toList = .ok (some (.bool b)) := by
    rw [lookup_name data _ (by decide) (by decide) (by decide) (by decide) (by decide) (by decide)
      (by decide) (by decide), h]
  exact evalCondition_word_hit E data _ _ (by decide) (by decide) (by decide) hl

theorem evalCondition_q (E : Env) (data : Ctx) (b : Bool)
    (h : Ctx.get data "q".toList = some (.bool b)) : evalCondition E "q".toList data = .ok b := by
  have hl : lookup data "q".toList = .ok (some (.bool b)) := by
    rw [lookup_name data _ (by decide) (by decide) (by decide) (by decide) (by decide) (by decide)
      (by decide) (by decide), h]
  exact evalCondition_word_hit E data _ _ (by decide) (by decide) (by decide) hl

/-- C2: for booleans `p`, `q` bound in the context and texts `A`, `B`, `C`
without delimiter and without trailing white space, the template
`<{ if p }>A<{ elseif q }>B<{ else }>C<{ /if }>` renders `A` when `p` is true,
otherwise `B` when `q` is true, otherwise `C`; and
`<{ if false }>A<{ else }>B<{ /if }>` renders `B` in the empty context. -/
theorem render_if_elseif_else (E : Env) (p q : Bool) (A B C : Str) (data : Ctx)
    (hA : ¬ OPEN <:+: A ∧ ¬ CLOSE <:+: A ∧ trimRight A = A)
    (hB : ¬ OPEN <:+: B ∧ ¬ CLOSE <:+: B ∧ trimRight B = B)
    (hC : ¬ OPEN <:+: C ∧ ¬ CLOSE <:+: C ∧ trimRight C = C)
    (hp : Ctx.get data "p".toList = some (.bool p))
    (hq : Ctx.get data "q".toList = some (.bool q)) :
    renderSource E (ifElseTemplate A B C) data = .ok (if p then A else if q then B else C)
    ∧ renderSource E (tag " if false " ++ "A".toList ++ tag " else " ++ "B".toList ++ tag " /if ") []
        = .ok "B".toList := by
  refine ⟨?_, rfl⟩
  unfold renderSource
  rw [ifElse_tokens A B C hA.1 hB.1 hC.1 hA.2.2 hB.2.2 hC.2.2, ifElse_compiled]
  simp only [Outcome.bind, evalNodes, Node.Eval, evalBranches, evalCondition_p E data p hp,
    evalCondition_q E data q hq]
  cases p <;> cases q <;> simp [evalNodes_optNodes, Outcome.bind]

/-- C2 at `p = false`, `q = true`, `A = "yes"`, `B = " no"`, `C = ""`. -/
theorem render_if_elseif_else_witness :
    renderSource Env.sample (ifElseTemplate "yes".toList " no".toList [])
        [("p".toList, .bool false), ("q".toList, .bool true)] = .ok " no".toList :=
  (render_if_elseif_else Env.sample false true "yes".toList " no".toList []
    [("p".toList, .bool false), ("q".toList, .bool true)]
    ⟨by decide, by decide, by decide⟩ ⟨by decide, by decide, by decide⟩
    ⟨by decide, by decide, by decide⟩ rfl rfl).1

/-! ### truthiness, comparison of booleans -/

/-- C10: the truthiness table of `condTruthy`: `nil` is false; a boolean is
itself; a string is true iff it is not empty; an integer is true iff it is not
zero; a float is true iff it is neither zero nor negative zero; a sequence or a
map is true iff it has an element; every other value is true.  In particular
`0`, `""`, `[]` and `nil` are false and `[1]` is true. -/
theorem condTruthy_table :
    condTruthy .null = false
    ∧ (∀ b : Bool, condTruthy (.bool b) = b)
    ∧ (∀ s : Str, condTruthy (.str s) = true ↔ s ≠ [])
    ∧ (∀ i : Int, condTruthy (.int i) = true ↔ i ≠ 0)
    ∧ (∀ f : F64, condTruthy (.float f) = true ↔ (f ≠ F64.fin 0 ∧ f ≠ F64.negZero))
    ∧ (∀ xs : List Value, condTruthy (.seq xs) = true ↔ xs ≠ [])
    ∧ (∀ m : List (Str × Value), condTruthy (.map m) = true ↔ m ≠ [])
    ∧ (∀ (shown : Str) (len : Nat) (stringKind : Bool),
        condTruthy (.typedMap shown len stringKind) = true ↔ 0 < len)
    ∧ (∀ (shown : Str) (fs : List (Str × Option Value)), condTruthy (.record shown fs) = true)
    ∧ (∀ t : Str, condTruthy (.other t) = true)
    ∧ condTruthy (.int 0) = false
    ∧ condTruthy (.str []) = false
    ∧ condTruthy (.seq []) = false
    ∧ condTruthy (.seq [.int 1]) = true := by
  refine ⟨rfl, fun _ => rfl, ?_, ?_, ?_, ?_, ?_, fun _ _ _ => by simp [condTruthy],
    fun _ _ => rfl, fun _ => rfl, by decide, by decide,
    by decide, by decide⟩
  · intro s; simp [condTruthy]
  · intro i; simp [condTruthy]
  · intro f
    cases f with
    | nan => simp [condTruthy, F64.ne, F64.eq, F64.cmp]
    | inf n => cases n <;> simp [condTruthy, F64.ne, F64.eq, F64.cmp]
    | negZero => simp [condTruthy, F64.ne, F64.eq, F64.cmp, F64.num]
    | fin q =>
      simp only [condTruthy, F64.ne, F64.eq, F64.cmp, F64.num]
      by_cases h : q = 0
      · subst h; simp
      · rcases lt_or_gt_of_ne h with h1 | h1
        · simp [h1, h]
        · simp [h, not_lt.mpr (le_of_lt h1)]
  · intro xs; cases xs <;> simp [condTruthy]
  · intro m; cases m <;> simp [condTruthy]

/-- C9 (what the code does): for two booleans and an ordering operator,
`compareValues` returns no error but the comparison of the texts `true` and
`false`: after the `switch` on two booleans, which has no case for the ordering
operators, control reaches the comparison of strings. -/
theorem compareValues_bool_order (E : Env) (a b : Bool) :
    compareValues E (.bool a) (.bool b) ">".toList = .ok (a && !b)
    ∧ compareValues E (.bool a) (.bool b) "<".toList = .ok (!a && b)
    ∧ compareValues E (.bool a) (.bool b) ">=".toList = .ok (a || !b)
    ∧ compareValues E (.bool a) (.bool b) "<=".toList = .ok (!a || b) := by
  cases a <;> cases b <;> exact ⟨rfl, rfl, rfl, rfl⟩

/-! ### the switch with a comma case -/

theorem switchComma_compiled :
    compileTokens (tokenize switchCommaTemplate) =
      .ok [SwitchNode "n".toList [("1, 2".toList, [TextNode "low".toList])] [TextNode "hi".toList]] := by
  rfl

/-- C1 (what the code does): the template
`<{ switch n }><{ case 1, 2 }>low<{ default }>hi<{ /switch }>` renders `low` for
every integer `n` bound in the context, also for `n = 5`: when the scrutinee
does not equal the literal `1`, `evalConditionWithValue` evaluates the case
part `1` as a condition, and the literal `1` is truthy. -/
theorem switchComma_always_low (E : Env) (n : Int) :
    renderSource E switchCommaTemplate [("n".toList, .int n)] = .ok "low".toList := by
  unfold renderSource
  rw [switchComma_compiled]
  simp only [Outcome.bind, evalNodes, Node.Eval]
  have hl : lookupVal [("n".toList, Value.int n)] "n".toList = .ok (.int n) := rfl
  rw [hl]
  have h1 : evalConditionWithValue E "1, 2".toList (.int n) [("n".toList, .int n)] = .ok true := by
    have : evalConditionWithValue E "1, 2".toList (.int n) [("n".toList, .int n)]
        = caseParts E (.int n) ((shallowCopyMap [("n".toList, .int n)]).set switchName (.int n))
            ["1".toList, " 2".toList] := rfl
    rw [this]
    simp only [caseParts]
    have hlit : literalFromString (trimSpace "1".toList) = .ok (.int 1) := rfl
    rw [hlit]
    simp only [Outcome.bind]
    split
    · rfl
    · have : evalCondition E (trimSpace "1".toList)
          ((shallowCopyMap [("n".toList, Value.int n)]).set switchName (Value.int n)) = .ok true := rfl
      rw [this]
  simp only [evalCases, h1, evalNodes, Node.Eval, Outcome.bind]
  rfl

/-- C1 at the input `n = 5`: the rendering is not `hi`. -/
theorem switchComma_five :
    renderSource Env.sample switchCommaTemplate [("n".toList, .int 5)] ≠ .ok "hi".toList := by
  decide

/-! ### identifiers -/

theorem reWord_range {c : Char} (h : reWord c = true) : 48 ≤ c.toNat ∧ c.toNat ≤ 122 := by
  unfold reWord isDigit at h
  simp only [Bool.or_eq_true, Bool.and_eq_true, decide_eq_true_eq] at h
  rcases h with ((h | h) | h) | h
  · omega
  · omega
  · omega
  · subst h; decide

theorem reWord_not_space {c : Char} (h : reWord c = true) : isSpace c = false := by
  have := reWord_range h
  unfold isSpace
  simp only [Bool.or_eq_false_iff, Bool.and_eq_false_iff, decide_eq_false_iff_not]
  omega

theorem reWord_ne {c d : Char} (h : reWord c = true) (hd : reWord d = false) : c ≠ d := by
  intro e; subst e; rw [h] at hd; exact Bool.noConfusion hd

theorem reWord_not_reSpace {c : Char} (h : reWord c = true) : reSpace c = false := by
  have := reWord_range h
  unfold reSpace
  have h1 : c ≠ '\t' := reWord_ne h (by decide)
  have h2 : c ≠ '\n' := reWord_ne h (by decide)
  have h3 : c ≠ '\r' := reWord_ne h (by decide)
  have h4 : c ≠ ' ' := reWord_ne h (by decide)
  simp [h1, h2, h3, h4]
  omega

theorem reWord_reDot {c : Char} (h : reWord c = true) : reDot c = true := by
  have h2 : c ≠ '\n' := reWord_ne h (by decide)
  simp [reDot, h2]

theorem trimRight_eq_rdropWhile (s : Str) : trimRight s = s.rdropWhile isSpace := rfl

theorem trimSpace_of_no_space (s : Str) (h : ∀ c ∈ s, isSpace c = false) : trimSpace s = s := by
  have h1 : trimLeft s = s := by
    cases s with
    | nil => rfl
    | cons c t => exact trimLeft_cons_nonspace t (h c (List.mem_cons_self _ _))
  have h2 : trimRight s = s := by
    rw [trimRight_eq_rdropWhile, List.rdropWhile_eq_self_iff]
    intro hl
    simp [h _ (List.getLast_mem hl)]
  unfold trimSpace
  rw [h1, h2]

theorem fields_word : ∀ s : Str, s ≠ [] → (∀ c ∈ s, isSpace c = false) → fields s = [s]
  | [], h, _ => absurd rfl h
  | [c], _, h => by simp [fields, h c (List.mem_cons_self _ _)]
  | c :: d :: t, _, h => by
    have hc := h c (List.mem_cons_self _ _)
    have hd := h d (List.mem_cons_of_mem _ (List.mem_cons_self _ _))
    have ih := fields_word (d :: t) (by simp) fun x hx => h x (List.mem_cons_of_mem _ hx)
    simp [fields, hc, hd, ih, consHead]

theorem splitOn1_of_not_mem {d : Char} : ∀ s : Str, d ∉ s → splitOn1 d s = [s]
  | [], _ => rfl
  | a :: t, h => by
    have ha : a ≠ d := fun e => h (e ▸ List.mem_cons_self _ _)
    have ih := splitOn1_of_not_mem t fun hm => h (List.mem_cons_of_mem _ hm)
    simp [splitOn1, ha, ih, consHead]

theorem cut2_none_of_not_mem {d1 d2 : Char} : ∀ s : Str, d1 ∉ s → cut2 d1 d2 s = none
  | [], _ => rfl
  | a :: t, h => by
    have ha : a ≠ d1 := fun e => h (e ▸ List.mem_cons_self _ _)
    rw [cut2_cons_of_ne t ha, cut2_none_of_not_mem t fun hm => h (List.mem_cons_of_mem _ hm)]
    rfl

theorem many_all {α : Type} (p : Char → Bool) :
    ∀ (s : Str) (k : Str → Str → Option α) (v : α), (∀ c ∈ s, p c = true) → k s [] = some v →
      many p k s = some v
  | [], k, v, _, hk => by simpa [many] using hk
  | c :: t, k, v, h, hk => by
    have hc := h c (List.mem_cons_self _ _)
    have ih := many_all p t (fun cap rest => k (c :: cap) rest) v
      (fun x hx => h x (List.mem_cons_of_mem _ hx)) hk
    simp [many, hc, ih]

theorem many_none {α : Type} (p : Char → Bool) :
    ∀ (s : Str) (k : Str → Str → Option α), (∀ cap rest, k cap rest = none) → many p k s = none
  | [], k, hk => by simp [many, hk]
  | c :: t, k, hk => by
    have ih := many_none p t (fun cap rest => k (c :: cap) rest) fun cap rest => hk _ _
    unfold many
    rw [ih]
    by_cases hc : p c = true <;> simp [hc, hk]

theorem compOp_none_of_head {c : Char} (t : Str) (h : reWord c = true) : compOp (c :: t) = none := by
  have h1 : c ≠ '=' := reWord_ne h (by decide)
  have h2 : c ≠ '!' := reWord_ne h (by decide)
  have h3 : c ≠ '>' := reWord_ne h (by decide)
  have h4 : c ≠ '<' := reWord_ne h (by decide)
  unfold compOp
  split <;> simp_all

theorem compOpAt_none_of_head {c : Char} (t : Str) (h : reWord c = true) :
    compOpAt (c :: t) = none := by
  unfold compOpAt
  simp [many, reWord_not_reSpace h, compOp_none_of_head t h]

theorem compOpRe_none_of_word : ∀ s : Str, (∀ c ∈ s, reWord c = true) → compOpRe s = none
  | [], _ => rfl
  | c :: t, h => by
    have ih := compOpRe_none_of_word t fun x hx => h x (List.mem_cons_of_mem _ hx)
    simp [compOpRe, compOpAt_none_of_head t (h c (List.mem_cons_self _ _)), ih]

theorem IsWord.no_space {x : Str} (h : IsWord x) : ∀ c ∈ x, isSpace c = false :=
  fun c hc => reWord_not_space (h.2 c hc)

theorem IsWord.not_mem {x : Str} (h : IsWord x) {d : Char} (hd : reWord d = false) : d ∉ x :=
  fun hm => by have := h.2 d hm; rw [hd] at this; exact Bool.noConfusion this

theorem IsWord.not_quoted {x : Str} (h : IsWord x) : isQuoted x = false := by
  obtain ⟨hne, hw⟩ := h
  cases x with
  | nil => exact absurd rfl hne
  | cons c t =>
    have h1 : c ≠ '"' := reWord_ne (hw c (List.mem_cons_self _ _)) (by decide)
    have h2 : c ≠ '\'' := reWord_ne (hw c (List.mem_cons_self _ _)) (by decide)
    have e1 : hasPrefix (c :: t) ['"'] = false := by
      simp [hasPrefix, List.isPrefixOf, Ne.symm h1]
    have e2 : hasPrefix (c :: t) ['\''] = false := by
      simp [hasPrefix, List.isPrefixOf, Ne.symm h2]
    simp [isQuoted, e1, e2]

theorem splitLogical_word {x : Str} (h : IsWord x) (ha : x ≠ "and".toList) (ho : x ≠ "or".toList) :
    splitLogical x = [x] := by
  unfold splitLogical
  rw [trimSpace_of_no_space x h.no_space, fields_word x h.1 h.no_space]
  have ha1 : ¬ x = ['a', 'n', 'd'] := ha
  have ho1 : ¬ x = ['o', 'r'] := ho
  simp [splitLogicalLoop, ha1, ho1, h.1, trimSpace_of_no_space x h.no_space]

theorem lookup_word_miss {x : Str} (h : IsWord x) (data : Ctx) (hi : atoi x = none)
    (hf : parseFloat x = none) (ht : x ≠ "true".toList) (hfa : x ≠ "false".toList)
    (hctx : Ctx.get data x = none) : lookup data x = .ok none := by
  rw [lookup_name data x (trimSpace_of_no_space x h.no_space) h.1 h.not_quoted hi hf ht hfa
    (splitOn1_of_not_mem x (h.not_mem (by decide))), hctx]

theorem literalFromString_word {x : Str} (h : IsWord x) (hi : atoi x = none)
    (hf : parseFloat x = none) (ht : x ≠ "true".toList) (hfa : x ≠ "false".toList) :
    literalFromString x = .ok (.str x) := by
  unfold literalFromString
  have ht1 : ¬ x = ['t', 'r', 'u', 'e'] := ht
  have hf1 : ¬ x = ['f', 'a', 'l', 's', 'e'] := hfa
  simp [trimSpace_of_no_space x h.no_space, h.not_quoted, hi, hf, ht1, hf1]

theorem evalCondition_unbound {x : Str} (E : Env) (data : Ctx) (h : IsWord x)
    (hi : atoi x = none) (hf : parseFloat x = none) (ht : x ≠ "true".toList)
    (hfa : x ≠ "false".toList) (ha : x ≠ "and".toList) (ho : x ≠ "or".toList)
    (hctx : Ctx.get data x = none) : evalCondition E x data = .ok true := by
  rw [evalCondition_word_miss E data x (.str x) (splitLogical_word h ha ho)
    (trimSpace_of_no_space x h.no_space) (compOpRe_none_of_word x h.2)
    (lookup_word_miss h data hi hf ht hfa hctx) (literalFromString_word h hi hf ht hfa)]
  simp [condTruthy, h.1]

theorem ifPattern_word {x : Str} (h : IsWord x) : ifPattern ("if ".toList ++ x) = some x := by
  obtain ⟨hne, hw⟩ := h
  cases x with
  | nil => exact absurd rfl hne
  | cons c t =>
    have hc := hw c (List.mem_cons_self _ _)
    have hm : many reDot (fun cap rest => eos (c :: cap) rest) t = some (c :: t) :=
      many_all reDot t _ _ (fun d hd => reWord_reDot (hw d (List.mem_cons_of_mem _ hd))) rfl
    show keywordPattern "if".toList ('i' :: 'f' :: ' ' :: c :: t) = some (c :: t)
    simp only [keywordPattern, lit, String.toList, dropPrefix?, if_true, Option.bind, many1, many]
    simp [show reSpace ' ' = true by decide, reWord_not_reSpace hc, reWord_reDot hc, hm]

theorem ifTemplate_tokens {x : Str} (h : IsWord x) :
    tokenize (ifTemplate x)
      = [{ type := TIf, value := x, raw := "if ".toList ++ x }, textTok "A".toList,
         { type := TElse, raw := "else".toList }, textTok "B".toList,
         { type := TEndIf, raw := "/if".toList }] := by
  have e : ifTemplate x = '<' :: '{' :: (((" if ".toList ++ x ++ " ".toList) ++ '}' :: '>' :: "A".toList)
      ++ '<' :: '{' :: ((" else ".toList ++ '}' :: '>' :: "B".toList)
      ++ '<' :: '{' :: " /if \x7d>".toList)) := by
    simp [ifTemplate, tag, OPEN, CLOSE]
  have hlt : '<' ∉ x := h.not_mem (by decide)
  have hcl : '}' ∉ x := h.not_mem (by decide)
  have p1 : cut2 '<' '{' ((" if ".toList ++ x ++ " ".toList) ++ '}' :: '>' :: "A".toList) = none :=
    cut2_none_of_not_mem _ (by simp [hlt])
  have p2 : cut2 '<' '{' (" else ".toList ++ '}' :: '>' :: "B".toList) = none := by decide
  have hb : cut2 '}' '>' (" if ".toList ++ x ++ " ".toList) = none :=
    cut2_none_of_not_mem _ (by simp [hcl])
  have hl : trimLeft (" if ".toList ++ x ++ " ".toList) = "if ".toList ++ x ++ " ".toList := by
    show trimLeft (' ' :: ('i' :: 'f' :: ' ' :: (x ++ [' ']))) = _
    rw [trimLeft_cons_space _ (by decide), trimLeft_cons_nonspace _ (by decide)]
    simp
  have hx : trimRight x = x := by
    rw [trimRight_eq_rdropWhile, List.rdropWhile_eq_self_iff]
    intro hne
    simp [h.no_space _ (List.getLast_mem hne)]
  have ht : trimSpace (" if ".toList ++ x ++ " ".toList) = "if ".toList ++ x := by
    unfold trimSpace
    rw [hl]
    show trimRight (("if ".toList ++ x) ++ [' ']) = _
    rw [trimRight_concat_space _ (by decide),
      trimRight_append_of_ne_nil _ _ (by rw [hx]; exact h.1), hx]
  rw [e]
  unfold tokenize
  rw [splitOn2, if_pos ⟨rfl, rfl⟩, splitOn2_append_sep (by decide) _ _ p1,
    splitOn2_append_sep (by decide) _ _ p2]
  have e2 : splitOn2 '<' '{' " /if \x7d>".toList = [" /if \x7d>".toList] := by decide
  have e3 : tokenizePart " /if \x7d>".toList = [{ type := TEndIf, raw := "/if".toList }] := by decide
  have e4 : tokenizePart [] = [] := by decide
  have e5 : tokenizePart (" else ".toList ++ '}' :: '>' :: "B".toList)
      = [{ type := TElse, raw := "else".toList }, textTok "B".toList] := by decide
  rw [e2]
  simp only [tokenizeParts, e3, e4, e5, List.nil_append, List.append_nil]
  rw [tokenizePart_tag _ "A".toList hb (by rw [hl]; simp) (by decide), ht]
  have c1 : classifyTag ("if ".toList ++ x) "A".toList
      = { type := TIf, value := x, raw := "if ".toList ++ x } := by
    simp only [classifyTag, ifPattern_word h]
  rw [c1]
  rfl

/-- C6 (amended): for an identifier `x` that is not a number, `true`, `false`,
`and` or `or`, and a context that does not bind it, `evalCondition x` returns
true with no error (the name is taken as the non-empty string literal `x`), so
that `<{ if x }>A<{ else }>B<{ /if }>` renders `A`. -/
theorem unbound_identifier_truthy (E : Env) (data : Ctx) (x : Str) (h : IsWord x)
    (hnum : atoi x = none ∧ parseFloat x = none)
    (hbool : x ≠ "true".toList ∧ x ≠ "false".toList)
    (hkw : x ≠ "and".toList ∧ x ≠ "or".toList)
    (hctx : Ctx.get data x = none) :
    evalCondition E x data = .ok true
    ∧ renderSource E (ifTemplate x) data = .ok "A".toList := by
  have hc := evalCondition_unbound E data h hnum.1 hnum.2 hbool.1 hbool.2 hkw.1 hkw.2 hctx
  refine ⟨hc, ?_⟩
  unfold renderSource
  rw [ifTemplate_tokens h]
  have hcomp : compileTokens [{ type := TIf, value := x, raw := "if ".toList ++ x },
      textTok "A".toList, { type := TElse, raw := "else".toList }, textTok "B".toList,
      { type := TEndIf, raw := "/if".toList }]
      = .ok [IfNode [(x, [TextNode "A".toList])] [TextNode "B".toList]] := rfl
  rw [hcomp]
  simp only [Outcome.bind, evalNodes, Node.Eval, evalBranches, hc]
  rfl

/-- C6 (amended) at the identifier `x` and the empty context. -/
theorem unbound_identifier_truthy_witness :
    evalCondition Env.sample "x".toList [] = .ok true
    ∧ renderSource Env.sample (ifTemplate "x".toList) [] = .ok "A".toList :=
  unbound_identifier_truthy Env.sample [] "x".toList ⟨by decide, by decide⟩ ⟨by decide, by decide⟩
    ⟨by decide, by decide⟩ ⟨by decide, by decide⟩ rfl

/-- C6 as stated fails at the identifier `x` and the empty context: the
condition is not false and the template does not render `B`. -/
theorem unbound_identifier_not_falsy :
    evalCondition Env.sample "x".toList [] ≠ .ok false
    ∧ renderSource Env.sample (ifTemplate "x".toList) [] ≠ .ok "B".toList := by
  decide

/-! ### the left fold of `evalCondition` -/

theorem fields_cons_space {c : Char} (s : Str) (h : isSpace c = true) :
    fields (c :: s) = fields s := by
  cases s with
  | nil => simp [fields, h]
  | cons d t => simp [fields, h]

theorem fields_word_space : ∀ (w : Str) (s : Str), w ≠ [] → (∀ c ∈ w, isSpace c = false) →
    fields (w ++ ' ' :: s) = w :: fields s
  | [], _, h, _ => absurd rfl h
  | [c], s, _, h => by
    have hc := h c (List.mem_cons_self _ _)
    simp [fields, hc, show isSpace ' ' = true by decide, fields_cons_space]
  | c :: d :: t, s, _, h => by
    have hc := h c (List.mem_cons_self _ _)
    have hd := h d (List.mem_cons_of_mem _ (List.mem_cons_self _ _))
    have ih := fields_word_space (d :: t) s (by simp) fun x hx => h x (List.mem_cons_of_mem _ hx)
    simp only [List.cons_append] at ih ⊢
    simp [fields, hc, hd, ih, consHead]

theorem fields_join : ∀ ws : List Str, (∀ w ∈ ws, w ≠ [] ∧ ∀ c ∈ w, isSpace c = false) →
    fields (join [' '] ws) = ws
  | [], _ => rfl
  | [w], h => by
    have := h w (List.mem_cons_self _ _)
    simpa [join] using fields_word w this.1 this.2
  | w :: v :: r, h => by
    have hw := h w (List.mem_cons_self _ _)
    have ih := fields_join (v :: r) fun x hx => h x (List.mem_cons_of_mem _ hx)
    simp only [join, List.append_assoc, List.singleton_append]
    rw [fields_word_space w _ hw.1 hw.2, ih]

theorem join_ne_nil : ∀ ws : List Str, ws ≠ [] → (∀ w ∈ ws, w ≠ []) → join [' '] ws ≠ []
  | [], h, _ => absurd rfl h
  | [w], _, h => by simpa [join] using h w (List.mem_cons_self _ _)
  | w :: v :: r, _, _ => by simp [join]

theorem trimRight_of_no_space (s : Str) (h : ∀ c ∈ s, isSpace c = false) : trimRight s = s := by
  rw [trimRight_eq_rdropWhile, List.rdropWhile_eq_self_iff]
  intro hl
  simp [h _ (List.getLast_mem hl)]

theorem trimLeft_join : ∀ ws : List Str, (∀ w ∈ ws, w ≠ [] ∧ ∀ c ∈ w, isSpace c = false) →
    trimLeft (join [' '] ws) = join [' '] ws
  | [], _ => rfl
  | w :: r, h => by
    obtain ⟨hne, hs⟩ := h w (List.mem_cons_self _ _)
    cases w with
    | nil => exact absurd rfl hne
    | cons c t =>
      have hc := hs c (List.mem_cons_self _ _)
      cases r with
      | nil => simpa [join] using trimLeft_cons_nonspace t hc
      | cons v r' =>
        simp only [join, List.cons_append]
        exact trimLeft_cons_nonspace _ hc

theorem trimRight_join : ∀ ws : List Str, (∀ w ∈ ws, w ≠ [] ∧ ∀ c ∈ w, isSpace c = false) →
    trimRight (join [' '] ws) = join [' '] ws
  | [], _ => rfl
  | [w], h => by
    simpa [join] using trimRight_of_no_space w (h w (List.mem_cons_self _ _)).2
  | w :: v :: r, h => by
    have ih := trimRight_join (v :: r) fun x hx => h x (List.mem_cons_of_mem _ hx)
    have hne : join [' '] (v :: r) ≠ [] :=
      join_ne_nil _ (by simp) fun x hx => (h x (List.mem_cons_of_mem _ hx)).1
    simp only [join]
    rw [trimRight_append_of_ne_nil _ _ (by rw [ih]; exact hne), ih]

theorem trimSpace_join (ws : List Str) (h : ∀ w ∈ ws, w ≠ [] ∧ ∀ c ∈ w, isSpace c = false) :
    trimSpace (join [' '] ws) = join [' '] ws := by
  unfold trimSpace
  rw [trimLeft_join ws h, trimRight_join ws h]

theorem IsOperand.plain {ws : List Str} (h : IsOperand ws) :
    ∀ w ∈ ws, w ≠ [] ∧ ∀ c ∈ w, isSpace c = false :=
  fun w hw => ⟨(h.2 w hw).1, (h.2 w hw).2.1⟩

theorem accWords_ne_nil : ∀ (ws : List Str) (cur : Str), cur ≠ [] →
    accWords cur ws = join [' '] (cur :: ws)
  | [], cur, _ => by simp [accWords, join]
  | w :: ws, cur, h => by
    have : cur ++ [' '] ++ w ≠ [] := by simp [h]
    simp only [accWords, h, if_false]
    rw [accWords_ne_nil ws _ this]
    cases ws <;> simp [join]

theorem accWords_nil {ws : List Str} (h : IsOperand ws) : accWords [] ws = join [' '] ws := by
  obtain ⟨hne, hw⟩ := h
  cases ws with
  | nil => exact absurd rfl hne
  | cons w r =>
    simp only [accWords, if_true]
    exact accWords_ne_nil r w (hw w (List.mem_cons_self _ _)).1

theorem splitLogicalLoop_operand : ∀ (ws : List Str) (cur : Str) (rest : List Str),
    (∀ w ∈ ws, IsOperandWord w) →
    splitLogicalLoop cur (ws ++ rest) = splitLogicalLoop (accWords cur ws) rest
  | [], _, _, _ => rfl
  | w :: ws, cur, rest, h => by
    obtain ⟨_, _, ha, ho⟩ := h w (List.mem_cons_self _ _)
    have ha1 : ¬ w = ['a', 'n', 'd'] := ha
    have ho1 : ¬ w = ['o', 'r'] := ho
    have ih := splitLogicalLoop_operand ws (if cur = [] then w else cur ++ [' '] ++ w) rest
      fun x hx => h x (List.mem_cons_of_mem _ hx)
    simp only [List.cons_append, splitLogicalLoop, accWords]
    simp only [String.toList, ha1, ho1, or_self, if_false]
    exact ih

theorem splitLogicalLoop_keyword (cur w : Str) (ws : List Str)
    (h : w = "and".toList ∨ w = "or".toList) :
    splitLogicalLoop cur (w :: ws) = trimSpace cur :: w :: splitLogicalLoop [] ws := by
  simp only [splitLogicalLoop, if_pos h]

theorem splitLogicalLoop_rest : ∀ (rest : List (Bool × List Str × Bool)) (o : List Str),
    IsOperand o → (∀ r ∈ rest, IsOperand r.2.1) →
    splitLogicalLoop [] (o ++ restWords rest) = join [' '] o :: restTokens rest
  | [], o, ho, _ => by
    have := splitLogicalLoop_operand o [] [] ho.2
    simp only [List.append_nil] at this
    simp only [restWords, List.append_nil, this, accWords_nil ho, splitLogicalLoop, restTokens]
    simp [join_ne_nil o ho.1 fun w hw => (ho.2 w hw).1, trimSpace_join o ho.plain]
  | (isAnd, ws, v) :: r, o, ho, h => by
    have hws : IsOperand ws := (h _ (List.mem_cons_self _ _))
    have ih := splitLogicalLoop_rest r ws hws fun x hx => h x (List.mem_cons_of_mem _ hx)
    rw [restWords, splitLogicalLoop_operand o [] _ ho.2, accWords_nil ho]
    have hk : opWord isAnd = "and".toList ∨ opWord isAnd = "or".toList := by
      cases isAnd <;> simp [opWord]
    rw [List.cons_append, splitLogicalLoop_keyword _ _ _ hk, ih, trimSpace_join o ho.plain]
    rfl

theorem evalConditionLoop_fold (E : Env) (data : Ctx) :
    ∀ (rest : List (Bool × List Str × Bool)) (res : Bool),
    (∀ r ∈ rest, IsOperand r.2.1 ∧ evalSimpleCond E (join [' '] r.2.1) data = .ok r.2.2) →
    evalConditionLoop E data res (restTokens rest) = .ok (foldCond res rest)
  | [], res, _ => rfl
  | (isAnd, ws, v) :: r, res, h => by
    obtain ⟨hws, hv⟩ := h _ (List.mem_cons_self _ _)
    have ih := fun res' => evalConditionLoop_fold E data r res'
      fun x hx => h x (List.mem_cons_of_mem _ hx)
    simp only [restTokens, evalConditionLoop, trimSpace_join ws hws.plain]
    have hv' : evalSimpleCond E (join [' '] ws) data = .ok v := hv
    rw [hv']
    cases isAnd
    · have e1 : trimSpace (opWord false) ≠ "and".toList := by decide
      have e2 : trimSpace (opWord false) = "or".toList := by decide
      simp only [Outcome.bind, e1, e2, if_false, if_true, ih, foldCond]
      try rfl
    · have e1 : trimSpace (opWord true) = "and".toList := by decide
      simp only [Outcome.bind, e1, if_true, ih, foldCond]
      try rfl

theorem restWords_plain : ∀ (rest : List (Bool × List Str × Bool)),
    (∀ r ∈ rest, IsOperand r.2.1) → ∀ w ∈ restWords rest, w ≠ [] ∧ ∀ c ∈ w, isSpace c = false
  | [], _, w, hw => by simp [restWords] at hw
  | (isAnd, ws, v) :: rs, h, w, hw => by
    simp only [restWords, List.mem_cons, List.mem_append] at hw
    rcases hw with (hw | hw) | hw
    · subst hw
      cases isAnd <;> exact ⟨by decide, by decide⟩
    · exact (h _ (List.mem_cons_self _ _)).plain w hw
    · exact restWords_plain rs (fun x hx => h x (List.mem_cons_of_mem _ hx)) w hw

theorem evalCondition_fold (E : Env) (data : Ctx) (o1 : List Str) (v1 : Bool)
    (rest : List (Bool × List Str × Bool)) (h1 : IsOperand o1)
    (hv1 : evalSimpleCond E (join [' '] o1) data = .ok v1)
    (h : ∀ r ∈ rest, IsOperand r.2.1 ∧ evalSimpleCond E (join [' '] r.2.1) data = .ok r.2.2) :
    evalCondition E (condText o1 rest) data = .ok (foldCond v1 rest) := by
  have hplain : ∀ w ∈ o1 ++ restWords rest, w ≠ [] ∧ ∀ c ∈ w, isSpace c = false := by
    intro w hw
    rcases List.mem_append.1 hw with hw | hw
    · exact h1.plain w hw
    · exact restWords_plain rest (fun r hr => (h r hr).1) w hw
  unfold evalCondition splitLogical condText
  rw [trimSpace_join _ hplain, fields_join _ hplain,
    splitLogicalLoop_rest rest o1 h1 fun r hr => (h r hr).1]
  simp only [trimSpace_join o1 h1.plain, hv1, Outcome.bind]
  exact evalConditionLoop_fold E data rest v1 h

theorem evalSimpleCond_name (E : Env) (data : Ctx) (x : Str) (v : Value)
    (h3 : compOpRe x = none) (h4 : lookup data x = .ok (some v)) :
    evalSimpleCond E x data = .ok (condTruthy v) := by
  simp only [evalSimpleCond, h3, h4, Outcome.bind]

/-- C7: in a context that binds `a`, `b`, `c` to booleans, `a and b or c`
evaluates to `(a and b) or c` and `a or b and c` to `(a or b) and c`; and for
every condition `o1 op1 o2 ... op(k-1) ok` whose operands evaluate without
error, `evalCondition` returns the left fold of the operand values under the
operators in source order. -/
theorem evalCondition_left_to_right (E : Env) (data : Ctx) (a b c : Bool)
    (ha : Ctx.get data "a".toList = some (.bool a))
    (hb : Ctx.get data "b".toList = some (.bool b))
    (hc : Ctx.get data "c".toList = some (.bool c)) :
    evalCondition E "a and b or c".toList data = .ok ((a && b) || c)
    ∧ evalCondition E "a or b and c".toList data = .ok ((a || b) && c)
    ∧ ∀ (o1 : List Str) (v1 : Bool) (rest : List (Bool × List Str × Bool)),
        IsOperand o1 → evalSimpleCond E (join [' '] o1) data = .ok v1 →
        (∀ r ∈ rest, IsOperand r.2.1 ∧ evalSimpleCond E (join [' '] r.2.1) data = .ok r.2.2) →
        evalCondition E (condText o1 rest) data = .ok (foldCond v1 rest) := by
  have la : lookup data "a".toList = .ok (some (.bool a)) := by
    rw [lookup_name data _ (by decide) (by decide) (by decide) (by decide) (by decide) (by decide)
      (by decide) (by decide), ha]
  have lb : lookup data "b".toList = .ok (some (.bool b)) := by
    rw [lookup_name data _ (by decide) (by decide) (by decide) (by decide) (by decide) (by decide)
      (by decide) (by decide), hb]
  have lc : lookup data "c".toList = .ok (some (.bool c)) := by
    rw [lookup_name data _ (by decide) (by decide) (by decide) (by decide) (by decide) (by decide)
      (by decide) (by decide), hc]
  have ea : evalSimpleCond E (join [' '] ["a".toList]) data = .ok a :=
    evalSimpleCond_name E data _ _ (by decide) la
  have eb : evalSimpleCond E (join [' '] ["b".toList]) data = .ok b :=
    evalSimpleCond_name E data _ _ (by decide) lb
  have ec : evalSimpleCond E (join [' '] ["c".toList]) data = .ok c :=
    evalSimpleCond_name E data _ _ (by decide) lc
  have opA : IsOperand ["a".toList] :=
    ⟨by simp, by intro w hw; simp at hw; subst hw; exact ⟨by decide, by decide, by decide, by decide⟩⟩
  have opB : IsOperand ["b".toList] :=
    ⟨by simp, by intro w hw; simp at hw; subst hw; exact ⟨by decide, by decide, by decide, by decide⟩⟩
  have opC : IsOperand ["c".toList] :=
    ⟨by simp, by intro w hw; simp at hw; subst hw; exact ⟨by decide, by decide, by decide, by decide⟩⟩
  refine ⟨?_, ?_, fun o1 v1 rest h1 hv1 h => evalCondition_fold E data o1 v1 rest h1 hv1 h⟩
  · have := evalCondition_fold E data ["a".toList] a
      [(true, ["b".toList], b), (false, ["c".toList], c)] opA ea
      (by
        intro r hr
        simp only [List.mem_cons, List.mem_singleton, List.not_mem_nil, or_false] at hr
        rcases hr with rfl | rfl
        · exact ⟨opB, eb⟩
        · exact ⟨opC, ec⟩)
    exact this
  · have := evalCondition_fold E data ["a".toList] a
      [(false, ["b".toList], b), (true, ["c".toList], c)] opA ea
      (by
        intro r hr
        simp only [List.mem_cons, List.mem_singleton, List.not_mem_nil, or_false] at hr
        rcases hr with rfl | rfl
        · exact ⟨opB, eb⟩
        · exact ⟨opC, ec⟩)
    exact this

/-- C7 at `a = true`, `b = false`, `c = true`: `a and b or c` is true. -/
theorem evalCondition_left_to_right_witness :
    evalCondition Env.sample "a and b or c".toList
      [("a".toList, .bool true), ("b".toList, .bool false), ("c".toList, .bool true)] = .ok true :=
  (evalCondition_left_to_right Env.sample
    [("a".toList, .bool true), ("b".toList, .bool false), ("c".toList, .bool true)]
    true false true rfl rfl rfl).1

/-! ### decimal digits -/

theorem digitChar_spec : ∀ d, d < 10 →
    isDigit (Nat.digitChar d) = true ∧ (Nat.digitChar d).toNat - 48 = d := by
  decide

theorem toDigitsCore_spec : ∀ (fuel k : Nat) (ds : List Char), k < fuel →
    ∃ pre, Nat.toDigitsCore 10 fuel k ds = pre ++ ds ∧ pre ≠ [] ∧ (∀ c ∈ pre, isDigit c = true)
      ∧ ∀ a, pre.foldl digitStep a = a * 10 ^ pre.length + k
  | 0, _, _, h => absurd h (Nat.not_lt_zero _)
  | fuel + 1, k, ds, h => by
    have hd := digitChar_spec (k % 10) (Nat.mod_lt _ (by decide))
    by_cases hk : k / 10 = 0
    · refine ⟨[Nat.digitChar (k % 10)], by simp [Nat.toDigitsCore, hk], by simp, ?_, ?_⟩
      · intro c hc
        simp only [List.mem_singleton] at hc
        subst hc; exact hd.1
      · intro a
        have : k % 10 = k := Nat.mod_eq_of_lt (by omega)
        simp only [List.foldl, digitStep, hd.2, List.length_singleton, pow_one]
        omega
    · have hlt : k / 10 < fuel := by omega
      obtain ⟨pre, h1, _, h3, h4⟩ := toDigitsCore_spec fuel (k / 10) (Nat.digitChar (k % 10) :: ds) hlt
      refine ⟨pre ++ [Nat.digitChar (k % 10)], by simp [Nat.toDigitsCore, hk, h1], by simp, ?_, ?_⟩
      · intro c hc
        rcases List.mem_append.1 hc with hc | hc
        · exact h3 c hc
        · simp only [List.mem_singleton] at hc
          subst hc; exact hd.1
      · intro a
        rw [List.foldl_append, h4]
        simp only [List.foldl, digitStep, hd.2, List.length_append, List.length_singleton, pow_succ]
        have := Nat.div_add_mod k 10
        nlinarith [this]

theorem formatNat_spec (k : Nat) :
    formatNat k ≠ [] ∧ (∀ c ∈ formatNat k, isDigit c = true)
      ∧ (formatNat k).foldl digitStep 0 = k := by
  obtain ⟨pre, h1, h2, h3, h4⟩ := toDigitsCore_spec (k + 1) k [] (Nat.lt_succ_self _)
  have e : formatNat k = pre := by
    simp [formatNat, Nat.toDigits, h1]
  rw [e]
  exact ⟨h2, h3, by simpa using h4 0⟩

theorem isDigit_ne {c d : Char} (h : isDigit c = true) (hd : isDigit d = false) : c ≠ d := by
  intro e; subst e; rw [h] at hd; exact Bool.noConfusion hd

theorem lowerAZ_digit {c : Char} (h : isDigit c = true) : lowerAZ c = c := by
  unfold isDigit at h
  simp only [Bool.and_eq_true, decide_eq_true_eq] at h
  unfold lowerAZ
  rw [if_neg (by omega)]

theorem scanMant_digits : ∀ (ds : Str) (m : Nat) (sd : Bool), (∀ c ∈ ds, isDigit c = true) →
    scanMant false ⟨m, 0, false, sd, false⟩ ds
      = (⟨ds.foldl digitStep m, 0, false, sd || !ds.isEmpty, false⟩, [])
  | [], m, sd, _ => by simp [scanMant]
  | c :: t, m, sd, h => by
    have hc := h c (List.mem_cons_self _ _)
    have h1 : c ≠ '_' := isDigit_ne hc (by decide)
    have h2 : c ≠ '.' := isDigit_ne hc (by decide)
    have ih := scanMant_digits t (m * 10 + (c.toNat - 48)) true
      fun x hx => h x (List.mem_cons_of_mem _ hx)
    simp [scanMant, h1, h2, hc, ih, digitStep]

theorem stripSign_digits {ds : Str} (h : ∀ c ∈ ds, isDigit c = true) : stripSign ds = ds := by
  cases ds with
  | nil => rfl
  | cons c t =>
    have hc := h c (List.mem_cons_self _ _)
    have h1 : c ≠ '-' := isDigit_ne hc (by decide)
    have h2 : c ≠ '+' := isDigit_ne hc (by decide)
    unfold stripSign
    split <;> simp_all

theorem isNegative_digits {ds : Str} (h : ∀ c ∈ ds, isDigit c = true) : isNegative ds = false := by
  cases ds with
  | nil => rfl
  | cons c t =>
    have hc := h c (List.mem_cons_self _ _)
    have h1 : c ≠ '-' := isDigit_ne hc (by decide)
    unfold isNegative
    split <;> simp_all

theorem hexPrefix_digits {ds : Str} (h : ∀ c ∈ ds, isDigit c = true) : hexPrefix ds = false := by
  unfold hexPrefix
  split
  · rename_i c _ _
    have hc : isDigit c = true := h c (by simp)
    have h1 : c ≠ 'x' := isDigit_ne hc (by decide)
    have h2 : c ≠ 'X' := isDigit_ne hc (by decide)
    simp [h1, h2]
  · rfl

theorem map_lowerAZ_digits_ne {ds : Str} (hne : ds ≠ []) (h : ∀ c ∈ ds, isDigit c = true)
    (t : Str) (ht : ∀ c ∈ t, isDigit c = false) (htne : t ≠ []) : ds.map lowerAZ ≠ t := by
  cases ds with
  | nil => exact absurd rfl hne
  | cons c r =>
    have hc := h c (List.mem_cons_self _ _)
    cases t with
    | nil => exact absurd rfl htne
    | cons d u =>
      have hd := ht d (List.mem_cons_self _ _)
      simp only [List.map, lowerAZ_digit hc, ne_eq, List.cons.injEq, not_and]
      intro e
      exact absurd e (isDigit_ne hc hd)

/-- The double the text of a decimal integer denotes when its digits have the
value `k`. -/
theorem parseFloat_digits (neg : Bool) (ds : Str) (hne : ds ≠ [])
    (h : ∀ c ∈ ds, isDigit c = true) :
    parseFloat (if neg then '-' :: ds else ds) = F64.round neg (ds.foldl digitStep 0) 1 := by
  have hs : stripSign (if neg then '-' :: ds else ds) = ds := by
    cases neg
    · simpa using stripSign_digits h
    · rfl
  have hn : isNegative (if neg then '-' :: ds else ds) = neg := by
    cases neg
    · simpa using isNegative_digits h
    · rfl
  have h1 : ds.map lowerAZ ≠ "inf".toList := map_lowerAZ_digits_ne hne h _ (by decide) (by decide)
  have h2 : ds.map lowerAZ ≠ "infinity".toList :=
    map_lowerAZ_digits_ne hne h _ (by decide) (by decide)
  have h3 : (if neg then '-' :: ds else ds).map lowerAZ ≠ "nan".toList := by
    cases neg
    · simpa using map_lowerAZ_digits_ne hne h _ (by decide) (by decide)
    · simp only [if_true, List.map]
      intro e
      have := (List.cons.inj e).1
      revert this; decide
  have hds : ds.isEmpty = false := by cases ds <;> simp_all
  unfold parseFloat
  simp only [hs, hn, h1, h2, h3, or_self, if_false, hexPrefix_digits h, Bool.false_eq_true,
    scanMant_digits ds 0 false h, hds, Bool.not_false, Bool.or_true, Bool.not_true, readExp,
    not_false_eq_true, and_false, or_false, false_and, ne_eq, not_true_eq_false, floatValue,
    Int.Nat.cast_ofNat_Int, sub_zero, le_refl, if_true, Int.toNat_zero, pow_zero, mul_one]

/-! ### numeric comparison -/

theorem round_exact (neg : Bool) (k : Nat) (hk : k ≤ 2 ^ 53) (h0 : k ≠ 0) :
    F64.round neg k 1 = some (F64.fin (if neg then -(k : ℚ) else (k : ℚ))) := by
  unfold F64.round F64.roundMag
  rw [if_neg h0, if_pos ⟨one_dvd k, by rw [Nat.div_one]; exact hk⟩, Nat.div_one]
  rfl

theorem parseFloat_formatInt (n : Int) (hn : n.natAbs ≤ 2 ^ 53) :
    parseFloat (formatInt n) = some (F64.fin (n : ℚ)) := by
  obtain ⟨h1, h2, h3⟩ := formatNat_spec n.natAbs
  have e : formatInt n = if decide (n < 0) then '-' :: formatNat n.natAbs else formatNat n.natAbs := by
    unfold formatInt
    by_cases hlt : n < 0 <;> simp [hlt]
  rw [e, parseFloat_digits _ _ h1 h2, h3]
  by_cases h0 : n.natAbs = 0
  · have : n = 0 := Int.natAbs_eq_zero.1 h0
    subst this
    rfl
  · rw [round_exact _ _ hn h0]
    congr 2
    by_cases hlt : n < 0
    · simp only [hlt, decide_True, if_true]
      have : (n.natAbs : Int) = -n := by omega
      rw [← Int.cast_natCast (R := ℚ) n.natAbs, this]
      push_cast; ring
    · simp only [hlt, decide_False, Bool.false_eq_true, if_false]
      have : (n.natAbs : Int) = n := by omega
      rw [← Int.cast_natCast (R := ℚ) n.natAbs, this]

theorem toFloat_int (E : Env) (m : Int) (hm : m.natAbs ≤ 2 ^ 53) :
    toFloat E (.int m) = some (F64.fin (m : ℚ)) := by
  show some (F64.ofInt m) = _
  unfold F64.ofInt
  rw [if_pos hm]

theorem toFloat_intText (E : Env) (n : Int) (hn : n.natAbs ≤ 2 ^ 53) :
    toFloat E (.str (formatInt n)) = some (F64.fin (n : ℚ)) := by
  have hne : formatInt n ≠ [] := by
    unfold formatInt
    split
    · simp
    · exact (formatNat_spec _).1
  simp [toFloat, formatValue, hne, parseFloat_formatInt n hn]

theorem compareValues_of_toFloat (E : Env) (a b : Value) (x y : F64) (op : Str) (r : Bool)
    (ha : toFloat E a = some x) (hb : toFloat E b = some y) (hr : cmpF64 op x y = some r) :
    compareValues E a b op = .ok r := by
  unfold compareValues
  simp only [ha, hb]
  unfold cmpF64 at hr
  split_ifs at hr ⊢ <;> simp_all

theorem cmpF64_fin_int (op : Str) (m n : Int) :
    cmpF64 op (F64.fin (m : ℚ)) (F64.fin (n : ℚ)) = cmpInt op m n := by
  have hlt : ((m : ℚ) < (n : ℚ)) ↔ m < n := Int.cast_lt
  have heq : ((m : ℚ) = (n : ℚ)) ↔ m = n := Int.cast_inj
  unfold cmpF64 cmpInt
  rcases lt_trichotomy m n with h | h | h
  · have h1 : ¬ m = n := by omega
    have h2 : ¬ n < m := by omega
    have h3 : ¬ n ≤ m := by omega
    have h4 : m ≤ n := by omega
    simp [F64.eq, F64.ne, F64.gt, F64.lt, F64.ge, F64.le, F64.cmp, F64.num, hlt, heq, h, h1, h2,
      h3, h4]
  · subst h
    simp [F64.eq, F64.ne, F64.gt, F64.lt, F64.ge, F64.le, F64.cmp, F64.num]
  · have h1 : ¬ m = n := by omega
    have h2 : ¬ m < n := by omega
    have h3 : ¬ m ≤ n := by omega
    have h4 : n ≤ m := by omega
    simp [F64.eq, F64.ne, F64.gt, F64.lt, F64.ge, F64.le, F64.cmp, F64.num, hlt, heq, h, h1, h2,
      h3, h4]

/-- C8: for integers `m`, `n` of magnitude at most `2^53` and each of the six
operators, `compareValues` of the integer `m` and the decimal text of `n`, and
of the decimal texts of `m` and `n`, returns the comparison of the numbers with
no error; `compareValues(3, "3", "==")`, `compareValues("10", "9", ">")` and
`compareValues("b", "a", ">")` are true; two operands that both convert to a
number are compared as numbers; and two strings one of which does not convert
are compared as strings. -/
theorem compareValues_numeric (E : Env) (m n : Int) (hm : m.natAbs ≤ 2 ^ 53)
    (hn : n.natAbs ≤ 2 ^ 53) :
    (∀ op r, cmpInt op m n = some r →
        compareValues E (.int m) (.str (formatInt n)) op = .ok r
        ∧ compareValues E (.str (formatInt m)) (.str (formatInt n)) op = .ok r)
    ∧ compareValues E (.int 3) (.str "3".toList) "==".toList = .ok true
    ∧ compareValues E (.str "10".toList) (.str "9".toList) ">".toList = .ok true
    ∧ compareValues E (.str "b".toList) (.str "a".toList) ">".toList = .ok true
    ∧ (∀ (a b : Value) (x y : F64) (op : Str) (r : Bool), toFloat E a = some x →
        toFloat E b = some y → cmpF64 op x y = some r → compareValues E a b op = .ok r)
    ∧ (∀ (s t : Str) (op : Str), toFloat E (.str s) = none ∨ toFloat E (.str t) = none →
        compareValues E (.str s) (.str t) op = compareStrings E (.str s) (.str t) op) := by
  have key : ∀ (m n : Int), m.natAbs ≤ 2 ^ 53 → n.natAbs ≤ 2 ^ 53 → ∀ op r,
      cmpInt op m n = some r →
        compareValues E (.int m) (.str (formatInt n)) op = .ok r
        ∧ compareValues E (.str (formatInt m)) (.str (formatInt n)) op = .ok r := by
    intro m n hm hn op r hr
    rw [← cmpF64_fin_int] at hr
    exact ⟨compareValues_of_toFloat E _ _ _ _ op r (toFloat_int E m hm) (toFloat_intText E n hn) hr,
      compareValues_of_toFloat E _ _ _ _ op r (toFloat_intText E m hm) (toFloat_intText E n hn) hr⟩
  refine ⟨key m n hm hn, (key 3 3 (by decide) (by decide) "==".toList true rfl).1,
    (key 10 9 (by decide) (by decide) ">".toList true rfl).2, rfl,
    compareValues_of_toFloat E, ?_⟩
  · intro s t op h
    unfold compareValues
    rcases h with h | h
    · rw [h]; rfl
    · rw [h]
      cases toFloat E (.str s) <;> rfl

/-- C8 at `m = 10`, `n = 9` and the operator `>`. -/
theorem compareValues_numeric_witness :
    compareValues Env.sample (.int 10) (.str "9".toList) ">".toList = .ok true :=
  ((compareValues_numeric Env.sample 10 9 (by decide) (by decide)).1 ">".toList true rfl).1

/-! ### the loop -/

theorem Ctx.get_set_self (m : Ctx) (k : Str) (v : Value) : Ctx.get (Ctx.set m k v) k = some v := by
  simp [Ctx.set, Ctx.get]

theorem Ctx.get_erase_ne (k k1 : Str) (h : k1 ≠ k) :
    ∀ m : Ctx, Ctx.get (Ctx.erase m k) k1 = Ctx.get m k1
  | [] => rfl
  | (k2, v) :: rest => by
    have ih := Ctx.get_erase_ne k k1 h rest
    by_cases h2 : k2 = k
    · subst h2
      have : ¬ k2 = k1 := fun e => h e.symm
      simp only [Ctx.erase, Ctx.get, if_true, this, if_false, ih]
    · by_cases h3 : k2 = k1
      · subst h3
        simp only [Ctx.erase, Ctx.get, h2, if_false, if_true]
      · simp only [Ctx.erase, Ctx.get, h2, h3, if_false, ih]

theorem Ctx.get_set_ne (m : Ctx) (k k1 : Str) (v : Value) (h : k1 ≠ k) :
    Ctx.get (Ctx.set m k v) k1 = Ctx.get m k1 := by
  have : ¬ k = k1 := fun e => h e.symm
  simp [Ctx.set, Ctx.get, this, Ctx.get_erase_ne k k1 h m]

theorem escapeString_safe : ∀ s : Str, (∀ c ∈ s, htmlSafe c = true) → escapeString s = s
  | [], _ => rfl
  | c :: t, h => by
    have hc := h c (List.mem_cons_self _ _)
    simp only [htmlSafe, Bool.and_eq_true, decide_eq_true_eq, ne_eq] at hc
    obtain ⟨⟨⟨⟨h1, h2⟩, h3⟩, h4⟩, h5⟩ := hc
    simp [escapeString, h1, h2, h3, h4, h5,
      escapeString_safe t fun x hx => h x (List.mem_cons_of_mem _ hx)]

theorem isDigit_htmlSafe {c : Char} (h : isDigit c = true) : htmlSafe c = true := by
  have h1 : c ≠ '&' := isDigit_ne h (by decide)
  have h2 : c ≠ '\'' := isDigit_ne h (by decide)
  have h3 : c ≠ '<' := isDigit_ne h (by decide)
  have h4 : c ≠ '>' := isDigit_ne h (by decide)
  have h5 : c ≠ '"' := isDigit_ne h (by decide)
  simp [htmlSafe, h1, h2, h3, h4, h5]

theorem formatInt_natCast (i : Nat) : formatInt (i : Int) = formatNat i := by
  unfold formatInt
  rw [if_neg (by omega)]
  simp

theorem escapeString_formatInt (i : Nat) : escapeString (formatInt (i : Int)) = formatInt (i : Int) := by
  rw [formatInt_natCast]
  exact escapeString_safe _ fun c hc => isDigit_htmlSafe ((formatNat_spec i).2.1 c hc)

theorem escapeString_boolText (b : Bool) : escapeString (boolText b) = boolText b := by
  cases b <;> decide

/-- What a variable tag renders for a value whose text needs no escaping. -/
theorem evalVar_safe (E : Env) (name : Str) (data : Ctx) (v : Value)
    (h : lookup data name = .ok (some v)) (hs : escapeString (formatValue E v) = formatValue E v) :
    evalVar E name [] [] data = .ok (formatValue E v) := by
  unfold evalVar
  simp only [h, List.foldl, Outcome.bind]
  cases E.autoEscape
  · rfl
  · simp only [if_true]
    have : (!containsFilter [] "raw".toList && !containsFilter [] "safe".toList
        && !containsFilter [] "noescape".toList) = true := by decide
    rw [if_pos this, hs]

theorem lookup_path (data : Ctx) (p : Str) (segs : List Str) (h1 : trimSpace p = p) (h2 : p ≠ [])
    (h3 : isQuoted p = false) (h4 : atoi p = none) (h5 : parseFloat p = none)
    (h6 : p ≠ "true".toList) (h7 : p ≠ "false".toList) (h8 : splitOn1 '.' p = segs) :
    lookup data p = lookupPath (.map data) segs := by
  unfold lookup
  simp only [h1, h2, h3, h4, h5, h6, h7, h8, if_false, Bool.false_eq_true]

theorem forTemplate_compiled :
    compileTokens (tokenize forTemplate)
      = .ok [ForNode "i".toList "x".toList "items".toList forBody] := by
  rfl

theorem forBody_line (E : Env) (data : Ctx) (k i : Nat) (x : Str)
    (hx : ∀ c ∈ x, htmlSafe c = true) :
    evalNodes E forBody (iterCtx data k i (.str x)) = .ok (forLine k i x) := by
  have li : lookup (iterCtx data k i (.str x)) "i".toList = .ok (some (.int i)) := by
    rw [lookup_name _ _ (by decide) (by decide) (by decide) (by decide) (by decide) (by decide)
      (by decide) (by decide)]
    unfold iterCtx
    rw [Ctx.get_set_ne _ _ _ _ (by decide), Ctx.get_set_ne _ _ _ _ (by decide), Ctx.get_set_self]
  have lx : lookup (iterCtx data k i (.str x)) "x".toList = .ok (some (.str x)) := by
    rw [lookup_name _ _ (by decide) (by decide) (by decide) (by decide) (by decide) (by decide)
      (by decide) (by decide)]
    unfold iterCtx
    rw [Ctx.get_set_ne _ _ _ _ (by decide), Ctx.get_set_self]
  have lf : lookup (iterCtx data k i (.str x)) "loop.First".toList
      = .ok (some (.bool (decide (i = 0)))) := by
    rw [lookup_path _ _ ["loop".toList, "First".toList] (by decide) (by decide) (by decide)
      (by decide) (by decide) (by decide) (by decide) (by decide)]
    unfold iterCtx
    simp only [lookupPath, Ctx.get_set_self]
    rfl
  have ll : lookup (iterCtx data k i (.str x)) "loop.Last".toList
      = .ok (some (.bool (decide ((i : Int) = (k : Int) - 1)))) := by
    rw [lookup_path _ _ ["loop".toList, "Last".toList] (by decide) (by decide) (by decide)
      (by decide) (by decide) (by decide) (by decide) (by decide)]
    unfold iterCtx
    simp only [lookupPath, Ctx.get_set_self]
    rfl
  have hlast : decide ((i : Int) = (k : Int) - 1) = decide (i + 1 = k) := by
    apply decide_eq_decide.2
    omega
  have fb : ∀ b : Bool, formatValue E (.bool b) = boolText b := fun b => rfl
  have vi := evalVar_safe E _ _ _ li (by
    show escapeString (formatInt (i : Int)) = formatInt (i : Int)
    exact escapeString_formatInt i)
  have vx := evalVar_safe E _ _ _ lx (by
    show escapeString x = x
    exact escapeString_safe x hx)
  have vf := evalVar_safe E _ _ _ lf (by rw [fb]; exact escapeString_boolText _)
  have vl := evalVar_safe E _ _ _ ll (by rw [fb]; exact escapeString_boolText _)
  unfold forBody
  simp only [evalNodes, Node.Eval, Outcome.bind, vi, vx, vf, vl, fb, hlast]
  simp [forLine, formatValue]

theorem forLoop_output (E : Env) (data : Ctx) (k : Nat) :
    ∀ (xs : List Str) (i : Nat), (∀ x ∈ xs, ∀ c ∈ x, htmlSafe c = true) →
    forLoop (fun d => evalNodes E forBody d) "i".toList "x".toList data k i (xs.map Value.str)
      = .ok (forOutput k i xs)
  | [], _, _ => rfl
  | x :: xs, i, h => by
    have ih := forLoop_output E data k xs (i + 1) fun y hy => h y (List.mem_cons_of_mem _ hy)
    have hb := forBody_line E data k i x (h x (List.mem_cons_self _ _))
    simp only [List.map, forLoop]
    have e : (if "i".toList ≠ [] then (shallowCopyMap data).set "i".toList (.int i)
        else shallowCopyMap data) = (shallowCopyMap data).set "i".toList (.int i) := rfl
    rw [e]
    unfold iterCtx at hb
    rw [hb, ih]
    rfl

/-- C3 (amended): for every list `items` of strings free of HTML-special
characters, the loop template renders, for the indices `i` in order, the text
`i:xi(F,L)` with `F` true exactly at the first and `L` true exactly at the last
index, and nothing between two iterations: the space that ends the body of
the loop in the source is trimmed by `tokenize`.  For `["x", "y"]` the output
is `0:x(true,false)1:y(false,true)`. -/
theorem render_for_loop (E : Env) (data : Ctx) (xs : List Str)
    (hsafe : ∀ x ∈ xs, ∀ c ∈ x, htmlSafe c = true)
    (hitems : Ctx.get data "items".toList = some (.seq (xs.map Value.str))) :
    renderSource E forTemplate data = .ok (forOutput xs.length 0 xs)
    ∧ forOutput 2 0 ["x".toList, "y".toList] = "0:x(true,false)1:y(false,true)".toList := by
  refine ⟨?_, by decide⟩
  have hl : lookup data "items".toList = .ok (some (.seq (xs.map Value.str))) := by
    rw [lookup_name _ _ (by decide) (by decide) (by decide) (by decide) (by decide) (by decide)
      (by decide) (by decide), hitems]
  have hfor : Node.Eval E (ForNode "i".toList "x".toList "items".toList forBody) data
      = .ok (forOutput xs.length 0 xs) := by
    rw [Node.Eval]
    simp only [hl, Outcome.bind]
    rw [List.length_map]
    exact forLoop_output E data xs.length xs 0 hsafe
  unfold renderSource
  rw [forTemplate_compiled]
  show (evalNodes E [ForNode "i".toList "x".toList "items".toList forBody] data) = _
  rw [evalNodes, hfor]
  simp [Outcome.bind, evalNodes]

/-- C3 (amended) at `items = ["x", "y"]`. -/
theorem render_for_loop_witness :
    renderSource Env.sample forTemplate
      [("items".toList, .seq [.str "x".toList, .str "y".toList])]
        = .ok "0:x(true,false)1:y(false,true)".toList :=
  (render_for_loop Env.sample [("items".toList, .seq [.str "x".toList, .str "y".toList])]
    ["x".toList, "y".toList] (by decide) rfl).1

/-- C3 as stated fails at `items = ["x", "y"]`: the output is not
`0:x(true,false) 1:y(false,true) `. -/
theorem render_for_loop_no_space :
    renderSource Env.sample forTemplate
      [("items".toList, .seq [.str "x".toList, .str "y".toList])]
        ≠ .ok "0:x(true,false) 1:y(false,true) ".toList := by
  decide

/-! ### stray tokens -/

theorem getElem?_append_cons {α : Type} (x : α) (rest : List α) :
    ∀ pre : List α, (pre ++ x :: rest)[pre.length]? = some x
  | [] => by simp
  | a :: pre => by
    rw [List.cons_append, List.length_cons, List.getElem?_cons_succ]
    exact getElem?_append_cons x rest pre

theorem compileLoop_stray (S : List Token) (t : Token) (ht : IsStray t) :
    ∀ (P pre : List Token) (nodes : List Node) (fuel : Nat), (∀ p ∈ P, IsLeaf p) →
      P.length < fuel → compileLoop fuel (pre ++ (P ++ t :: S)) pre.length nodes
        = .error .unexpectedToken
  | [], pre, nodes, fuel, _, hf => by
    obtain ⟨k, rfl⟩ : ∃ k, fuel = k + 1 := ⟨fuel - 1, by simp at hf; omega⟩
    rw [compileLoop, List.nil_append, getElem?_append_cons]
    rcases ht with h | h | h | h | h | h | h <;> simp only [h]
  | p :: P, pre, nodes, fuel, hP, hf => by
    obtain ⟨k, rfl⟩ : ∃ k, fuel = k + 1 := ⟨fuel - 1, by simp at hf; omega⟩
    have ih := fun nodes => compileLoop_stray S t ht P (pre ++ [p]) nodes k
      (fun q hq => hP q (List.mem_cons_of_mem _ hq)) (by simp at hf; omega)
    have e : pre ++ [p] ++ (P ++ t :: S) = pre ++ (p :: P ++ t :: S) := by simp
    rw [e, List.length_append, List.length_singleton, List.cons_append] at ih
    rw [compileLoop, List.cons_append, getElem?_append_cons]
    rcases hP p (List.mem_cons_self _ _) with h | h <;> simp only [h] <;> exact ih _

/-- C12: for tokens `P ++ [t] ++ S` in which `P` holds text and variable
tokens only and `t` is an `ElseIf`, `Else`, `EndIf`, `EndFor`, `Case`, `Default`
or `EndSwitch` token, `compileTokens` returns the error `unexpected token`, and
with it no list of nodes, whatever `S` is. -/
theorem compileTokens_stray (P S : List Token) (t : Token) (hP : ∀ p ∈ P, IsLeaf p)
    (ht : IsStray t) : compileTokens (P ++ t :: S) = .error .unexpectedToken := by
  exact compileLoop_stray S t ht P [] [] ((P ++ t :: S).length + 1) hP
    (by rw [List.length_append]; omega)

/-- C12 at the tokens `Text a, Var x, EndIf, Text b`. -/
theorem compileTokens_stray_witness :
    compileTokens ([textTok "a".toList, varTok "x"] ++ { type := TEndIf } :: [textTok "b".toList])
      = .error .unexpectedToken :=
  compileTokens_stray _ _ _ (by intro p hp; simp [textTok, varTok] at hp; rcases hp with h | h <;> subst h <;> simp [IsLeaf])
    (Or.inr (Or.inr (Or.inl rfl)))

/-! ### the cache of compiled templates -/

theorem Time.Equal_self (t : Time) : t.Equal t = true := by
  simp [Time.Equal]

theorem Cache.set_self (cache : Cache) (path : Str) (tpl : Template) :
    cache.set path tpl path = some tpl := by
  simp [Cache.set]

theorem getOrCompile_hit (fs : FileSystem) (cache : Cache) (path : Str) (t : Time)
    (e : Template) (hs : fs.stat path = some t) (hc : cache path = some e)
    (ht : e.modTime.Equal t = true) : getOrCompile fs cache path = (.ok e, cache) := by
  simp only [getOrCompile, hs, hc, ht, if_true]

theorem getOrCompile_stat_error (fs : FileSystem) (cache : Cache) (path : Str)
    (hs : fs.stat path = none) : getOrCompile fs cache path = (.error .statFailed, cache) := by
  simp only [getOrCompile, hs]

theorem getOrCompile_read_error (fs : FileSystem) (cache : Cache) (path : Str) (t : Time)
    (hs : fs.stat path = some t) (hc : ∀ e, cache path = some e → e.modTime.Equal t = false)
    (hr : fs.readFile path = none) : getOrCompile fs cache path = (.error .readFailed, cache) := by
  unfold getOrCompile
  cases h : cache path with
  | none => simp only [hs, hr]
  | some e => simp only [hs, hc e h, Bool.false_eq_true, if_false, hr]

theorem getOrCompile_miss (fs : FileSystem) (cache : Cache) (path : Str) (t : Time) (src : Str)
    (hs : fs.stat path = some t) (hc : ∀ e, cache path = some e → e.modTime.Equal t = false)
    (hr : fs.readFile path = some src) :
    getOrCompile fs cache path = afterCompile cache path t (compileTokens (tokenize src)) := by
  unfold getOrCompile
  cases h : cache path with
  | none =>
    simp only [hs, hr]
    cases compileTokens (tokenize src) <;> rfl
  | some e =>
    simp only [hs, hc e h, Bool.false_eq_true, if_false, hr]
    cases compileTokens (tokenize src) <;> rfl

theorem hit_or_miss (cache : Cache) (path : Str) (t : Time) :
    (∃ e, cache path = some e ∧ e.modTime.Equal t = true)
      ∨ ∀ e, cache path = some e → e.modTime.Equal t = false := by
  cases h : cache path with
  | none => exact Or.inr fun e he => Option.noConfusion he
  | some e =>
    by_cases ht : e.modTime.Equal t = true
    · exact Or.inl ⟨e, rfl, ht⟩
    · refine Or.inr fun e2 he2 => ?_
      cases he2
      simpa using ht

/-- C17: `getOrCompile` with the cache as explicit state and `os.Stat`,
`os.ReadFile` as oracles, when `os.Stat(path)` succeeds with the time `t`.
If the cache holds an entry for `path` whose recorded time equals `t`, the call
returns that entry and leaves the cache as it is, whatever the content of the
file.  Otherwise, if the file is read and its source compiles, the call returns
the entry of `path`, the compiled nodes and `t`, and the new cache is the old
one with that entry under the key `path`.  No other key changes in any case.
A second call with the same file system returns the entry the first call
returned, and leaves the cache as the first call left it.  (An entry whose
recorded time differs from `t` falls under the second case, so that the nodes
come from the content read at this call.) -/
theorem getOrCompile_cache (fs : FileSystem) (cache : Cache) (path : Str) (t : Time)
    (hs : fs.stat path = some t) :
    (∀ e, cache path = some e → e.modTime.Equal t = true →
        getOrCompile fs cache path = (.ok e, cache))
      ∧ (∀ src nodes, (∀ e, cache path = some e → e.modTime.Equal t = false) →
          fs.readFile path = some src → compileTokens (tokenize src) = .ok nodes →
          getOrCompile fs cache path
            = (.ok { filepath := path, nodes := nodes, modTime := t },
                cache.set path { filepath := path, nodes := nodes, modTime := t }))
      ∧ (∀ k, k ≠ path → (getOrCompile fs cache path).2 k = cache k)
      ∧ (∀ tpl, (getOrCompile fs cache path).1 = .ok tpl →
          getOrCompile fs (getOrCompile fs cache path).2 path
            = (.ok tpl, (getOrCompile fs cache path).2)) := by
  have hit := fun e => getOrCompile_hit fs cache path t e hs
  refine ⟨hit, ?_, ?_, ?_⟩
  · intro src nodes hc hr hn
    rw [getOrCompile_miss fs cache path t src hs hc hr, hn]
    rfl
  · intro k hk
    rcases hit_or_miss cache path t with ⟨e, hc, ht⟩ | hc
    · rw [hit e hc ht]
    · cases hr : fs.readFile path with
      | none => rw [getOrCompile_read_error fs cache path t hs hc hr]
      | some src =>
        rw [getOrCompile_miss fs cache path t src hs hc hr]
        cases compileTokens (tokenize src) with
        | ok nodes => simp only [afterCompile, Cache.set, hk, if_false]
        | error e => rfl
        | fault => rfl
        | diverge => rfl
  · intro tpl h
    rcases hit_or_miss cache path t with ⟨e, hc, ht⟩ | hc
    · rw [hit e hc ht] at h ⊢
      cases h
      exact hit _ hc ht
    · cases hr : fs.readFile path with
      | none =>
        rw [getOrCompile_read_error fs cache path t hs hc hr] at h
        cases h
      | some src =>
        rw [getOrCompile_miss fs cache path t src hs hc hr] at h ⊢
        cases hn : compileTokens (tokenize src) with
        | ok nodes =>
          rw [hn] at h
          cases h
          exact getOrCompile_hit fs _ path t _ hs (Cache.set_self _ _ _) (Time.Equal_self t)
        | error e => rw [hn] at h; cases h
        | fault => rw [hn] at h; cases h
        | diverge => rw [hn] at h; cases h

/-- C17 at a file `t` last modified at the instant 5: with the empty cache and
the content `hi` the call compiles and stores the entry; with that entry in the
cache and the content `changed` the call returns the entry as it is. -/
theorem getOrCompile_cache_witness :
    (oneFile 5 "hi").stat "t".toList = some { instant := 5, location := 0 }
      ∧ getOrCompile (oneFile 5 "hi") emptyCache "t".toList
          = (.ok hiTemplate, emptyCache.set "t".toList hiTemplate)
      ∧ getOrCompile (oneFile 5 "changed") (emptyCache.set "t".toList hiTemplate) "t".toList
          = (.ok hiTemplate, emptyCache.set "t".toList hiTemplate) :=
  ⟨rfl,
   (getOrCompile_cache (oneFile 5 "hi") emptyCache "t".toList _ rfl).2.1 "hi".toList
      [TextNode "hi".toList] (fun _ h => Option.noConfusion h) rfl rfl,
   (getOrCompile_cache (oneFile 5 "changed") (emptyCache.set "t".toList hiTemplate) "t".toList _
      rfl).1 hiTemplate rfl rfl⟩

/-- C18: whenever `getOrCompile` returns an error (from `os.Stat`, from
`os.ReadFile` or from `compileTokens`), the cache after the call is the cache
before it: no entry is added, replaced or removed. -/
theorem getOrCompile_error_keeps_cache (fs : FileSystem) (cache : Cache) (path : Str) (e : Err)
    (h : (getOrCompile fs cache path).1 = .error e) :
    (getOrCompile fs cache path).2 = cache := by
  cases hs : fs.stat path with
  | none => rw [getOrCompile_stat_error fs cache path hs]
  | some t =>
    rcases hit_or_miss cache path t with ⟨tpl, hc, ht⟩ | hc
    · rw [getOrCompile_hit fs cache path t tpl hs hc ht]
    · cases hr : fs.readFile path with
      | none => rw [getOrCompile_read_error fs cache path t hs hc hr]
      | some src =>
        rw [getOrCompile_miss fs cache path t src hs hc hr] at h ⊢
        cases hn : compileTokens (tokenize src) with
        | ok nodes => rw [hn] at h; cases h
        | error e => rfl
        | fault => rfl
        | diverge => rfl

/-- C18 at a file whose content `<{ /if }>` does not compile, modified after
the entry the cache holds for it: the call returns `unexpected token` and the
cache keeps the entry. -/
theorem getOrCompile_error_keeps_cache_witness :
    (getOrCompile (oneFile 6 "<\x7b /if \x7d>") (emptyCache.set "t".toList hiTemplate)
        "t".toList).1 = .error .unexpectedToken
      ∧ (getOrCompile (oneFile 6 "<\x7b /if \x7d>") (emptyCache.set "t".toList hiTemplate)
          "t".toList).2 = emptyCache.set "t".toList hiTemplate :=
  ⟨rfl, getOrCompile_error_keeps_cache _ _ _ _ (rfl :
    (getOrCompile (oneFile 6 "<\x7b /if \x7d>") (emptyCache.set "t".toList hiTemplate)
        "t".toList).1 = .error .unexpectedToken)⟩

/-! ### a switch nested in a switch -/

/-- C19 (what the code does): the tokens
`Switch a, Case c1, Switch b, Case c2, Text x, EndSwitch, EndSwitch`, a switch
nested in the case body of another switch, do not compile.  `parseSwitch` adds
one to its `depth` before it calls itself for the nested switch, and the call
consumes the nested switch with its `EndSwitch`; the loop then takes the
`EndSwitch` of the outer switch for the end of a nested one, appends it to the
body as text, and runs out of tokens: `unclosed switch`, from `parseSwitch` at
index 0 with any fuel from 5 units on and from `compileTokens`.  The nested
switch for itself, parsed from index 2, is returned with the index 6 just past
its `EndSwitch`. -/
theorem nested_switch_unclosed (a c1 b c2 x : Str) (fuel : Nat) :
    parseSwitch (fuel + 5) (nestedSwitchTokens a c1 b c2 x) 0 = .error .unclosedSwitch
      ∧ compileTokens (nestedSwitchTokens a c1 b c2 x) = .error .unclosedSwitch
      ∧ (c2 ≠ [] → parseSwitch (fuel + 3) (nestedSwitchTokens a c1 b c2 x) 2
          = .ok (SwitchNode b [(c2, [TextNode x])] [], 6)) := by
  refine ⟨?_, ?_, ?_⟩
  · simp [parseSwitch, nestedSwitchTokens, parseSwitchLoop]
  · simp [compileTokens, compileLoop, nestedSwitchTokens, parseSwitchLoop]
  · intro h
    simp [parseSwitch, nestedSwitchTokens, parseSwitchLoop, SwitchState.flushCase,
      SwitchState.append, h]

/-! ### a case that is a bare integer -/

theorem digitsVal_digits : ∀ (ds : Str) (acc : Nat), (∀ c ∈ ds, isDigit c = true) →
    digitsVal acc ds = some (ds.foldl digitStep acc)
  | [], _, _ => rfl
  | c :: t, acc, h => by
    rw [digitsVal, if_pos (h c (List.mem_cons_self _ _)),
      digitsVal_digits t _ fun x hx => h x (List.mem_cons_of_mem _ hx)]
    rfl

theorem atoi_formatInt (k : Int) (hr : -(2 ^ 63) ≤ k ∧ k < 2 ^ 63) :
    atoi (formatInt k) = some k := by
  obtain ⟨h1, h2, h3⟩ := formatNat_spec k.natAbs
  unfold atoi formatInt
  by_cases hlt : k < 0
  · have hv : (-(k.natAbs : Int)) = k := by omega
    simp only [hlt, if_true, stripSign, isNegative, h1, if_false, digitsVal_digits _ 0 h2, h3, hv,
      hr, and_self]
  · have hv : (k.natAbs : Int) = k := by omega
    simp only [hlt, if_false, stripSign_digits h2, isNegative_digits h2, h1,
      digitsVal_digits _ 0 h2, h3, hv, hr, and_self, Bool.false_eq_true, if_true]

/-- The characters of the text of an integer: digits, and the sign in front. -/
theorem formatInt_chars (k : Int) : formatInt k ≠ []
    ∧ ∀ c ∈ formatInt k, isDigit c = true ∨ c = '-' := by
  obtain ⟨h1, h2, _⟩ := formatNat_spec k.natAbs
  unfold formatInt
  split
  · refine ⟨by simp, fun c hc => ?_⟩
    rcases List.mem_cons.1 hc with h | h
    · exact Or.inr h
    · exact Or.inl (h2 c h)
  · exact ⟨h1, fun c hc => Or.inl (h2 c hc)⟩

theorem intChar_ne {c d : Char} (h : isDigit c = true ∨ c = '-') (hd : isDigit d = false)
    (hm : d ≠ '-') : c ≠ d := by
  rcases h with h | h
  · exact isDigit_ne h hd
  · rw [h]; exact hm.symm

theorem intChar_range {c : Char} (h : isDigit c = true ∨ c = '-') :
    c.toNat = 45 ∨ (48 ≤ c.toNat ∧ c.toNat ≤ 57) := by
  rcases h with h | h
  · unfold isDigit at h
    simp only [Bool.and_eq_true, decide_eq_true_eq] at h
    exact Or.inr h
  · subst h; exact Or.inl rfl

theorem intChar_not_space {c : Char} (h : isDigit c = true ∨ c = '-') : isSpace c = false := by
  have := intChar_range h
  unfold isSpace
  simp only [Bool.or_eq_false_iff, Bool.and_eq_false_iff, decide_eq_false_iff_not]
  omega

theorem intChar_not_reSpace {c : Char} (h : isDigit c = true ∨ c = '-') : reSpace c = false := by
  have := intChar_range h
  have h1 : c ≠ '\t' := intChar_ne h (by decide) (by decide)
  have h2 : c ≠ '\n' := intChar_ne h (by decide) (by decide)
  have h3 : c ≠ '\r' := intChar_ne h (by decide) (by decide)
  have h4 : c ≠ ' ' := intChar_ne h (by decide) (by decide)
  unfold reSpace
  simp [h1, h2, h3, h4]
  omega

theorem compOpAt_none_of_intChar {c : Char} (t : Str) (h : isDigit c = true ∨ c = '-') :
    compOpAt (c :: t) = none := by
  have h1 : c ≠ '=' := intChar_ne h (by decide) (by decide)
  have h2 : c ≠ '!' := intChar_ne h (by decide) (by decide)
  have h3 : c ≠ '>' := intChar_ne h (by decide) (by decide)
  have h4 : c ≠ '<' := intChar_ne h (by decide) (by decide)
  have hc : compOp (c :: t) = none := by
    unfold compOp
    split <;> simp_all
  unfold compOpAt
  simp [many, intChar_not_reSpace h, hc]

theorem compOpRe_none_of_intText : ∀ s : Str, (∀ c ∈ s, isDigit c = true ∨ c = '-') →
    compOpRe s = none
  | [], _ => rfl
  | c :: t, h => by
    have ih := compOpRe_none_of_intText t fun x hx => h x (List.mem_cons_of_mem _ hx)
    simp [compOpRe, compOpAt_none_of_intChar t (h c (List.mem_cons_self _ _)), ih]

/-- A text of digits and signs starts with none of the other characters. -/
theorem intText_ne {s : Str} (h : ∀ c ∈ s, isDigit c = true ∨ c = '-') (d : Char) (t : Str)
    (hd : isDigit d = false) (hm : d ≠ '-') : s ≠ d :: t := by
  intro e
  subst e
  exact intChar_ne (h d (List.mem_cons_self _ _)) hd hm rfl

theorem intText_not_mem {s : Str} (h : ∀ c ∈ s, isDigit c = true ∨ c = '-') (d : Char)
    (hd : isDigit d = false) (hm : d ≠ '-') : d ∉ s :=
  fun hc => intChar_ne (h d hc) hd hm rfl

theorem intText_not_quoted {s : Str} (h : ∀ c ∈ s, isDigit c = true ∨ c = '-') :
    isQuoted s = false := by
  cases s with
  | nil => rfl
  | cons c t =>
    have h1 : c ≠ '"' := intChar_ne (h c (List.mem_cons_self _ _)) (by decide) (by decide)
    have h2 : c ≠ '\'' := intChar_ne (h c (List.mem_cons_self _ _)) (by decide) (by decide)
    have e1 : hasPrefix (c :: t) ['"'] = false := by
      simp [hasPrefix, List.isPrefixOf, Ne.symm h1]
    have e2 : hasPrefix (c :: t) ['\''] = false := by
      simp [hasPrefix, List.isPrefixOf, Ne.symm h2]
    simp [isQuoted, e1, e2]

theorem replaceAll1_of_not_mem (d : Char) (r : Str) : ∀ s : Str, d ∉ s → replaceAll1 d r s = s
  | [], _ => rfl
  | c :: t, h => by
    have hc : c ≠ d := fun e => h (e ▸ List.mem_cons_self _ _)
    have ih := replaceAll1_of_not_mem d r t fun hm => h (List.mem_cons_of_mem _ hm)
    simp [replaceAll1, hc, ih]

/-- The text of an integer in range is looked up as that integer, in every
context. -/
theorem lookup_formatInt (data : Ctx) (k : Int) (hr : -(2 ^ 63) ≤ k ∧ k < 2 ^ 63) :
    lookup data (formatInt k) = .ok (some (.int k)) := by
  obtain ⟨hne, hc⟩ := formatInt_chars k
  unfold lookup
  simp only [trimSpace_of_no_space _ fun c h => intChar_not_space (hc c h), hne, if_false,
    intText_not_quoted hc, Bool.false_eq_true, atoi_formatInt k hr]

theorem literalFromString_formatInt (k : Int) (hr : -(2 ^ 63) ≤ k ∧ k < 2 ^ 63) :
    literalFromString (formatInt k) = .ok (.int k) := by
  obtain ⟨hne, hc⟩ := formatInt_chars k
  have ht : ¬ formatInt k = "true".toList := intText_ne hc 't' ['r', 'u', 'e'] (by decide) (by decide)
  have hf : ¬ formatInt k = "false".toList :=
    intText_ne hc 'f' ['a', 'l', 's', 'e'] (by decide) (by decide)
  unfold literalFromString
  simp only [trimSpace_of_no_space _ fun c h => intChar_not_space (hc c h),
    intText_not_quoted hc, Bool.false_eq_true, if_false, atoi_formatInt k hr]
  rw [if_neg ht, if_neg hf]

theorem evalCondition_formatInt (E : Env) (data : Ctx) (k : Int)
    (hr : -(2 ^ 63) ≤ k ∧ k < 2 ^ 63) :
    evalCondition E (formatInt k) data = .ok (decide (k ≠ 0)) := by
  obtain ⟨hne, hc⟩ := formatInt_chars k
  have hsp := trimSpace_of_no_space _ fun c h => intChar_not_space (hc c h)
  have ha : ¬ formatInt k = "and".toList := intText_ne hc 'a' ['n', 'd'] (by decide) (by decide)
  have ho : ¬ formatInt k = "or".toList := intText_ne hc 'o' ['r'] (by decide) (by decide)
  have hsl : splitLogical (formatInt k) = [formatInt k] := by
    unfold splitLogical
    rw [hsp, fields_word _ hne fun c h => intChar_not_space (hc c h)]
    have ha1 : ¬ formatInt k = ['a', 'n', 'd'] := ha
    have ho1 : ¬ formatInt k = ['o', 'r'] := ho
    simp [splitLogicalLoop, ha1, ho1, hne, hsp]
  rw [evalCondition_word_hit E data _ (.int k) hsl hsp (compOpRe_none_of_intText _ hc)
    (lookup_formatInt data k hr)]
  rfl

theorem evalConditionWithValue_formatInt (E : Env) (n k : Int) (data : Ctx) (hk : k ≠ 0)
    (hr : -(2 ^ 63) ≤ k ∧ k < 2 ^ 63) :
    evalConditionWithValue E (formatInt k) (.int n) data = .ok true := by
  obtain ⟨hne, hc⟩ := formatInt_chars k
  have hsp := trimSpace_of_no_space _ fun c h => intChar_not_space (hc c h)
  have h1 : ¬ formatInt k = ".".toList := intText_ne hc '.' [] (by decide) (by decide)
  have h2 : ¬ formatInt k = "value".toList :=
    intText_ne hc 'v' ['a', 'l', 'u', 'e'] (by decide) (by decide)
  have h3 : ¬ formatInt k = switchName :=
    intText_ne hc '_' ['_', 's', 'w', 'i', 't', 'c', 'h', '_', '_'] (by decide) (by decide)
  have h4 : ',' ∉ formatInt k := intText_not_mem hc _ (by decide) (by decide)
  have h5 : '.' ∉ formatInt k := intText_not_mem hc _ (by decide) (by decide)
  have hev := evalCondition_formatInt E ((shallowCopyMap data).set switchName (.int n)) k hr
  rw [show decide (k ≠ 0) = true from decide_eq_true hk] at hev
  unfold evalConditionWithValue
  simp only [hsp]
  rw [if_neg hne, if_neg (by rintro (h | h | h); exact h1 h; exact h2 h; exact h3 h), if_neg h4,
    compOpRe_none_of_intText _ hc]
  simp only [Option.isSome, Bool.false_eq_true, if_false, literalFromString_formatInt k hr,
    Outcome.bind, replaceAll1_of_not_mem _ _ _ h5, hev]
  split
  · rfl
  · split <;> rfl

theorem switchCase_compiled :
    compileTokens (tokenize switchCaseTemplate) =
      .ok [SwitchNode "n".toList [("1".toList, [TextNode "one".toList]),
        ("2".toList, [TextNode "two".toList])] []] := by
  rfl

/-- C20 (what the code does): for every integer scrutinee `n` and every case
expression that is the text of a non-zero integer `k` of type `int`,
`evalConditionWithValue` returns `true`, also when `n ≠ k`: when the literal
does not equal the scrutinee, the case expression is evaluated as a condition,
and a non-zero number is truthy.  So
`<{ switch n }><{ case 1 }>one<{ case 2 }>two<{ /switch }>` renders `one` for
every integer `n`, also for `n = 2` and `n = 3`. -/
theorem bare_case_always_matches (E : Env) (n k : Int) (data : Ctx) (hk : k ≠ 0)
    (hr : -(2 ^ 63) ≤ k ∧ k < 2 ^ 63) :
    evalConditionWithValue E (formatInt k) (.int n) data = .ok true
      ∧ renderSource E switchCaseTemplate [("n".toList, .int n)] = .ok "one".toList := by
  refine ⟨evalConditionWithValue_formatInt E n k data hk hr, ?_⟩
  unfold renderSource
  rw [switchCase_compiled]
  simp only [Outcome.bind, evalNodes, Node.Eval]
  have hl : lookupVal [("n".toList, Value.int n)] "n".toList = .ok (.int n) := rfl
  rw [hl]
  have h1 := evalConditionWithValue_formatInt E n 1 [("n".toList, .int n)] (by decide)
    (by decide)
  have e1 : formatInt 1 = "1".toList := rfl
  rw [e1] at h1
  simp only [evalCases, h1, evalNodes, Node.Eval, Outcome.bind]
  rfl

/-- C20 (what the code does) at the case `1` with the scrutinees 3 and 2. -/
theorem bare_case_always_matches_witness :
    (1 : Int) ≠ 0 ∧ (-(2 ^ 63) ≤ (1 : Int) ∧ (1 : Int) < 2 ^ 63)
      ∧ (evalConditionWithValue Env.sample "1".toList (.int 3) [] = .ok true
        ∧ renderSource Env.sample switchCaseTemplate [("n".toList, .int 3)] = .ok "one".toList)
      ∧ renderSource Env.sample switchCaseTemplate [("n".toList, .int 2)] = .ok "one".toList :=
  ⟨by decide, by decide, bare_case_always_matches Env.sample 3 1 [] (by decide) (by decide),
    (bare_case_always_matches Env.sample 2 1 [] (by decide) (by decide)).2⟩

/-! ### conditions return no error -/

theorem Outcome.OkOrFault.bind {α β : Type} {r : Outcome α} {f : α → Outcome β}
    (hr : r.OkOrFault) (hf : ∀ a, (f a).OkOrFault) : (r.bind f).OkOrFault := by
  rcases hr with ⟨a, rfl⟩ | rfl
  · exact hf a
  · exact Or.inr rfl

theorem Outcome.OkOrFault.not_error {α : Type} {r : Outcome α} (hr : r.OkOrFault) (e : Err) :
    r ≠ .error e := by
  rcases hr with ⟨a, rfl⟩ | rfl <;> intro h <;> cases h

theorem many_some {α : Type} (p : Char → Bool) : ∀ (s : Str) (k : Str → Str → Option α) (v : α),
    many p k s = some v → ∃ cap rest, k cap rest = some v
  | [], k, v, h => ⟨[], [], by simpa [many] using h⟩
  | c :: t, k, v, h => by
    unfold many at h
    split at h
    · split at h
      · rename_i r hr
        cases h
        obtain ⟨cap, rest, hk⟩ := many_some p t _ _ hr
        exact ⟨_, _, hk⟩
      · exact ⟨_, _, h⟩
    · exact ⟨_, _, h⟩

theorem compOp_op {s op r : Str} (h : compOp s = some (op, r)) : IsCompOp op := by
  unfold compOp at h
  unfold IsCompOp
  split at h <;> cases h <;>
    first
    | exact Or.inl rfl
    | exact Or.inr (Or.inl rfl)
    | exact Or.inr (Or.inr (Or.inl rfl))
    | exact Or.inr (Or.inr (Or.inr (Or.inl rfl)))
    | exact Or.inr (Or.inr (Or.inr (Or.inr (Or.inl rfl))))
    | exact Or.inr (Or.inr (Or.inr (Or.inr (Or.inr rfl))))

theorem compOpAt_op {s op r : Str} (h : compOpAt s = some (op, r)) : IsCompOp op := by
  unfold compOpAt at h
  obtain ⟨cap, rest, hk⟩ := many_some _ _ _ _ h
  cases hc : compOp rest with
  | none => rw [hc] at hk; cases hk
  | some p =>
    rw [hc] at hk
    simp only [Option.map, Option.some.injEq, Prod.mk.injEq] at hk
    obtain ⟨p1, p2⟩ := p
    have := compOp_op hc
    rw [← hk.1]
    exact this

theorem compOpRe_op : ∀ (s : Str) {l op r : Str}, compOpRe s = some (l, op, r) → IsCompOp op
  | [], _, _, _, h => by cases h
  | c :: t, l, op, r, h => by
    unfold compOpRe at h
    split at h
    · rename_i op1 right hat
      simp only [Option.some.injEq, Prod.mk.injEq] at h
      rw [← h.2.1]
      exact compOpAt_op hat
    · cases hre : compOpRe t with
      | none => rw [hre] at h; cases h
      | some q =>
        obtain ⟨l1, op1, r1⟩ := q
        rw [hre] at h
        simp only [Option.map, Option.some.injEq, Prod.mk.injEq] at h
        rw [← h.2.1]
        exact compOpRe_op t hre

theorem compareValues_ok (E : Env) (a b : Value) {op : Str} (h : IsCompOp op) :
    ∃ r, compareValues E a b op = .ok r := by
  unfold compareValues
  rcases h with h | h | h | h | h | h <;> subst h <;> split <;>
    first
    | exact ⟨_, rfl⟩
    | (unfold compareBools; split <;> exact ⟨_, rfl⟩)

theorem literalFromString_okOrFault (s : Str) : (literalFromString s).OkOrFault := by
  unfold literalFromString
  simp only []
  split
  · split
    · exact Or.inl ⟨_, rfl⟩
    · split
      · exact Or.inr rfl
      · exact Or.inl ⟨_, rfl⟩
  · split
    · exact Or.inl ⟨_, rfl⟩
    · split
      · exact Or.inl ⟨_, rfl⟩
      · split
        · exact Or.inl ⟨_, rfl⟩
        · split <;> exact Or.inl ⟨_, rfl⟩

theorem lookupPath_okOrFault : ∀ (segs : List Str) (cur : Value),
    (lookupPath cur segs).OkOrFault
  | [], cur => Or.inl ⟨some cur, by rw [lookupPath]⟩
  | seg :: segs, cur => by
    cases cur with
    | map entries =>
      rw [lookupPath]
      cases Ctx.get entries seg with
      | none => exact Or.inl ⟨_, rfl⟩
      | some v => exact lookupPath_okOrFault segs v
    | typedMap shown len stringKind =>
      rw [lookupPath]
      cases stringKind
      · exact Or.inl ⟨_, rfl⟩
      · exact Or.inr rfl
    | record shown fs =>
      rw [lookupPath]
      cases fieldByName fs seg with
      | none => exact Or.inl ⟨_, rfl⟩
      | some f =>
        cases f with
        | none => exact Or.inr rfl
        | some v => exact lookupPath_okOrFault segs v
    | null => exact Or.inl ⟨none, by simp only [lookupPath]⟩
    | bool b => exact Or.inl ⟨none, by simp only [lookupPath]⟩
    | int i => exact Or.inl ⟨none, by simp only [lookupPath]⟩
    | float f => exact Or.inl ⟨none, by simp only [lookupPath]⟩
    | str s => exact Or.inl ⟨none, by simp only [lookupPath]⟩
    | seq items => exact Or.inl ⟨none, by simp only [lookupPath]⟩
    | other shown => exact Or.inl ⟨none, by simp only [lookupPath]⟩

theorem lookup_okOrFault (data : Ctx) (s : Str) : (lookup data s).OkOrFault := by
  unfold lookup
  simp only []
  split
  · exact Or.inl ⟨_, rfl⟩
  · split
    · exact Or.inl ⟨_, rfl⟩
    · split
      · exact Or.inl ⟨_, rfl⟩
      · split
        · exact Or.inl ⟨_, rfl⟩
        · split
          · exact Or.inl ⟨_, rfl⟩
          · split
            · exact Or.inl ⟨_, rfl⟩
            · exact lookupPath_okOrFault _ _

theorem lookupOrLiteral_okOrFault (data : Ctx) (s : Str) : (lookupOrLiteral data s).OkOrFault := by
  unfold lookupOrLiteral
  refine (lookup_okOrFault data s).bind fun r => ?_
  cases r with
  | some v => exact Or.inl ⟨_, rfl⟩
  | none => exact literalFromString_okOrFault s

theorem evalSimpleCond_okOrFault (E : Env) (cond : Str) (data : Ctx) :
    (evalSimpleCond E cond data).OkOrFault := by
  unfold evalSimpleCond
  split
  · rename_i l op r h
    refine (lookupOrLiteral_okOrFault data _).bind fun lv => ?_
    refine (lookupOrLiteral_okOrFault data _).bind fun rv => ?_
    obtain ⟨b, hb⟩ := compareValues_ok E lv rv (compOpRe_op cond h)
    exact Or.inl ⟨b, hb⟩
  · refine (lookup_okOrFault data cond).bind fun r => ?_
    cases r with
    | some v => exact Or.inl ⟨_, rfl⟩
    | none => exact (literalFromString_okOrFault cond).bind fun v => Or.inl ⟨_, rfl⟩

theorem IsLogicalOp.trim {w : Str} (h : IsLogicalOp w) :
    trimSpace w = "and".toList ∨ trimSpace w = "or".toList := by
  rcases h with h | h <;> subst h
  · exact Or.inl rfl
  · exact Or.inr rfl

theorem splitLogicalLoop_alternating : ∀ (ws : List Str) (cur : Str),
    Alternating (splitLogicalLoop cur ws)
  | [], cur => by
    unfold splitLogicalLoop
    split
    · exact .one _
    · exact .nil
  | w :: ws, cur => by
    unfold splitLogicalLoop
    split
    · rename_i h
      exact .cons _ _ _ h (splitLogicalLoop_alternating ws [])
    · exact splitLogicalLoop_alternating ws _

theorem evalConditionLoop_okOrFault (E : Env) (data : Ctx) {rest : List Str}
    (h : Alternating rest) : ∀ (w : Str), IsLogicalOp w → ∀ res : Bool,
      (evalConditionLoop E data res (w :: rest)).OkOrFault := by
  induction h with
  | nil => intro w _ res; exact Or.inr rfl
  | one x =>
    intro w hw res
    unfold evalConditionLoop
    refine (evalSimpleCond_okOrFault E _ data).bind fun nextRes => ?_
    rcases hw.trim with h | h
    · rw [if_pos h]; exact Or.inl ⟨_, rfl⟩
    · split
      · exact Or.inl ⟨_, rfl⟩
      · exact Or.inl ⟨_, rfl⟩
  | cons x w1 rest hw1 _ ih =>
    intro w hw res
    unfold evalConditionLoop
    refine (evalSimpleCond_okOrFault E _ data).bind fun nextRes => ?_
    rcases hw.trim with h | h
    · rw [if_pos h]; exact ih w1 hw1 _
    · split
      · exact ih w1 hw1 _
      · exact ih w1 hw1 _

/-- The condition evaluator returns no error: the operator of a comparison is
one of the six that `compOpRe` matches, and the tokens at the odd positions are
the keywords `splitLogical` has put there. -/
theorem evalCondition_okOrFault (E : Env) (expr : Str) (data : Ctx) :
    (evalCondition E expr data).OkOrFault := by
  unfold evalCondition
  have h := splitLogicalLoop_alternating (fields (trimSpace expr)) []
  unfold splitLogical
  generalize splitLogicalLoop [] (fields (trimSpace expr)) = l at h
  cases h with
  | nil => exact Or.inl ⟨_, rfl⟩
  | one x => exact (evalSimpleCond_okOrFault E _ data).bind fun res => Or.inl ⟨_, rfl⟩
  | cons x w rest hw hrest =>
    exact (evalSimpleCond_okOrFault E _ data).bind fun res =>
      evalConditionLoop_okOrFault E data hrest w hw res

theorem caseParts_okOrFault (E : Env) (value : Value) (tmp : Ctx) :
    ∀ parts : List Str, (caseParts E value tmp parts).OkOrFault
  | [] => Or.inl ⟨_, rfl⟩
  | p0 :: ps => by
    unfold caseParts
    refine (literalFromString_okOrFault _).bind fun lit => ?_
    split
    · exact Or.inl ⟨_, rfl⟩
    · split
      · exact Or.inl ⟨_, rfl⟩
      · exact Or.inr rfl
      · exact caseParts_okOrFault E value tmp ps

/-- C15: `evalConditionWithValue` returns no error, for every case
expression, scrutinee and context: whenever it returns, it returns a boolean
with a nil error (the alternative being a panic).  This holds on the path that
returns the result of `evalCondition` directly as well, because `evalCondition`
returns no error for any expression. -/
theorem evalConditionWithValue_no_error (E : Env) (condExpr : Str) (value : Value) (data : Ctx) :
    (∀ e, evalConditionWithValue E condExpr value data ≠ .error e)
      ∧ ((∃ b, evalConditionWithValue E condExpr value data = .ok b)
        ∨ evalConditionWithValue E condExpr value data = .fault)
      ∧ ∀ expr e, evalCondition E expr data ≠ .error e := by
  have key : (evalConditionWithValue E condExpr value data).OkOrFault := by
    unfold evalConditionWithValue
    simp only []
    split
    · exact Or.inl ⟨_, rfl⟩
    · split
      · exact Or.inl ⟨_, rfl⟩
      · split
        · exact caseParts_okOrFault E value _ _
        · split
          · exact evalCondition_okOrFault E _ _
          · refine (literalFromString_okOrFault _).bind fun lit => ?_
            split
            · exact Or.inl ⟨_, rfl⟩
            · split
              · exact Or.inl ⟨_, rfl⟩
              · split
                · exact Or.inl ⟨_, rfl⟩
                · exact Or.inr rfl
                · exact Or.inl ⟨_, rfl⟩
  exact ⟨key.not_error, key, fun expr e => (evalCondition_okOrFault E expr data).not_error e⟩

/-! ### a condition that ends in a logical keyword -/

theorem splitLogicalLoop_endsInOp : ∀ (ws : List Str) (cur w : Str), IsLogicalOp w →
    ws.getLast? = some w → EndsInOp (splitLogicalLoop cur ws)
  | [], _, _, _, h => by cases h
  | [v], cur, w, hw, h => by
    have e : v = w := by simpa using h
    subst e
    unfold splitLogicalLoop
    rw [if_pos (show v = "and".toList ∨ v = "or".toList from hw)]
    exact .last _ _ hw
  | v :: v2 :: ws, cur, w, hw, h => by
    have h2 : (v2 :: ws).getLast? = some w := by
      rw [List.getLast?_cons_cons] at h; exact h
    unfold splitLogicalLoop
    split
    · rename_i hv
      exact .cons _ _ _ hv (splitLogicalLoop_endsInOp (v2 :: ws) [] w hw h2)
    · exact splitLogicalLoop_endsInOp (v2 :: ws) _ w hw h2

theorem evalConditionLoop_fault (E : Env) (data : Ctx) {l : List Str} (h : EndsInOp l) :
    ∀ res : Bool, evalConditionLoop E data res l.tail = .fault := by
  induction h with
  | last x w hw => intro res; rfl
  | cons x w rest hw hrest ih =>
    intro res
    have step : ∀ (y : Str) (tl : List Str),
        (∀ res, evalConditionLoop E data res tl = .fault) →
        evalConditionLoop E data res (w :: y :: tl) = .fault := by
      intro y tl htl
      unfold evalConditionLoop
      rcases evalSimpleCond_okOrFault E (trimSpace y) data with ⟨b, hb⟩ | hb
      · rw [hb]
        simp only [Outcome.bind]
        rcases hw.trim with h | h
        · rw [if_pos h]; exact htl _
        · split
          · exact htl _
          · exact htl _
      · rw [hb]; rfl
    cases hrest with
    | last y w2 hw2 => exact step y [w2] ih
    | cons y w2 r hw2 hr => exact step y (w2 :: r) ih

/-- C14 (what the code does): for every expression whose last word is the
keyword `and` or `or`, such as `a and` or `x > 1 or`, `evalCondition` panics,
in every context: `splitLogical` ends its list with the keyword, and the loop
reads the operand after it at an index that is out of range. -/
theorem evalCondition_trailing_keyword (E : Env) (expr : Str) (data : Ctx) (w : Str)
    (hw : w = "and".toList ∨ w = "or".toList)
    (hl : (fields (trimSpace expr)).getLast? = some w) :
    evalCondition E expr data = .fault := by
  have h := splitLogicalLoop_endsInOp (fields (trimSpace expr)) [] w hw hl
  have hf := evalConditionLoop_fault E data h
  unfold evalCondition splitLogical
  generalize splitLogicalLoop [] (fields (trimSpace expr)) = l at h hf
  cases h with
  | last x w1 hw1 =>
    rcases evalSimpleCond_okOrFault E (trimSpace x) data with ⟨b, hb⟩ | hb
    · simp only [hb]; exact hf b
    · simp only [hb]; rfl
  | cons x w1 rest hw1 hrest =>
    rcases evalSimpleCond_okOrFault E (trimSpace x) data with ⟨b, hb⟩ | hb
    · simp only [hb]; exact hf b
    · simp only [hb]; rfl

/-- C14 (what the code does) at `a and` in the empty context and at `x > 1 or`
with `x = 2`. -/
theorem evalCondition_trailing_keyword_witness :
    ("and".toList = "and".toList ∨ "and".toList = "or".toList)
      ∧ (fields (trimSpace "a and".toList)).getLast? = some "and".toList
      ∧ evalCondition Env.sample "a and".toList [] = .fault
      ∧ evalCondition Env.sample "x > 1 or".toList [("x".toList, .int 2)] = .fault :=
  ⟨Or.inl rfl, rfl,
    evalCondition_trailing_keyword Env.sample "a and".toList [] "and".toList (Or.inl rfl) rfl,
    evalCondition_trailing_keyword Env.sample "x > 1 or".toList [("x".toList, .int 2)]
      "or".toList (Or.inr rfl) rfl⟩

/-! ### blocks that are not closed -/

theorem Sound.error (len fuel i : Nat) (e : Err) : Sound len fuel i (.error e) :=
  ⟨(fun h => nomatch h), (fun _ _ h => nomatch h), (fun _ _ h => nomatch h)⟩

theorem Sound.ok (len fuel i : Nat) (n : Node) (ni : Nat) (h1 : i < ni) (h2 : ni ≤ len) :
    Sound len fuel i (.ok (n, ni)) :=
  ⟨(fun h => nomatch h), fun _ _ h => (by cases h; exact ⟨h1, h2⟩), (fun _ _ h => nomatch h)⟩

theorem Sound.step {len fuel i j : Nat} {r : Outcome (Node × Nat)} (h : Sound len fuel j r)
    (hij : i < j) (hj : j ≤ len) : Sound len (fuel + 1) i r :=
  ⟨h.1, fun n ni e => ⟨by have := h.2.1 n ni e; omega, (h.2.1 n ni e).2⟩,
    fun _ hf => h.2.2 hj (by omega)⟩

theorem Sound.diverge {len fuel i : Nat} (h : Sound len fuel (i + 1) .diverge) (hi : i < len) :
    Sound len (fuel + 1) i .diverge :=
  ⟨(fun h => nomatch h), (fun _ _ h => nomatch h), fun _ hf => absurd rfl (h.2.2 hi (by omega))⟩

theorem getElem?_lt {α : Type} {l : List α} {i : Nat} {a : α} (h : l[i]? = some a) :
    i < l.length := by
  by_contra hc
  rw [List.getElem?_eq_none (by omega)] at h
  cases h

/-- After a nested block, parsed by the loop `r1` from `i + 1` on, the loop of
the enclosing block goes on as `r2` from the index `r1` returns. -/
theorem Sound.nested {len fuel i : Nat} {r1 : Outcome (Node × Nat)}
    (h1 : Sound len fuel (i + 1) r1) (hi : i < len) (r : Outcome (Node × Nat))
    (hok : ∀ n1 ni1, r1 = .ok (n1, ni1) → ∃ r2, r = r2 ∧ Sound len fuel ni1 r2)
    (herr : ∀ e, r1 = .error e → r = .error e)
    (hdiv : r1 = .diverge → r = .diverge) : Sound len (fuel + 1) i r := by
  cases hr : r1 with
  | ok p =>
    obtain ⟨n1, ni1⟩ := p
    obtain ⟨r2, e, h2⟩ := hok n1 ni1 hr
    have := h1.2.1 n1 ni1 hr
    rw [e]
    exact h2.step (by omega) this.2
  | error e => rw [herr e hr]; exact Sound.error _ _ _ _
  | fault => exact absurd hr h1.1
  | diverge => rw [hdiv hr]; rw [hr] at h1; exact h1.diverge hi

theorem forHead_cases (value : Str) :
    (∃ iv it le, forHead value = .ok (iv, it, le)) ∨ forHead value = .error .invalidFor := by
  unfold forHead
  split
  · exact Or.inr rfl
  · simp only []
    split
    · exact Or.inl ⟨_, _, _, rfl⟩
    · exact Or.inl ⟨_, _, _, rfl⟩

theorem parse_sound : ∀ (fuel : Nat) (tokens : List Token),
    (∀ start st i, Sound tokens.length fuel i (parseIfLoop fuel tokens start st 0 i))
      ∧ (∀ start iv it le body i,
          Sound tokens.length fuel i (parseForLoop fuel tokens start iv it le body 0 i))
      ∧ (∀ start st depth i,
          Sound tokens.length fuel i (parseSwitchLoop fuel tokens start st depth i))
  | 0, tokens => by
    refine ⟨fun _ _ i => ?_, fun _ _ _ _ _ i => ?_, fun _ _ _ i => ?_⟩ <;>
      exact ⟨(fun h => nomatch h), (fun _ _ h => nomatch h), fun h1 h2 => (by omega)⟩
  | fuel + 1, tokens => by
    obtain ⟨ihIf, ihFor, ihSw⟩ := parse_sound fuel tokens
    refine ⟨fun start st i => ?_, fun start iv it le body i => ?_, fun start st depth i => ?_⟩
    · rw [parseIfLoop]
      cases hg : tokens[i]? with
      | none => exact Sound.error _ _ _ _
      | some t =>
        have hi := getElem?_lt hg
        simp only []
        cases hty : t.type <;> simp only [↓reduceIte]
        case TFor =>
          rcases forHead_cases t.value with ⟨iv, it, le, hh⟩ | hh <;> rw [hh] <;> simp only []
          · exact Sound.nested (ihFor _ _ _ _ _ _) hi _
              (fun n1 ni1 e => ⟨_, by rw [e], ihIf _ _ _⟩) (fun e he => by rw [he])
              (fun he => by rw [he])
          · exact Sound.error _ _ _ _
        all_goals
          first
          | exact Sound.error _ _ _ _
          | exact (ihIf _ _ _).step (Nat.lt_succ_self i) hi
          | exact Sound.ok _ _ _ _ _ (Nat.lt_succ_self i) hi
          | exact Sound.nested (ihIf _ _ _) hi _
              (fun n1 ni1 e => ⟨_, by rw [e], ihIf _ _ _⟩) (fun e he => by rw [he])
              (fun he => by rw [he])
          | exact Sound.nested (ihSw _ _ _ _) hi _
              (fun n1 ni1 e => ⟨_, by rw [e], ihIf _ _ _⟩) (fun e he => by rw [he])
              (fun he => by rw [he])
    · rw [parseForLoop]
      cases hg : tokens[i]? with
      | none => exact Sound.error _ _ _ _
      | some t =>
        have hi := getElem?_lt hg
        simp only []
        cases hty : t.type <;> simp only [↓reduceIte]
        case TFor =>
          rcases forHead_cases t.value with ⟨iv, it, le, hh⟩ | hh <;> rw [hh] <;> simp only []
          · exact Sound.nested (ihFor _ _ _ _ _ _) hi _
              (fun n1 ni1 e => ⟨_, by rw [e], ihFor _ _ _ _ _ _⟩) (fun e he => by rw [he])
              (fun he => by rw [he])
          · exact Sound.error _ _ _ _
        all_goals
          first
          | exact Sound.error _ _ _ _
          | exact (ihFor _ _ _ _ _ _).step (Nat.lt_succ_self i) hi
          | exact Sound.ok _ _ _ _ _ (Nat.lt_succ_self i) hi
          | exact Sound.nested (ihIf _ _ _) hi _
              (fun n1 ni1 e => ⟨_, by rw [e], ihFor _ _ _ _ _ _⟩) (fun e he => by rw [he])
              (fun he => by rw [he])
          | exact Sound.nested (ihSw _ _ _ _) hi _
              (fun n1 ni1 e => ⟨_, by rw [e], ihFor _ _ _ _ _ _⟩) (fun e he => by rw [he])
              (fun he => by rw [he])
    · rw [parseSwitchLoop]
      cases hg : tokens[i]? with
      | none => exact Sound.error _ _ _ _
      | some t =>
        have hi := getElem?_lt hg
        simp only []
        cases hty : t.type <;> simp only []
        case TFor =>
          rcases forHead_cases t.value with ⟨iv, it, le, hh⟩ | hh <;> rw [hh] <;> simp only []
          · exact Sound.nested (ihFor _ _ _ _ _ _) hi _
              (fun n1 ni1 e => ⟨_, by rw [e], ihSw _ _ _ _⟩) (fun e he => by rw [he])
              (fun he => by rw [he])
          · exact Sound.error _ _ _ _
        all_goals
          first
          | exact Sound.error _ _ _ _
          | exact (ihSw _ _ _ _).step (Nat.lt_succ_self i) hi
          | exact Sound.nested (ihIf _ _ _) hi _
              (fun n1 ni1 e => ⟨_, by rw [e], ihSw _ _ _ _⟩) (fun e he => by rw [he])
              (fun he => by rw [he])
          | exact Sound.nested (ihSw _ _ _ _) hi _
              (fun n1 ni1 e => ⟨_, by rw [e], ihSw _ _ _ _⟩) (fun e he => by rw [he])
              (fun he => by rw [he])
          | (split
             · exact Sound.ok _ _ _ _ _ (Nat.lt_succ_self i) hi
             · exact (ihSw _ _ _ _).step (Nat.lt_succ_self i) hi)
          | (split <;> exact (ihSw _ _ _ _).step (Nat.lt_succ_self i) hi)

theorem NoneFrom.mono {tokens : List Token} {i j : Nat} {ty : TokenType}
    (h : NoneFrom tokens i ty) (hij : i ≤ j) : NoneFrom tokens j ty :=
  fun k t hk ht => h k t (Nat.le_trans hij hk) ht

/-- After a nested block the enclosing loop goes on, and returns no node when
it returns none from the index the nested block ends at. -/
theorem not_ok_nested (r1 r : Outcome (Node × Nat))
    (hok : ∀ n1 ni1, r1 = .ok (n1, ni1) → ∀ p, r ≠ .ok p)
    (herr : ∀ e, r1 = .error e → r = .error e) (hf : r1 = .fault → r = .fault)
    (hdiv : r1 = .diverge → r = .diverge) : ∀ p, r ≠ .ok p := by
  intro p
  cases hr : r1 with
  | ok q =>
    obtain ⟨n1, ni1⟩ := q
    exact hok n1 ni1 hr p
  | error e => rw [herr e hr]; exact fun h => nomatch h
  | fault => rw [hf hr]; exact fun h => nomatch h
  | diverge => rw [hdiv hr]; exact fun h => nomatch h

theorem parseIfLoop_unclosed (tokens : List Token) : ∀ (fuel start : Nat) (st : IfState) (i : Nat),
    NoneFrom tokens i TEndIf → ∀ p, parseIfLoop fuel tokens start st 0 i ≠ .ok p
  | 0, _, _, _, _ => fun p h => nomatch h
  | fuel + 1, start, st, i, h => by
    have ih := parseIfLoop_unclosed tokens fuel
    obtain ⟨sIf, sFor, sSw⟩ := parse_sound fuel tokens
    rw [parseIfLoop]
    cases hg : tokens[i]? with
    | none => exact fun p h => (by cases h)
    | some t =>
      simp only []
      have hne := h i t (Nat.le_refl i) hg
      cases hty : t.type <;> simp only [↓reduceIte]
      case TEndIf => exact absurd hty hne
      case TFor =>
        rcases forHead_cases t.value with ⟨iv, it, le, hh⟩ | hh <;> rw [hh] <;> simp only []
        · exact not_ok_nested (parseForLoop fuel tokens i iv it le [] 0 (i + 1)) _
            (fun n1 ni1 e => by
              have hb := (sFor _ _ _ _ _ _).2.1 n1 ni1 e
              rw [e]
              exact ih _ _ _ (h.mono (by omega)))
            (fun e he => by rw [he]) (fun he => by rw [he]) (fun he => by rw [he])
        · exact fun p h => (by cases h)
      all_goals
        first
        | exact fun p h => (by cases h)
        | exact ih _ _ _ (h.mono (Nat.le_succ i))
        | exact not_ok_nested (parseIfLoop fuel tokens i ⟨[(t.value, [])], [], false⟩ 0 (i + 1)) _
            (fun n1 ni1 e => by
              have hb := (sIf _ _ _).2.1 n1 ni1 e
              rw [e]
              exact ih _ _ _ (h.mono (by omega)))
            (fun e he => by rw [he]) (fun he => by rw [he]) (fun he => by rw [he])
        | exact not_ok_nested (parseSwitchLoop fuel tokens i ⟨t.value, [], [], [], []⟩ 0 (i + 1)) _
            (fun n1 ni1 e => by
              have hb := (sSw _ _ _ _).2.1 n1 ni1 e
              rw [e]
              exact ih _ _ _ (h.mono (by omega)))
            (fun e he => by rw [he]) (fun he => by rw [he]) (fun he => by rw [he])

theorem parseForLoop_unclosed (tokens : List Token) :
    ∀ (fuel start : Nat) (iv it le : Str) (body : List Node) (i : Nat),
      NoneFrom tokens i TEndFor → ∀ p, parseForLoop fuel tokens start iv it le body 0 i ≠ .ok p
  | 0, _, _, _, _, _, _, _ => fun p h => nomatch h
  | fuel + 1, start, iv, it, le, body, i, h => by
    have ih := parseForLoop_unclosed tokens fuel
    obtain ⟨sIf, sFor, sSw⟩ := parse_sound fuel tokens
    rw [parseForLoop]
    cases hg : tokens[i]? with
    | none => exact fun p h => (by cases h)
    | some t =>
      simp only []
      have hne := h i t (Nat.le_refl i) hg
      cases hty : t.type <;> simp only [↓reduceIte]
      case TEndFor => exact absurd hty hne
      case TFor =>
        rcases forHead_cases t.value with ⟨iv, it, le, hh⟩ | hh <;> rw [hh] <;> simp only []
        · exact not_ok_nested (parseForLoop fuel tokens i iv it le [] 0 (i + 1)) _
            (fun n1 ni1 e => by
              have hb := (sFor _ _ _ _ _ _).2.1 n1 ni1 e
              rw [e]
              exact ih _ _ _ _ _ _ (h.mono (by omega)))
            (fun e he => by rw [he]) (fun he => by rw [he]) (fun he => by rw [he])
        · exact fun p h => (by cases h)
      all_goals
        first
        | exact fun p h => (by cases h)
        | exact ih _ _ _ _ _ _ (h.mono (Nat.le_succ i))
        | exact not_ok_nested (parseIfLoop fuel tokens i ⟨[(t.value, [])], [], false⟩ 0 (i + 1)) _
            (fun n1 ni1 e => by
              have hb := (sIf _ _ _).2.1 n1 ni1 e
              rw [e]
              exact ih _ _ _ _ _ _ (h.mono (by omega)))
            (fun e he => by rw [he]) (fun he => by rw [he]) (fun he => by rw [he])
        | exact not_ok_nested (parseSwitchLoop fuel tokens i ⟨t.value, [], [], [], []⟩ 0 (i + 1)) _
            (fun n1 ni1 e => by
              have hb := (sSw _ _ _ _).2.1 n1 ni1 e
              rw [e]
              exact ih _ _ _ _ _ _ (h.mono (by omega)))
            (fun e he => by rw [he]) (fun he => by rw [he]) (fun he => by rw [he])

theorem parseSwitchLoop_unclosed (tokens : List Token) :
    ∀ (fuel start : Nat) (st : SwitchState) (depth i : Nat),
      NoneFrom tokens i TEndSwitch → ∀ p, parseSwitchLoop fuel tokens start st depth i ≠ .ok p
  | 0, _, _, _, _, _ => fun p h => nomatch h
  | fuel + 1, start, st, depth, i, h => by
    have ih := parseSwitchLoop_unclosed tokens fuel
    obtain ⟨sIf, sFor, sSw⟩ := parse_sound fuel tokens
    rw [parseSwitchLoop]
    cases hg : tokens[i]? with
    | none => exact fun p h => (by cases h)
    | some t =>
      simp only []
      have hne := h i t (Nat.le_refl i) hg
      cases hty : t.type <;> simp only []
      case TEndSwitch => exact absurd hty hne
      case TFor =>
        rcases forHead_cases t.value with ⟨iv, it, le, hh⟩ | hh <;> rw [hh] <;> simp only []
        · exact not_ok_nested (parseForLoop fuel tokens i iv it le [] 0 (i + 1)) _
            (fun n1 ni1 e => by
              have hb := (sFor _ _ _ _ _ _).2.1 n1 ni1 e
              rw [e]
              exact ih _ _ _ _ (h.mono (by omega)))
            (fun e he => by rw [he]) (fun he => by rw [he]) (fun he => by rw [he])
        · exact fun p h => (by cases h)
      all_goals
        first
        | exact fun p h => (by cases h)
        | exact ih _ _ _ _ (h.mono (Nat.le_succ i))
        | exact not_ok_nested (parseIfLoop fuel tokens i ⟨[(t.value, [])], [], false⟩ 0 (i + 1)) _
            (fun n1 ni1 e => by
              have hb := (sIf _ _ _).2.1 n1 ni1 e
              rw [e]
              exact ih _ _ _ _ (h.mono (by omega)))
            (fun e he => by rw [he]) (fun he => by rw [he]) (fun he => by rw [he])
        | exact not_ok_nested (parseSwitchLoop fuel tokens i ⟨t.value, [], [], [], []⟩ 0 (i + 1)) _
            (fun n1 ni1 e => by
              have hb := (sSw _ _ _ _).2.1 n1 ni1 e
              rw [e]
              exact ih _ _ _ _ (h.mono (by omega)))
            (fun e he => by rw [he]) (fun he => by rw [he]) (fun he => by rw [he])
        | (split <;> exact ih _ _ _ _ (h.mono (Nat.le_succ i)))

/-- A loop that keeps to `Sound`, has fuel enough and returns no node returns
an error. -/
theorem Sound.error_of {len fuel i : Nat} {r : Outcome (Node × Nat)} (h : Sound len fuel i r)
    (hi : i ≤ len) (hf : len + 1 ≤ fuel + i) (hno : ∀ p, r ≠ .ok p) : ∃ e, r = .error e := by
  cases hr : r with
  | ok p => exact absurd hr (hno p)
  | error e => exact ⟨e, rfl⟩
  | fault => exact absurd hr h.1
  | diverge => exact absurd hr (h.2.2 hi hf)

theorem compileLoop_unclosed (tokens : List Token) (s : Nat) (t : Token)
    (ht : tokens[s]? = some t)
    (hopen : (t.type = TIf ∧ NoneFrom tokens (s + 1) TEndIf)
      ∨ (t.type = TFor ∧ NoneFrom tokens (s + 1) TEndFor)
      ∨ (t.type = TSwitch ∧ NoneFrom tokens (s + 1) TEndSwitch)) :
    ∀ (d i : Nat) (nodes : List Node) (fuel : Nat), i + d = s →
      (∀ j p, i ≤ j → j < s → tokens[j]? = some p → ¬ IsOpener p) →
      tokens.length + 1 ≤ fuel + i → ∃ e, compileLoop fuel tokens i nodes = .error e
  | 0, i, nodes, fuel, hid, _, hf => by
    have hs := getElem?_lt ht
    have e : i = s := by omega
    subst e
    obtain ⟨f, rfl⟩ : ∃ f, fuel = f + 1 := ⟨fuel - 1, by omega⟩
    obtain ⟨sIf, sFor, sSw⟩ := parse_sound f tokens
    rw [compileLoop, ht]
    simp only []
    rcases hopen with ⟨hty, hno⟩ | ⟨hty, hno⟩ | ⟨hty, hno⟩
    · obtain ⟨e, he⟩ := (sIf i ⟨[(t.value, [])], [], false⟩ (i + 1)).error_of (by omega)
        (by omega) (parseIfLoop_unclosed tokens f _ _ _ hno)
      simp only [hty, he]
      exact ⟨e, rfl⟩
    · simp only [hty]
      rcases forHead_cases t.value with ⟨iv, it, le, hh⟩ | hh <;> rw [hh] <;> simp only []
      · obtain ⟨e, he⟩ := (sFor i iv it le [] (i + 1)).error_of (by omega) (by omega)
          (parseForLoop_unclosed tokens f _ _ _ _ _ _ hno)
        rw [he]
        exact ⟨e, rfl⟩
      · exact ⟨_, rfl⟩
    · obtain ⟨e, he⟩ := (sSw i ⟨t.value, [], [], [], []⟩ 0 (i + 1)).error_of (by omega)
        (by omega) (parseSwitchLoop_unclosed tokens f _ _ _ _ hno)
      simp only [hty, he]
      exact ⟨e, rfl⟩
  | d + 1, i, nodes, fuel, hid, hleaf, hf => by
    have hs := getElem?_lt ht
    have hi : i < tokens.length := by omega
    obtain ⟨f, rfl⟩ : ∃ f, fuel = f + 1 := ⟨fuel - 1, by omega⟩
    have hg : tokens[i]? = some tokens[i] := List.getElem?_eq_getElem hi
    have ih := fun nodes => compileLoop_unclosed tokens s t ht hopen d (i + 1) nodes f (by omega)
      (fun j p h1 h2 h3 => hleaf j p (by omega) h2 h3) (by omega)
    have hno := hleaf i _ (Nat.le_refl i) (by omega) hg
    rw [compileLoop, hg]
    simp only []
    cases hty : tokens[i].type <;> simp only []
    case TIf => exact absurd (Or.inl hty) hno
    case TFor => exact absurd (Or.inr (Or.inl hty)) hno
    case TSwitch => exact absurd (Or.inr (Or.inr hty)) hno
    all_goals first | exact ih _ | exact ⟨_, rfl⟩

/-- C13: a block that is not closed is an error.  When `tokens[s]` is an `If`
token and no `EndIf` token stands after index `s`, `parseIf` started at `s`
returns an error; likewise `parseFor` for a `For` token without `EndFor` after
it and `parseSwitch` for a `Switch` token without `EndSwitch` after it (with
fuel for every token, the calls return: they do not panic and the fuel is not
spent).  So `compileTokens` returns an error, and no nodes, for every sequence
whose first block opener (no `If`, `For` or `Switch` token stands before it) is
not closed. -/
theorem unclosed_block_error (tokens : List Token) (s : Nat) (t : Token) (fuel : Nat)
    (ht : tokens[s]? = some t) (hfuel : tokens.length ≤ fuel) :
    (t.type = TIf → NoneFrom tokens (s + 1) TEndIf → ∃ e, parseIf fuel tokens s = .error e)
      ∧ (t.type = TFor → NoneFrom tokens (s + 1) TEndFor →
          ∃ e, parseFor fuel tokens s = .error e)
      ∧ (t.type = TSwitch → NoneFrom tokens (s + 1) TEndSwitch →
          ∃ e, parseSwitch fuel tokens s = .error e)
      ∧ ((∀ j p, j < s → tokens[j]? = some p → ¬ IsOpener p) →
          ((t.type = TIf ∧ NoneFrom tokens (s + 1) TEndIf)
            ∨ (t.type = TFor ∧ NoneFrom tokens (s + 1) TEndFor)
            ∨ (t.type = TSwitch ∧ NoneFrom tokens (s + 1) TEndSwitch)) →
          ∃ e, compileTokens tokens = .error e) := by
  have hs := getElem?_lt ht
  obtain ⟨sIf, sFor, sSw⟩ := parse_sound fuel tokens
  refine ⟨fun _ hno => ?_, fun _ hno => ?_, fun _ hno => ?_, fun hleaf hopen => ?_⟩
  · unfold parseIf
    rw [ht]
    exact (sIf _ _ _).error_of (by omega) (by omega) (parseIfLoop_unclosed tokens fuel _ _ _ hno)
  · unfold parseFor
    rw [ht]
    simp only []
    rcases forHead_cases t.value with ⟨iv, it, le, hh⟩ | hh <;> rw [hh] <;> simp only []
    · exact (sFor _ _ _ _ _ _).error_of (by omega) (by omega)
        (parseForLoop_unclosed tokens fuel _ _ _ _ _ _ hno)
    · exact ⟨_, rfl⟩
  · unfold parseSwitch
    rw [ht]
    exact (sSw _ _ _ _).error_of (by omega) (by omega)
      (parseSwitchLoop_unclosed tokens fuel _ _ _ _ hno)
  · exact compileLoop_unclosed tokens s t ht hopen s 0 [] (tokens.length + 1) (by omega)
      (fun j p _ h2 h3 => hleaf j p h2 h3) (by omega)

/-- C13 at the tokens `Text a, If x, Text b`: `unclosed if`. -/
theorem unclosed_block_error_witness :
    compileTokens [textTok "a".toList, { type := TIf, value := "x".toList },
        textTok "b".toList] = .error .unclosedIf
      ∧ (∃ e, parseIf 3 [textTok "a".toList, { type := TIf, value := "x".toList },
          textTok "b".toList] 1 = .error e)
      ∧ ∃ e, compileTokens [textTok "a".toList, { type := TIf, value := "x".toList },
          textTok "b".toList] = .error e :=
  have hno : NoneFrom [textTok "a".toList, { type := TIf, value := "x".toList },
      textTok "b".toList] (1 + 1) TEndIf := fun j p hj hp => by
    have h2 : j = 2 ∨ 3 ≤ j := by omega
    rcases h2 with h2 | h2
    · subst h2
      cases hp
      decide
    · rw [List.getElem?_eq_none (by simpa using h2)] at hp
      cases hp
  ⟨rfl,
    (unclosed_block_error [textTok "a".toList, { type := TIf, value := "x".toList },
      textTok "b".toList] 1 { type := TIf, value := "x".toList } 3 rfl (by decide)).1 rfl hno,
    (unclosed_block_error [textTok "a".toList, { type := TIf, value := "x".toList },
      textTok "b".toList] 1 { type := TIf, value := "x".toList } 3 rfl (by decide)).2.2.2
      (fun j p hj hp => by
        have h0 : j = 0 := by omega
        subst h0
        cases hp
        unfold IsOpener
        decide)
      (Or.inl ⟨rfl, hno⟩)⟩

/-! ### the loop of `parseSwitch` -/

theorem getElem?_of_drop {α : Type} {l : List α} {i : Nat} {x : α} {r : List α}
    (h : l.drop i = x :: r) : l[i]? = some x ∧ l.drop (i + 1) = r := by
  constructor
  · have := List.getElem?_drop (L := l) (i := i) (j := 0)
    rw [h] at this
    simpa using this.symm
  · have : l.drop (i + 1) = (l.drop i).drop 1 := by rw [List.drop_drop, Nat.add_comm]
    rw [this, h]
    rfl

theorem parseSwitchLoop_leaves (tokens : List Token) (start depth : Nat) (rest : List Token) :
    ∀ (L : List Token) (fuel : Nat) (st : SwitchState) (i : Nat),
      tokens.drop i = L ++ rest → (∀ p ∈ L, IsLeaf p) →
      parseSwitchLoop (fuel + L.length) tokens start st depth i
        = parseSwitchLoop fuel tokens start
            { st with currentBody := st.currentBody ++ L.map leafNode } depth (i + L.length)
  | [], fuel, st, i, _, _ => by simp
  | p :: L, fuel, st, i, hd, hL => by
    obtain ⟨hg, hd2⟩ := getElem?_of_drop (show tokens.drop i = p :: (L ++ rest) from hd)
    have ih := parseSwitchLoop_leaves tokens start depth rest L fuel (st.append (leafNode p))
      (i + 1) hd2 fun q hq => hL q (List.mem_cons_of_mem _ hq)
    have e1 : fuel + (p :: L).length = (fuel + L.length) + 1 := by simp; omega
    have e2 : i + (p :: L).length = i + 1 + L.length := by simp; omega
    rw [e1, e2, parseSwitchLoop, hg]
    simp only []
    rcases hL p (List.mem_cons_self _ _) with h | h
    · have hn : leafNode p = TextNode p.value := by simp [leafNode, h]
      simp only [h]
      rw [← hn, ih]
      simp [SwitchState.append]
    · have hn : leafNode p = VarNode p.value p.dflt [] := by simp [leafNode, h]
      simp only [h]
      rw [← hn, ih]
      simp [SwitchState.append]

theorem flushCase_initial (expr : Str) (body : List Node) :
    (SwitchState.flushCase ⟨expr, [], [], [], body⟩).cases = []
      ∧ (SwitchState.flushCase ⟨expr, [], [], [], body⟩).dflt = body := by
  unfold SwitchState.flushCase
  cases body with
  | nil => simp
  | cons n ns => simp

theorem evalCases_miss (E : Env) (val : Value) (data : Ctx) :
    ∀ cases : List (Str × List Node),
      (∀ c ∈ cases, evalConditionWithValue E c.1 val data = .ok false) →
      evalCases E val cases data = none
  | [], _ => rfl
  | (cond, body) :: cs, h => by
    rw [evalCases, h (cond, body) (List.mem_cons_self _ _)]
    exact evalCases_miss E val data cs fun c hc => h c (List.mem_cons_of_mem _ hc)

theorem compileLoop_end (tokens : List Token) (nodes : List Node) :
    ∀ fuel : Nat, 0 < fuel → compileLoop fuel tokens tokens.length nodes = .ok nodes
  | 0, h => absurd h (Nat.lt_irrefl 0)
  | fuel + 1, _ => by
    rw [compileLoop, List.getElem?_eq_none (Nat.le_refl _)]

/-! ### a quoted string as operand -/

theorem F64.eq_self (f : F64) (h : f ≠ F64.nan) : F64.eq f f = true := by
  cases f with
  | nan => exact absurd rfl h
  | inf a => cases a <;> rfl
  | negZero => simp [F64.eq, F64.cmp, F64.num]
  | fin q => simp [F64.eq, F64.cmp, F64.num]

theorem compareValues_str_self (E : Env) (s : Str) (hnan : parseFloat s ≠ some F64.nan) :
    compareValues E (.str s) (.str s) "==".toList = .ok true := by
  have hf : toFloat E (.str s) = if s ≠ [] then parseFloat s else none := rfl
  unfold compareValues
  rw [hf]
  cases h : (if s ≠ [] then parseFloat s else none) with
  | none =>
    simp only [compareBools, compareStrings, formatValue, if_true, decide_True]
  | some f =>
    have hne : f ≠ F64.nan := by
      intro e
      subst e
      by_cases hs : s = []
      · simp [hs] at h
      · simp only [hs, ne_eq, not_false_eq_true, if_true] at h
        exact hnan h
    simp only [if_true, F64.eq_self f hne]

theorem cut1_append {d : Char} (rest : Str) : ∀ pre : Str, d ∉ pre →
    cut1 d (pre ++ d :: rest) = some (pre, rest)
  | [], _ => by simp [cut1]
  | a :: t, h => by
    have ha : a ≠ d := fun e => h (e ▸ List.mem_cons_self _ _)
    have ih := cut1_append rest t fun hm => h (List.mem_cons_of_mem _ hm)
    simp [cut1, ha, ih]

theorem unquote_quoted (s : Str) (hq : '"' ∉ s) (hb : '\\' ∉ s) (hn : '\n' ∉ s) :
    unquote (quoted s) = some s := by
  cases s with
  | nil => rfl
  | cons c t =>
    have hc := cut1_append [] (c :: t) hq
    show unquote ('"' :: c :: (t ++ ['"'])) = some (c :: t)
    unfold unquote
    simp only [ne_eq, not_true_eq_false, false_and, if_false]
    rw [show c :: (t ++ ['"']) = (c :: t) ++ ['"'] from rfl, hc]
    simp only [hb, hn, not_false_eq_true, and_self, if_true, not_true_eq_false, if_false]

theorem isQuoted_quoted (s : Str) : isQuoted (quoted s) = true := by
  simp [isQuoted, quoted, hasPrefix, hasSuffix, List.isPrefixOf]

theorem mem_join : ∀ (ws : List Str) (c : Char), c ∈ join [' '] ws → c = ' ' ∨ ∃ w ∈ ws, c ∈ w
  | [], c, h => by simp [join] at h
  | [w], c, h => Or.inr ⟨w, List.mem_cons_self _ _, by simpa [join] using h⟩
  | w :: v :: r, c, h => by
    simp only [join, List.mem_append, List.mem_singleton] at h
    rcases h with (h | h) | h
    · exact Or.inr ⟨w, List.mem_cons_self _ _, h⟩
    · exact Or.inl h
    · rcases mem_join (v :: r) c h with h | ⟨x, hx, hc⟩
      · exact Or.inl h
      · exact Or.inr ⟨x, List.mem_cons_of_mem _ hx, hc⟩

theorem lookup_quoted (data : Ctx) (s : Str) (hq : '"' ∉ s) (hb : '\\' ∉ s) (hn : '\n' ∉ s)
    (ht : trimSpace (quoted s) = quoted s) : lookup data (quoted s) = .ok (some (.str s)) := by
  unfold lookup
  have hne : quoted s ≠ [] := by simp [quoted]
  simp only [ht, hne, if_false, isQuoted_quoted, if_true, unquote_quoted s hq hb hn]

theorem compOpRe_eqQuoted (s : Str) :
    compOpRe (eqQuoted s) = some ("v".toList, "==".toList, quoted s) := by
  simp [eqQuoted, quoted, compOpRe, compOpAt, many, compOp, reSpace, List.dropWhile]

theorem evalSimpleCond_eqQuoted (E : Env) (data : Ctx) (s : Str)
    (hv : Ctx.get data "v".toList = some (.str s)) (hq : '"' ∉ s) (hb : '\\' ∉ s)
    (hn : '\n' ∉ s) (ht : trimSpace (quoted s) = quoted s)
    (hnan : parseFloat s ≠ some F64.nan) :
    evalSimpleCond E (eqQuoted s) data = .ok true := by
  have hl : lookup data "v".toList = .ok (some (.str s)) := by
    rw [lookup_name data "v".toList (by decide) (by decide) (by decide) (by decide) (by decide)
      (by decide) (by decide) (by decide), hv]
  have htv : trimSpace "v".toList = "v".toList := by decide
  unfold evalSimpleCond
  rw [compOpRe_eqQuoted]
  simp only [lookupOrLiteral, htv, hl, ht, lookup_quoted data s hq hb hn ht, Outcome.bind,
    compareValues_str_self E s hnan]

/-- C21 (amended): `v == "s"` is true in a context that binds `v` to the
string `s`, when `s` has no double quote and no backslash, the quoted text `"s"`
is made of words separated by single spaces of which none is the keyword `and`
or `or` (`splitLogical` cuts the expression at these keywords and joins the
words of an operand with one space each, inside a quoted string as well), and
`s` does not read as the number NaN (two strings that both read as numbers are
compared as numbers). -/
theorem quoted_operand_equal (E : Env) (data : Ctx) (s : Str) (ws : List Str)
    (hv : Ctx.get data "v".toList = some (.str s)) (hq : '"' ∉ s) (hb : '\\' ∉ s)
    (hws : IsOperand ws) (hs : quoted s = join [' '] ws)
    (hnan : parseFloat s ≠ some F64.nan) :
    evalCondition E (eqQuoted s) data = .ok true := by
  have hplain := hws.plain
  have ht : trimSpace (quoted s) = quoted s := by
    rw [hs]; exact trimSpace_join ws hplain
  have hn : '\n' ∉ s := by
    intro hm
    have hm2 : '\n' ∈ join [' '] ws := by
      rw [← hs]; simp [quoted, hm]
    rcases mem_join ws _ hm2 with h | ⟨w, hw, hc⟩
    · exact absurd h (by decide)
    · have := (hplain w hw).2 _ hc
      exact absurd this (by decide)
  have hop : IsOperand ("v".toList :: "==".toList :: ws) := by
    refine ⟨by simp, fun w hw => ?_⟩
    rcases List.mem_cons.1 hw with h | hw
    · subst h; exact ⟨by decide, by decide, by decide, by decide⟩
    rcases List.mem_cons.1 hw with h | hw
    · subst h; exact ⟨by decide, by decide, by decide, by decide⟩
    · exact hws.2 w hw
  have hj : join [' '] ("v".toList :: "==".toList :: ws) = eqQuoted s := by
    obtain ⟨hne, _⟩ := hws
    cases ws with
    | nil => exact absurd rfl hne
    | cons w r =>
      simp only [join, eqQuoted, hs]
      simp
  have := evalCondition_fold E data ("v".toList :: "==".toList :: ws) true [] hop
    (by rw [hj]; exact evalSimpleCond_eqQuoted E data s hv hq hb hn ht hnan)
    (fun r hr => by cases hr)
  unfold condText at this
  rw [show restWords [] = [] from rfl, List.append_nil, hj] at this
  exact this

/-- C21 (amended) at `s = "rock n roll"`. -/
theorem quoted_operand_equal_witness :
    evalCondition Env.sample (eqQuoted "rock n roll".toList)
      [("v".toList, .str "rock n roll".toList)] = .ok true :=
  quoted_operand_equal Env.sample [("v".toList, .str "rock n roll".toList)] "rock n roll".toList
    ["\"rock".toList, "n".toList, "roll\"".toList] rfl (by decide) (by decide)
    ⟨by decide, by unfold IsOperandWord; decide⟩ (by decide) (by decide)

/-- C21 as stated fails at `s = "rock and roll"` (the expression is cut at
`and`), at `s = "a  b"` (the two spaces are read as one) and at `s = "nan"`
(NaN does not equal NaN): the result is not true. -/
theorem quoted_operand_not_equal :
    evalCondition Env.sample (eqQuoted "rock and roll".toList)
        [("v".toList, .str "rock and roll".toList)] ≠ .ok true
      ∧ evalCondition Env.sample (eqQuoted "a  b".toList)
        [("v".toList, .str "a  b".toList)] ≠ .ok true
      ∧ evalCondition Env.sample (eqQuoted "nan".toList)
        [("v".toList, .str "nan".toList)] ≠ .ok true := by
  decide

/-! ### a tag that no recognizer matches -/

theorem cut2_append_none {d1 d2 : Char} (y : Str) (hy : cut2 d1 d2 y = none)
    (hh : y.head? ≠ some d2) : ∀ x : Str, cut2 d1 d2 x = none → cut2 d1 d2 (x ++ y) = none
  | [], _ => by simpa using hy
  | [a], _ => by
    cases y with
    | nil => rfl
    | cons c r =>
      have hc : c ≠ d2 := fun e => hh (by rw [e]; rfl)
      have : ¬ (a = d1 ∧ c = d2) := fun h => hc h.2
      simp [cut2, this, hy]
  | a :: b :: t, h => by
    have hab : ¬ (a = d1 ∧ b = d2) := by
      intro hab; simp [cut2, hab] at h
    have ht : cut2 d1 d2 (b :: t) = none := by
      simpa [cut2, hab] using h
    have ih := cut2_append_none y hy hh (b :: t) ht
    simp only [List.cons_append] at ih ⊢
    simp [cut2, hab, ih]

theorem trimLeft_append_cons_nonspace {c : Char} (r : Str) (hc : isSpace c = false) :
    ∀ b : Str, trimLeft (b ++ c :: r) = trimLeft b ++ c :: r
  | [] => by simp [trimLeft, List.dropWhile, hc]
  | a :: b => by
    by_cases ha : isSpace a = true
    · rw [List.cons_append, trimLeft_cons_space _ ha, trimLeft_cons_space _ ha]
      exact trimLeft_append_cons_nonspace r hc b
    · have ha2 : isSpace a = false := by simpa using ha
      rw [List.cons_append, trimLeft_cons_nonspace _ ha2, trimLeft_cons_nonspace _ ha2]
      rfl

/-- The tokens of a piece that is a tag followed by text, whatever the body of
the tag. -/
theorem tokenizePart_tag_any (b X : Str) (hb : cut2 '}' '>' b = none) (hX : trimRight X = X) :
    tokenizePart (b ++ '}' :: '>' :: X) = classifyTag (trimSpace b) X :: optText X := by
  have h1 : trimLeft (b ++ '}' :: '>' :: X) = trimLeft b ++ '}' :: '>' :: X :=
    trimLeft_append_cons_nonspace _ (by decide) b
  have h2 : trimRight (trimLeft b ++ '}' :: '>' :: X) = trimLeft b ++ '}' :: '>' :: X := by
    by_cases hx : X = []
    · subst hx
      have : trimLeft b ++ ['}', '>'] = (trimLeft b ++ ['}']) ++ ['>'] := by simp
      rw [this, trimRight_concat_nonspace _ (by decide)]
    · have : trimLeft b ++ '}' :: '>' :: X = (trimLeft b ++ ['}', '>']) ++ X := by simp
      rw [this, trimRight_append_of_ne_nil _ _ (by rw [hX]; exact hx), hX]
  have h3 : trimSpace (b ++ '}' :: '>' :: X) = trimLeft b ++ '}' :: '>' :: X := by
    unfold trimSpace; rw [h1, h2]
  have h4 : cut2 '}' '>' (trimLeft b ++ '}' :: '>' :: X) = some (trimLeft b, X) :=
    cut2_append_sep (by decide) X _
      (cut2_none_of_sub (List.dropWhile_suffix _).isInfix hb)
  unfold tokenizePart
  simp only [h3, h4, trimSpace_trimLeft]
  have : trimLeft b ++ '}' :: '>' :: X ≠ [] := by
    cases trimLeft b <;> simp
  simp [this, optText, textTok]

theorem classifyTag_unknown (tag rest : Str) (h : IsUnknownTag tag) :
    classifyTag tag rest = textTok rest := by
  obtain ⟨h1, h2, h3, h4, h5, h6, h7, h8, h9, h10, h11⟩ := h
  simp only [classifyTag, h1, h2, h3, h4, h5, h6, h7, h8, h9, h10, h11, Bool.false_eq_true,
    if_false, textTok]

/-- C22 (what the code does): a tag whose body `b` no recognizer matches,
followed by a text `R` without opening delimiter and without white space at its
end (`b` without delimiter).  `tokenize` gives text tokens only, but the text
`R` twice when it is not empty: the default branch of the `switch` appends a
text token with the value `rest`, and the statement after the `switch` appends
`rest` once more.  The concatenation of the values is `R ++ R`, and the body of
the tag is in no token. -/
theorem tokenize_unknown_tag (b R : Str) (hun : IsUnknownTag (trimSpace b))
    (hb1 : ¬ OPEN <:+: b) (hb2 : ¬ CLOSE <:+: b) (hR1 : ¬ OPEN <:+: R) (hR : trimRight R = R) :
    tokenize (OPEN ++ b ++ CLOSE ++ R) = textTok R :: optText R
      ∧ (R ≠ [] → tokenize (OPEN ++ b ++ CLOSE ++ R) = [textTok R, textTok R]
          ∧ concatValues (tokenize (OPEN ++ b ++ CLOSE ++ R)) = R ++ R) := by
  have e : OPEN ++ b ++ CLOSE ++ R = [] ++ '<' :: '{' :: (b ++ '}' :: '>' :: R) := by
    simp [OPEN, CLOSE]
  have c1 : cut2 '<' '{' ('}' :: '>' :: R) = none := by
    rw [cut2_cons_of_ne _ (by decide), cut2_cons_of_ne _ (by decide),
      (cut2_eq_none_iff R).2 hR1]
    rfl
  have c2 : cut2 '<' '{' (b ++ '}' :: '>' :: R) = none :=
    cut2_append_none _ c1 (fun h => by cases h) b ((cut2_eq_none_iff b).2 hb1)
  have key : tokenize (OPEN ++ b ++ CLOSE ++ R) = textTok R :: optText R := by
    rw [e]
    unfold tokenize
    rw [splitOn2_append_sep (by decide) _ [] rfl, splitOn2_of_cut2_none _ c2]
    have e4 : tokenizePart [] = [] := by decide
    simp only [tokenizeParts, e4, List.nil_append, List.append_nil]
    rw [tokenizePart_tag_any b R ((cut2_eq_none_iff b).2 hb2) hR, classifyTag_unknown _ _ hun]
  refine ⟨key, fun hne => ?_⟩
  have k2 : tokenize (OPEN ++ b ++ CLOSE ++ R) = [textTok R, textTok R] := by
    rw [key]; simp [optText, hne]
  refine ⟨k2, ?_⟩
  rw [k2]
  simp [concatValues, textTok]

/-- C22 (what the code does) at `<{ a + b }>x`: two text tokens `x`. -/
theorem tokenize_unknown_tag_witness :
    tokenize (tag " a + b " ++ "x".toList) = [textTok "x".toList, textTok "x".toList]
      ∧ concatValues (tokenize (tag " a + b " ++ "x".toList)) = "xx".toList :=
  (tokenize_unknown_tag " a + b ".toList "x".toList (by unfold IsUnknownTag; decide) (by decide)
    (by decide) (by decide) (by decide)).2 (by decide)

/-! ### a literal that is one quote character -/

theorem literalFromString_fault_only (s0 : Str) (h : literalFromString s0 = .fault) :
    IsLoneQuote (trimSpace s0) := by
  unfold literalFromString at h
  simp only [] at h
  generalize trimSpace s0 = s at h
  split at h
  · rename_i hq
    split at h
    · cases h
    · split at h
      · rename_i hlen
        match s, hq, hlen with
        | [], hq, _ => simp [isQuoted, hasPrefix, hasSuffix] at hq
        | [c], hq, _ =>
          simp only [isQuoted, hasPrefix, hasSuffix, Bool.or_eq_true, Bool.and_eq_true] at hq
          rcases hq with ⟨h1, _⟩ | ⟨h1, _⟩
          · left
            have : '"' = c := by simpa [List.isPrefixOf] using h1
            rw [← this]
          · right
            have : '\'' = c := by simpa [List.isPrefixOf] using h1
            rw [← this]
        | _ :: _ :: _, _, hlen => exact absurd hlen (by simp)
      · cases h
  · split at h
    · cases h
    · split at h
      · cases h
      · split at h
        · cases h
        · split at h <;> cases h

theorem lookup_loneQuote (data : Ctx) (q : Str) (hq : IsLoneQuote q)
    (hctx : Ctx.get data q = none) : lookup data q = .ok none := by
  rcases hq with rfl | rfl
  · have e : lookup data ['"'] = lookupPath (.map data) [['"']] := rfl
    rw [e]
    simp only [lookupPath, hctx]
  · have e : lookup data ['\''] = lookupPath (.map data) [['\'']] := rfl
    rw [e]
    simp only [lookupPath, hctx]

/-- C23 (what the code does): `literalFromString` panics on a text that is one
quote character, `"` or `'`: the text passes the test for a quoted string (it
starts and ends with the quote), `strconv.Unquote` rejects it, and the slice
`s[1 : len(s)-1]` is `s[1:0]`.  So `evalSimpleCond` and `evalCondition` panic
on this operand in every context that does not bind it, and
`evalConditionWithValue` panics on this case expression whatever the scrutinee
and the context are.  These are the only texts on which `literalFromString`
panics: after `TrimSpace`, any other input gives a value. -/
theorem literalFromString_loneQuote (E : Env) (q : Str) (value : Value) (data : Ctx)
    (hq : q = ['"'] ∨ q = ['\'']) :
    literalFromString q = .fault
      ∧ (Ctx.get data q = none → evalSimpleCond E q data = .fault)
      ∧ (Ctx.get data q = none → evalCondition E q data = .fault)
      ∧ evalConditionWithValue E q value data = .fault
      ∧ ∀ s, literalFromString s = .fault → trimSpace s = ['"'] ∨ trimSpace s = ['\''] := by
  have h1 : literalFromString q = .fault := by
    rcases hq with rfl | rfl <;> rfl
  have h2 : Ctx.get data q = none → evalSimpleCond E q data = .fault := by
    intro hctx
    have hl := lookup_loneQuote data q hq hctx
    have hc : compOpRe q = none := by
      rcases hq with rfl | rfl <;> rfl
    simp only [evalSimpleCond, hc, hl, h1, Outcome.bind]
  refine ⟨h1, h2, ?_, ?_, literalFromString_fault_only⟩
  · intro hctx
    have hs : splitLogical q = [q] := by
      rcases hq with rfl | rfl <;> rfl
    have ht : trimSpace q = q := by
      rcases hq with rfl | rfl <;> rfl
    unfold evalCondition
    rw [hs]
    simp only [ht, h2 hctx, Outcome.bind]
  · rcases hq with rfl | rfl <;> rfl

/-- C23 (what the code does) at the text `"`. -/
theorem literalFromString_loneQuote_witness :
    (['"'] = ['"'] ∨ ['"'] = ['\''])
      ∧ literalFromString ['"'] = .fault
      ∧ evalConditionWithValue Env.sample ['"'] (.int 1) [] = .fault :=
  ⟨Or.inl rfl, (literalFromString_loneQuote Env.sample ['"'] (.int 1) [] (Or.inl rfl)).1,
    (literalFromString_loneQuote Env.sample ['"'] (.int 1) [] (Or.inl rfl)).2.2.2.1⟩

/-! ### the parser terminates -/

/-- One more unit of fuel does not change the result of a loop that goes on,
after a nested block parsed with the result `r1`, with the result `r`. -/
theorem mono_nested {β : Type} (r1 r1' : Outcome (Node × Nat)) (r r' : Outcome β)
    (h1 : r1 ≠ .diverge → r1' = r1)
    (hok : ∀ n ni, r1 = .ok (n, ni) → r1' = .ok (n, ni) → r ≠ .diverge → r' = r)
    (herr : ∀ e, r1 = .error e → r1' = .error e → r' = r)
    (hf : r1 = .fault → r1' = .fault → r' = r)
    (hdiv : r1 = .diverge → r = .diverge) (h : r ≠ .diverge) : r' = r := by
  cases hr : r1 with
  | ok p =>
    obtain ⟨n, ni⟩ := p
    exact hok n ni hr (by rw [h1 (by rw [hr]; exact fun h => nomatch h), hr]) h
  | error e => exact herr e hr (by rw [h1 (by rw [hr]; exact fun h => nomatch h), hr])
  | fault => exact hf hr (by rw [h1 (by rw [hr]; exact fun h => nomatch h), hr])
  | diverge => exact absurd (hdiv hr) h

theorem parse_fuel_succ : ∀ (fuel : Nat) (tokens : List Token),
    (∀ start st depth i, parseIfLoop fuel tokens start st depth i ≠ .diverge →
        parseIfLoop (fuel + 1) tokens start st depth i = parseIfLoop fuel tokens start st depth i)
      ∧ (∀ start iv it le body depth i,
          parseForLoop fuel tokens start iv it le body depth i ≠ .diverge →
          parseForLoop (fuel + 1) tokens start iv it le body depth i
            = parseForLoop fuel tokens start iv it le body depth i)
      ∧ (∀ start st depth i, parseSwitchLoop fuel tokens start st depth i ≠ .diverge →
          parseSwitchLoop (fuel + 1) tokens start st depth i
            = parseSwitchLoop fuel tokens start st depth i)
  | 0, tokens => by
    refine ⟨fun _ _ _ _ h => ?_, fun _ _ _ _ _ _ _ h => ?_, fun _ _ _ _ h => ?_⟩
    · exact absurd rfl h
    · exact absurd rfl h
    · exact absurd rfl h
  | fuel + 1, tokens => by
    obtain ⟨ihIf, ihFor, ihSw⟩ := parse_fuel_succ fuel tokens
    refine ⟨fun start st depth i h => ?_, fun start iv it le body depth i h => ?_,
      fun start st depth i h => ?_⟩
    · conv_lhs => rw [parseIfLoop]
      conv_rhs => rw [parseIfLoop]
      rw [parseIfLoop] at h
      cases hg : tokens[i]? with
      | none => rfl
      | some t =>
        rw [hg] at h
        simp only [] at h ⊢
        cases hty : t.type <;> rw [hty] at h <;> simp only [] at h ⊢
        case TFor =>
          rcases forHead_cases t.value with ⟨iv, it, le, hh⟩ | hh
          swap
          · rw [hh]
          rw [hh] at h ⊢
          simp only [] at h ⊢
          exact mono_nested (parseForLoop fuel tokens i iv it le [] 0 (i + 1))
            (parseForLoop (fuel + 1) tokens i iv it le [] 0 (i + 1)) _ _ (ihFor _ _ _ _ _ _ _)
            (fun n ni e e' hh => by rw [e']; rw [e] at hh ⊢; exact ihIf _ _ _ _ hh)
            (fun e he he' => by rw [he, he']) (fun he he' => by rw [he, he'])
            (fun he => by rw [he]) h
        all_goals
          first
          | rfl
          | exact ihIf _ _ _ _ h
          | exact mono_nested (parseIfLoop fuel tokens i ⟨[(t.value, [])], [], false⟩ 0 (i + 1))
              (parseIfLoop (fuel + 1) tokens i ⟨[(t.value, [])], [], false⟩ 0 (i + 1)) _ _
              (ihIf _ _ _ _)
              (fun n ni e e' hh => by rw [e']; rw [e] at hh ⊢; exact ihIf _ _ _ _ hh)
              (fun e he he' => by rw [he, he']) (fun he he' => by rw [he, he'])
              (fun he => by rw [he]) h
          | exact mono_nested (parseSwitchLoop fuel tokens i ⟨t.value, [], [], [], []⟩ 0 (i + 1))
              (parseSwitchLoop (fuel + 1) tokens i ⟨t.value, [], [], [], []⟩ 0 (i + 1)) _ _
              (ihSw _ _ _ _)
              (fun n ni e e' hh => by rw [e']; rw [e] at hh ⊢; exact ihIf _ _ _ _ hh)
              (fun e he he' => by rw [he, he']) (fun he he' => by rw [he, he'])
              (fun he => by rw [he]) h
          | (by_cases hd : depth = 0 <;> simp only [hd, ↓reduceIte] at h ⊢ <;>
              first | rfl | exact ihIf _ _ _ _ h)
    · conv_lhs => rw [parseForLoop]
      conv_rhs => rw [parseForLoop]
      rw [parseForLoop] at h
      cases hg : tokens[i]? with
      | none => rfl
      | some t =>
        rw [hg] at h
        simp only [] at h ⊢
        cases hty : t.type <;> rw [hty] at h <;> simp only [] at h ⊢
        case TFor =>
          rcases forHead_cases t.value with ⟨iv, it, le, hh⟩ | hh
          swap
          · rw [hh]
          rw [hh] at h ⊢
          simp only [] at h ⊢
          exact mono_nested (parseForLoop fuel tokens i iv it le [] 0 (i + 1))
            (parseForLoop (fuel + 1) tokens i iv it le [] 0 (i + 1)) _ _ (ihFor _ _ _ _ _ _ _)
            (fun n ni e e' hh => by rw [e']; rw [e] at hh ⊢; exact ihFor _ _ _ _ _ _ _ hh)
            (fun e he he' => by rw [he, he']) (fun he he' => by rw [he, he'])
            (fun he => by rw [he]) h
        all_goals
          first
          | rfl
          | exact ihFor _ _ _ _ _ _ _ h
          | exact mono_nested (parseIfLoop fuel tokens i ⟨[(t.value, [])], [], false⟩ 0 (i + 1))
              (parseIfLoop (fuel + 1) tokens i ⟨[(t.value, [])], [], false⟩ 0 (i + 1)) _ _
              (ihIf _ _ _ _)
              (fun n ni e e' hh => by rw [e']; rw [e] at hh ⊢; exact ihFor _ _ _ _ _ _ _ hh)
              (fun e he he' => by rw [he, he']) (fun he he' => by rw [he, he'])
              (fun he => by rw [he]) h
          | exact mono_nested (parseSwitchLoop fuel tokens i ⟨t.value, [], [], [], []⟩ 0 (i + 1))
              (parseSwitchLoop (fuel + 1) tokens i ⟨t.value, [], [], [], []⟩ 0 (i + 1)) _ _
              (ihSw _ _ _ _)
              (fun n ni e e' hh => by rw [e']; rw [e] at hh ⊢; exact ihFor _ _ _ _ _ _ _ hh)
              (fun e he he' => by rw [he, he']) (fun he he' => by rw [he, he'])
              (fun he => by rw [he]) h
          | (by_cases hd : depth = 0 <;> simp only [hd, ↓reduceIte] at h ⊢
             exact ihFor _ _ _ _ _ _ _ h)
    · conv_lhs => rw [parseSwitchLoop]
      conv_rhs => rw [parseSwitchLoop]
      rw [parseSwitchLoop] at h
      cases hg : tokens[i]? with
      | none => rfl
      | some t =>
        rw [hg] at h
        simp only [] at h ⊢
        cases hty : t.type <;> rw [hty] at h <;> simp only [] at h ⊢
        case TFor =>
          rcases forHead_cases t.value with ⟨iv, it, le, hh⟩ | hh
          swap
          · rw [hh]
          rw [hh] at h ⊢
          simp only [] at h ⊢
          exact mono_nested (parseForLoop fuel tokens i iv it le [] 0 (i + 1))
            (parseForLoop (fuel + 1) tokens i iv it le [] 0 (i + 1)) _ _ (ihFor _ _ _ _ _ _ _)
            (fun n ni e e' hh => by rw [e']; rw [e] at hh ⊢; exact ihSw _ _ _ _ hh)
            (fun e he he' => by rw [he, he']) (fun he he' => by rw [he, he'])
            (fun he => by rw [he]) h
        all_goals
          first
          | rfl
          | exact ihSw _ _ _ _ h
          | exact mono_nested (parseIfLoop fuel tokens i ⟨[(t.value, [])], [], false⟩ 0 (i + 1))
              (parseIfLoop (fuel + 1) tokens i ⟨[(t.value, [])], [], false⟩ 0 (i + 1)) _ _
              (ihIf _ _ _ _)
              (fun n ni e e' hh => by rw [e']; rw [e] at hh ⊢; exact ihSw _ _ _ _ hh)
              (fun e he he' => by rw [he, he']) (fun he he' => by rw [he, he'])
              (fun he => by rw [he]) h
          | exact mono_nested (parseSwitchLoop fuel tokens i ⟨t.value, [], [], [], []⟩ 0 (i + 1))
              (parseSwitchLoop (fuel + 1) tokens i ⟨t.value, [], [], [], []⟩ 0 (i + 1)) _ _
              (ihSw _ _ _ _)
              (fun n ni e e' hh => by rw [e']; rw [e] at hh ⊢; exact ihSw _ _ _ _ hh)
              (fun e he he' => by rw [he, he']) (fun he he' => by rw [he, he'])
              (fun he => by rw [he]) h
          | (by_cases hd : depth = 0 <;> simp only [hd, ↓reduceIte] at h ⊢ <;>
              first | rfl | exact ihSw _ _ _ _ h)

theorem compileLoop_fuel_succ (tokens : List Token) : ∀ (fuel i : Nat) (nodes : List Node),
    compileLoop fuel tokens i nodes ≠ .diverge →
    compileLoop (fuel + 1) tokens i nodes = compileLoop fuel tokens i nodes
  | 0, _, _, h => absurd rfl h
  | fuel + 1, i, nodes, h => by
    have ih := compileLoop_fuel_succ tokens fuel
    obtain ⟨ihIf, ihFor, ihSw⟩ := parse_fuel_succ fuel tokens
    conv_lhs => rw [compileLoop]
    conv_rhs => rw [compileLoop]
    rw [compileLoop] at h
    cases hg : tokens[i]? with
    | none => rfl
    | some t =>
      rw [hg] at h
      simp only [] at h ⊢
      cases hty : t.type <;> rw [hty] at h <;> simp only [] at h ⊢
      case TFor =>
        rcases forHead_cases t.value with ⟨iv, it, le, hh⟩ | hh
        swap
        · rw [hh]
        rw [hh] at h ⊢
        simp only [] at h ⊢
        exact mono_nested (parseForLoop fuel tokens i iv it le [] 0 (i + 1))
          (parseForLoop (fuel + 1) tokens i iv it le [] 0 (i + 1)) _ _ (ihFor _ _ _ _ _ _ _)
          (fun n ni e e' hh => by rw [e']; rw [e] at hh ⊢; exact ih _ _ hh)
          (fun e he he' => by rw [he, he']) (fun he he' => by rw [he, he'])
          (fun he => by rw [he]) h
      all_goals
        first
        | rfl
        | exact ih _ _ h
        | exact mono_nested (parseIfLoop fuel tokens i ⟨[(t.value, [])], [], false⟩ 0 (i + 1))
            (parseIfLoop (fuel + 1) tokens i ⟨[(t.value, [])], [], false⟩ 0 (i + 1)) _ _
            (ihIf _ _ _ _)
            (fun n ni e e' hh => by rw [e']; rw [e] at hh ⊢; exact ih _ _ hh)
            (fun e he he' => by rw [he, he']) (fun he he' => by rw [he, he'])
            (fun he => by rw [he]) h
        | exact mono_nested (parseSwitchLoop fuel tokens i ⟨t.value, [], [], [], []⟩ 0 (i + 1))
            (parseSwitchLoop (fuel + 1) tokens i ⟨t.value, [], [], [], []⟩ 0 (i + 1)) _ _
            (ihSw _ _ _ _)
            (fun n ni e e' hh => by rw [e']; rw [e] at hh ⊢; exact ih _ _ hh)
            (fun e he he' => by rw [he, he']) (fun he he' => by rw [he, he'])
            (fun he => by rw [he]) h

/-- More fuel does not change a result that is there. -/
theorem fuel_add {β : Type} (f : Nat → Outcome β)
    (hstep : ∀ fuel, f fuel ≠ .diverge → f (fuel + 1) = f fuel) (fuel : Nat)
    (h : f fuel ≠ .diverge) : ∀ k, f (fuel + k) = f fuel
  | 0 => rfl
  | k + 1 => by
    have ih := fuel_add f hstep fuel h k
    rw [← Nat.add_assoc, hstep (fuel + k) (by rw [ih]; exact h), ih]

theorem fuel_ge {β : Type} (f : Nat → Outcome β)
    (hstep : ∀ fuel, f fuel ≠ .diverge → f (fuel + 1) = f fuel) (fuel fuel2 : Nat)
    (h : f fuel ≠ .diverge) (hle : fuel ≤ fuel2) : f fuel2 = f fuel := by
  obtain ⟨k, rfl⟩ := Nat.exists_eq_add_of_le hle
  exact fuel_add f hstep fuel h k

/-- A loop that keeps to `Sound` and has fuel enough returns a node or an
error. -/
theorem Sound.returns {len fuel i : Nat} {r : Outcome (Node × Nat)} (h : Sound len fuel i r)
    (hi : i ≤ len) (hf : len + 1 ≤ fuel + i) : (∃ p, r = .ok p) ∨ ∃ e, r = .error e := by
  cases hr : r with
  | ok p => exact Or.inl ⟨p, rfl⟩
  | error e => exact Or.inr ⟨e, rfl⟩
  | fault => exact absurd hr h.1
  | diverge => exact absurd hr (h.2.2 hi hf)

theorem compileLoop_returns (tokens : List Token) : ∀ (fuel i : Nat) (nodes : List Node),
    i ≤ tokens.length → tokens.length + 1 ≤ fuel + i →
    (∃ ns, compileLoop fuel tokens i nodes = .ok ns) ∨ ∃ e, compileLoop fuel tokens i nodes = .error e
  | 0, i, _, hi, hf => by omega
  | fuel + 1, i, nodes, hi, hf => by
    have ih := compileLoop_returns tokens fuel
    obtain ⟨sIf, sFor, sSw⟩ := parse_sound fuel tokens
    rw [compileLoop]
    cases hg : tokens[i]? with
    | none => exact Or.inl ⟨_, rfl⟩
    | some t =>
      have hlt := getElem?_lt hg
      have nested : ∀ (r1 : Outcome (Node × Nat)) (r : Outcome (List Node)),
          Sound tokens.length fuel (i + 1) r1 →
          (∀ n ni, r1 = .ok (n, ni) → r = compileLoop fuel tokens ni (nodes ++ [n])) →
          (∀ e, r1 = .error e → r = .error e) →
          (∃ ns, r = .ok ns) ∨ ∃ e, r = .error e := by
        intro r1 r hs hok herr
        rcases hs.returns (by omega) (by omega) with ⟨⟨n, ni⟩, hr⟩ | ⟨e, hr⟩
        · have hb := hs.2.1 n ni hr
          rw [hok n ni hr]
          exact ih ni _ hb.2 (by omega)
        · exact Or.inr ⟨e, herr e hr⟩
      simp only []
      cases hty : t.type <;> simp only []
      case TText => exact ih _ _ (by omega) (by omega)
      case TVar => exact ih _ _ (by omega) (by omega)
      case TIf =>
        exact nested _ _ (sIf i ⟨[(t.value, [])], [], false⟩ (i + 1))
          (fun n ni e => by rw [e]) (fun e he => by rw [he])
      case TSwitch =>
        exact nested _ _ (sSw i ⟨t.value, [], [], [], []⟩ 0 (i + 1))
          (fun n ni e => by rw [e]) (fun e he => by rw [he])
      case TFor =>
        rcases forHead_cases t.value with ⟨iv, it, le, hh⟩ | hh
        · rw [hh]
          simp only []
          exact nested _ _ (sFor i iv it le [] (i + 1))
            (fun n ni e => by rw [e]) (fun e he => by rw [he])
        · rw [hh]
          exact Or.inr ⟨_, rfl⟩
      all_goals exact Or.inr ⟨_, rfl⟩

/-- C24: the parser terminates.  Whenever `parseIf`, `parseFor` or
`parseSwitch`, started at index `s`, returns a node, the index `n` it returns
with it satisfies `s < n ≤ len(tokens)`.  Started at an index within the
tokens with a unit of fuel for every token, each of the three returns a node or
an error (it does not panic and the fuel is not spent), and more fuel does not
change the result.  `compileTokens` returns a list of nodes or an error for
every token sequence, and its loop gives the same result with any larger amount
of fuel. -/
theorem parser_terminates (tokens : List Token) :
    (∀ fuel s node n,
        (parseIf fuel tokens s = .ok (node, n) ∨ parseFor fuel tokens s = .ok (node, n)
          ∨ parseSwitch fuel tokens s = .ok (node, n)) → s < n ∧ n ≤ tokens.length)
      ∧ (∀ fuel s t, tokens[s]? = some t → tokens.length ≤ fuel →
          (((∃ p, parseIf fuel tokens s = .ok p) ∨ ∃ e, parseIf fuel tokens s = .error e)
            ∧ parseIf fuel tokens s = parseIf tokens.length tokens s)
          ∧ (((∃ p, parseFor fuel tokens s = .ok p) ∨ ∃ e, parseFor fuel tokens s = .error e)
            ∧ parseFor fuel tokens s = parseFor tokens.length tokens s)
          ∧ (((∃ p, parseSwitch fuel tokens s = .ok p)
              ∨ ∃ e, parseSwitch fuel tokens s = .error e)
            ∧ parseSwitch fuel tokens s = parseSwitch tokens.length tokens s))
      ∧ ((∃ nodes, compileTokens tokens = .ok nodes) ∨ ∃ e, compileTokens tokens = .error e)
      ∧ ∀ fuel, tokens.length + 1 ≤ fuel → compileLoop fuel tokens 0 [] = compileTokens tokens := by
  have hcomp := compileLoop_returns tokens (tokens.length + 1) 0 [] (Nat.zero_le _) (by omega)
  refine ⟨?_, ?_, hcomp, ?_⟩
  · intro fuel s node n h
    obtain ⟨sIf, sFor, sSw⟩ := parse_sound fuel tokens
    rcases h with h | h | h
    · unfold parseIf at h
      cases hg : tokens[s]? with
      | none => rw [hg] at h; cases h
      | some t =>
        rw [hg] at h
        have := (sIf _ _ _).2.1 node n h
        omega
    · unfold parseFor at h
      cases hg : tokens[s]? with
      | none => rw [hg] at h; cases h
      | some t =>
        rw [hg] at h
        simp only [] at h
        rcases forHead_cases t.value with ⟨iv, it, le, hh⟩ | hh
        · rw [hh] at h
          have := (sFor _ _ _ _ _ _).2.1 node n h
          omega
        · rw [hh] at h
          cases h
    · unfold parseSwitch at h
      cases hg : tokens[s]? with
      | none => rw [hg] at h; cases h
      | some t =>
        rw [hg] at h
        have := (sSw _ _ _ _).2.1 node n h
        omega
  · intro fuel s t hg hfuel
    have hs := getElem?_lt hg
    obtain ⟨sIf, sFor, sSw⟩ := parse_sound tokens.length tokens
    obtain ⟨fIf, fFor, fSw⟩ := parse_sound fuel tokens
    refine ⟨⟨?_, ?_⟩, ⟨?_, ?_⟩, ⟨?_, ?_⟩⟩
    · unfold parseIf
      rw [hg]
      exact (fIf _ _ _).returns (by omega) (by omega)
    · unfold parseIf
      rw [hg]
      exact fuel_ge (fun f => parseIfLoop f tokens s ⟨[(t.value, [])], [], false⟩ 0 (s + 1))
        (fun f h => (parse_fuel_succ f tokens).1 _ _ _ _ h) _ _
        ((sIf _ _ _).2.2 (by omega) (by omega)) hfuel
    · unfold parseFor
      rw [hg]
      simp only []
      rcases forHead_cases t.value with ⟨iv, it, le, hh⟩ | hh
      · rw [hh]
        exact (fFor _ _ _ _ _ _).returns (by omega) (by omega)
      · rw [hh]
        exact Or.inr ⟨_, rfl⟩
    · unfold parseFor
      rw [hg]
      simp only []
      rcases forHead_cases t.value with ⟨iv, it, le, hh⟩ | hh
      · rw [hh]
        exact fuel_ge (fun f => parseForLoop f tokens s iv it le [] 0 (s + 1))
          (fun f h => (parse_fuel_succ f tokens).2.1 _ _ _ _ _ _ _ h) _ _
          ((sFor _ _ _ _ _ _).2.2 (by omega) (by omega)) hfuel
      · rw [hh]
    · unfold parseSwitch
      rw [hg]
      exact (fSw _ _ _ _).returns (by omega) (by omega)
    · unfold parseSwitch
      rw [hg]
      exact fuel_ge (fun f => parseSwitchLoop f tokens s ⟨t.value, [], [], [], []⟩ 0 (s + 1))
        (fun f h => (parse_fuel_succ f tokens).2.2 _ _ _ _ h) _ _
        ((sSw _ _ _ _).2.2 (by omega) (by omega)) hfuel
  · intro fuel hfuel
    have hnd : compileLoop (tokens.length + 1) tokens 0 [] ≠ .diverge := by
      rcases hcomp with ⟨ns, h⟩ | ⟨e, h⟩ <;> rw [h] <;> exact fun h => nomatch h
    exact fuel_ge (fun f => compileLoop f tokens 0 [])
      (fun f h => compileLoop_fuel_succ tokens f 0 [] h) _ _ hnd hfuel

/-! ### variable nodes -/

theorem applyFilter_spec (E : Env) (f s : Str) : applyFilter E f s = specFilter E f s := by
  unfold applyFilter specFilter
  by_cases h : f = "raw".toList ∨ f = "safe".toList
  · rw [if_pos h]
    rcases h with h | h <;> subst h <;> rfl
  · rw [if_neg h]

theorem foldl_applyFilter (E : Env) : ∀ (filters : List Str) (s : Str),
    filters.foldl (fun o f => applyFilter E f o) s = specPipeline E filters s
  | [], _ => rfl
  | f :: fs, s => by
    rw [List.foldl_cons, specPipeline, foldl_applyFilter E fs, applyFilter_spec]

theorem containsFilter_iff (filters : List Str) (x : Str) :
    containsFilter filters x = true ↔ x ∈ filters := by
  unfold containsFilter
  exact decide_eq_true_iff

theorem escape_test (filters : List Str) :
    (!containsFilter filters "raw".toList && !containsFilter filters "safe".toList
        && !containsFilter filters "noescape".toList) = true
      ↔ ¬ ("raw".toList ∈ filters ∨ "safe".toList ∈ filters ∨ "noescape".toList ∈ filters) := by
  rw [Bool.and_eq_true, Bool.and_eq_true, Bool.not_eq_true', Bool.not_eq_true', Bool.not_eq_true',
    ← Bool.not_eq_true, ← Bool.not_eq_true, ← Bool.not_eq_true, containsFilter_iff,
    containsFilter_iff, containsFilter_iff]
  tauto

theorem dflt_spec (E : Env) (dflt : Str) :
    (if dflt ≠ [] then dflt else []) = specBase E none dflt := by
  show (if dflt ≠ [] then dflt else []) = dflt
  by_cases hd : dflt = []
  · rw [if_neg (not_not.2 hd), hd]
  · rw [if_pos hd]

theorem escape_spec (filters : List Str) (t : Str) :
    (if (!containsFilter filters "raw".toList && !containsFilter filters "safe".toList
          && !containsFilter filters "noescape".toList) = true
        then Outcome.ok (escapeString t) else .ok t) = .ok (specEscape filters t) := by
  unfold specEscape
  by_cases hf : "raw".toList ∈ filters ∨ "safe".toList ∈ filters ∨ "noescape".toList ∈ filters
  · rw [if_neg (fun hh => (escape_test filters).1 hh hf), if_pos hf]
  · rw [if_pos ((escape_test filters).2 hf), if_neg hf]

theorem evalVar_ok (E : Env) (h : E.autoEscape = true) (name dflt : Str) (filters : List Str)
    (data : Ctx) (r : Option Value) (hr : lookup data name = .ok r) :
    Node.Eval E (VarNode name dflt filters) data
      = .ok (specEscape filters (specPipeline E filters (specBase E r dflt))) := by
  rw [Node.Eval, evalVar, hr]
  cases r with
  | some v =>
    simp only [Outcome.bind]
    rw [if_pos h, foldl_applyFilter]
    exact escape_spec filters _
  | none =>
    simp only [Outcome.bind]
    rw [if_pos h, foldl_applyFilter, dflt_spec E]
    exact escape_spec filters _

theorem evalVar_fault (E : Env) (name dflt : Str) (filters : List Str) (data : Ctx)
    (hr : lookup data name = .fault) :
    Node.Eval E (VarNode name dflt filters) data = .fault := by
  rw [Node.Eval, evalVar, hr]
  rfl

theorem lookup_plain_name (data : Ctx) (name : Str) (h : '.' ∉ name) :
    lookup data name ≠ .fault := by
  have hp : '.' ∉ trimSpace name := fun hm => h ((trimSpace_sub name).subset hm)
  unfold lookup
  simp only []
  split
  · exact fun e => by cases e
  · split
    · exact fun e => by cases e
    · split
      · exact fun e => by cases e
      · split
        · exact fun e => by cases e
        · split
          · exact fun e => by cases e
          · split
            · exact fun e => by cases e
            · rw [splitOn1_of_not_mem _ hp, lookupPath]
              cases Ctx.get data (trimSpace name) with
              | none => exact fun e => by cases e
              | some v =>
                simp only []
                rw [lookupPath]
                exact fun e => by cases e

/-- C11 (what the code does): with `AutoEscape` enabled, the method `Eval` of a
variable node goes by the result of `lookup`, which returns or panics.

When `lookup` returns, `Eval` returns `E(F(base))`: `base` is the looked-up
value printed with `%v` when the path resolves, otherwise the literal default
(the empty text when there is none); `F` applies the filters of the node in
the order they are declared, `upper`, `lower` and `escape` transforming the
text and every other name leaving it; `E` is `html.EscapeString` when none of
the filters is `raw`, `safe` or `noescape`, and the identity otherwise.  When
`lookup` panics, `Eval` panics; a name without dot never makes it panic.

With `name` bound to `<b>`: no filter renders `&lt;b&gt;`, `raw` renders `<b>`,
`escape` renders `&amp;lt;b&amp;gt;` (escaped twice), `escape`, `safe` renders
`&lt;b&gt;`, `upper`, `safe` renders the upper-case text, `lower` the escaped
lower-case text; an unbound name with the default `none` renders `none`.  With
`s` bound to a struct whose field `x` is not exported, the node of the path
`s.x` panics, and so does the rendering of the template `<{ s.x }>`; with `m`
bound to a map whose key type is a defined string type, the node of the path
`m.a` panics. -/
theorem evalVar_autoEscape (E : Env) (h : E.autoEscape = true) (name dflt : Str)
    (filters : List Str) (data : Ctx) :
    ((∃ r, lookup data name = .ok r) ∨ lookup data name = .fault)
      ∧ (∀ r, lookup data name = .ok r →
          Node.Eval E (VarNode name dflt filters) data
            = .ok (specEscape filters (specPipeline E filters (specBase E r dflt))))
      ∧ (lookup data name = .fault → Node.Eval E (VarNode name dflt filters) data = .fault)
      ∧ ('.' ∉ name → lookup data name ≠ .fault)
      ∧ Node.Eval E (VarNode "name".toList [] []) boldCtx = .ok "&lt;b&gt;".toList
      ∧ Node.Eval E (VarNode "name".toList [] ["raw".toList]) boldCtx = .ok "<b>".toList
      ∧ Node.Eval E (VarNode "name".toList [] ["escape".toList]) boldCtx
          = .ok "&amp;lt;b&amp;gt;".toList
      ∧ Node.Eval E (VarNode "name".toList [] ["escape".toList, "safe".toList]) boldCtx
          = .ok "&lt;b&gt;".toList
      ∧ Node.Eval E (VarNode "name".toList [] ["upper".toList, "safe".toList]) boldCtx
          = .ok (E.toUpper "<b>".toList)
      ∧ Node.Eval E (VarNode "name".toList [] ["lower".toList]) boldCtx
          = .ok (escapeString (E.toLower "<b>".toList))
      ∧ Node.Eval E (VarNode "name".toList "none".toList []) [] = .ok "none".toList
      ∧ lookup hiddenFieldCtx "s.x".toList = .fault
      ∧ Node.Eval E (VarNode "s.x".toList [] []) hiddenFieldCtx = .fault
      ∧ renderSource E (tag " s.x ") hiddenFieldCtx = .fault
      ∧ Node.Eval E (VarNode "m.a".toList [] []) typedMapCtx = .fault := by
  have hb : lookup boldCtx "name".toList = .ok (some (.str "<b>".toList)) := rfl
  have hn : lookup [] "name".toList = .ok none := rfl
  have hs : lookup hiddenFieldCtx "s.x".toList = .fault := rfl
  have hc : compileTokens (tokenize (tag " s.x ")) = .ok [VarNode "s.x".toList [] []] := rfl
  refine ⟨lookup_okOrFault data name, fun r hr => evalVar_ok E h name dflt filters data r hr,
    evalVar_fault E name dflt filters data, lookup_plain_name data name, ?_, ?_, ?_, ?_, ?_, ?_,
    ?_, hs, evalVar_fault E _ _ _ _ hs, ?_, evalVar_fault E _ _ _ _ rfl⟩
  · rw [evalVar_ok E h _ _ _ _ _ hb]; rfl
  · rw [evalVar_ok E h _ _ _ _ _ hb]; rfl
  · rw [evalVar_ok E h _ _ _ _ _ hb]; rfl
  · rw [evalVar_ok E h _ _ _ _ _ hb]; rfl
  · rw [evalVar_ok E h _ _ _ _ _ hb]; rfl
  · rw [evalVar_ok E h _ _ _ _ _ hb]; rfl
  · rw [evalVar_ok E h _ _ _ _ _ hn]; rfl
  · unfold renderSource
    rw [hc]
    simp only [Outcome.bind, evalNodes, evalVar_fault E _ _ _ _ hs]

/-- C11 (what the code does) with the ASCII case mappings: the filters `upper`,
`safe` on `<b>` render `<B>`, the filter `escape` on `<b>` renders
`&amp;lt;b&amp;gt;`, and the template `<{ s.x }>` panics in a context that
binds `s` to a struct whose field `x` is not exported. -/
theorem evalVar_autoEscape_witness :
    Env.sample.autoEscape = true
      ∧ Node.Eval Env.sample (VarNode "name".toList "none".toList ["upper".toList, "safe".toList])
          boldCtx = .ok "<B>".toList
      ∧ Node.Eval Env.sample (VarNode "name".toList [] ["escape".toList]) boldCtx
          = .ok "&amp;lt;b&amp;gt;".toList
      ∧ Node.Eval Env.sample (VarNode "name".toList [] []) boldCtx = .ok "&lt;b&gt;".toList
      ∧ renderSource Env.sample (tag " s.x ") hiddenFieldCtx = .fault :=
  ⟨rfl,
    (evalVar_autoEscape Env.sample rfl "name".toList "none".toList
      ["upper".toList, "safe".toList] boldCtx).2.1 _ rfl,
    (evalVar_autoEscape Env.sample rfl [] [] [] []).2.2.2.2.2.2.1,
    (evalVar_autoEscape Env.sample rfl [] [] [] []).2.2.2.2.1,
    (evalVar_autoEscape Env.sample rfl [] [] [] []).2.2.2.2.2.2.2.2.2.2.2.2.2.1⟩

/-! ### a switch without default -/

theorem casePattern_ne (tag v : Str) (h : casePattern tag = some v) : v ≠ [] := by
  unfold casePattern keywordPattern lit at h
  cases hd : dropPrefix? tag "case".toList with
  | none => rw [hd] at h; cases h
  | some s1 =>
    rw [hd] at h
    simp only [Option.bind] at h
    cases s1 with
    | nil => cases h
    | cons c t =>
      simp only [many1] at h
      split at h
      · obtain ⟨cap, rest, hk⟩ := many_some _ _ _ _ h
        cases rest with
        | nil => cases hk
        | cons d t2 =>
          simp only [many1] at hk
          split at hk
          · obtain ⟨cap2, rest2, hk2⟩ := many_some _ _ _ _ hk
            cases rest2 with
            | nil =>
              simp only [eos] at hk2
              cases hk2
              exact List.cons_ne_nil _ _
            | cons _ _ => cases hk2
          · cases hk
      · cases h

theorem classifyTag_case (tag rest : Str) (h : (classifyTag tag rest).type = TCase) :
    (classifyTag tag rest).value ≠ [] := by
  unfold classifyTag at h ⊢
  split at h
  · cases h
  · split at h
    · cases h
    · split at h
      · cases h
      · split at h
        · cases h
        · split at h
          · cases h
          · split at h
            · cases h
            · split at h
              · cases h
              · split at h
                · rename_i v hv
                  simp only [*]
                  exact casePattern_ne tag v hv
                · split at h
                  · cases h
                  · split at h
                    · cases h
                    · split at h
                      · cases h
                      · cases h

theorem tokenizePart_case (p : Str) (t : Token) (ht : t ∈ tokenizePart p) (hty : t.type = TCase) :
    t.value ≠ [] := by
  unfold tokenizePart at ht
  simp only [] at ht
  split at ht
  · cases ht
  · split at ht
    · rename_i sub0 rest _
      rcases List.mem_cons.1 ht with e | hm
      · subst e
        exact classifyTag_case _ _ hty
      · split at hm
        · rw [List.mem_singleton] at hm
          subst hm
          cases hty
        · cases hm
    · rw [List.mem_singleton] at ht
      subst ht
      cases hty

theorem tokenizeParts_case : ∀ (ps : List Str) (t : Token), t ∈ tokenizeParts ps →
    t.type = TCase → t.value ≠ []
  | [], _, h, _ => by cases h
  | p :: ps, t, h, hty => by
    rw [tokenizeParts] at h
    rcases List.mem_append.1 h with h1 | h2
    · exact tokenizePart_case p t h1 hty
    · exact tokenizeParts_case ps t h2 hty

/-- A `Case` token of `tokenize` has a value that is not empty: the pattern
`^case\s+(.+)$` captures one character or more. -/
theorem tokenize_case (src : Str) (i : Nat) (t : Token) (h : (tokenize src)[i]? = some t)
    (hty : t.type = TCase) : t.value ≠ [] :=
  tokenizeParts_case _ t (List.mem_iff_getElem?.2 ⟨i, h⟩) hty

theorem SwitchState.flushCase_expr (st : SwitchState) : st.flushCase.expr = st.expr := by
  unfold SwitchState.flushCase
  simp only []
  split
  · rfl
  · split <;> rfl

theorem SwitchState.flushCase_dflt (st : SwitchState) (h : st.currentCond ≠ []) :
    st.flushCase.dflt = st.dflt := by
  unfold SwitchState.flushCase
  simp only [h, ne_eq, not_false_eq_true, if_true]

/-- What the loop of `parseSwitch` returns is a switch node on the expression
of the state.  Once the open case has a condition, its default body is the one
of the state: a flush appends the open case to the cases, and no `Default`
token is ahead. -/
theorem parseSwitchLoop_dflt (tokens : List Token) :
    ∀ (fuel start : Nat) (st : SwitchState) (depth i : Nat) (node : Node) (n : Nat),
      parseSwitchLoop fuel tokens start st depth i = .ok (node, n) →
      ∃ cases dflt, node = SwitchNode st.expr cases dflt ∧
        (st.currentCond ≠ [] →
          (∀ j t, i ≤ j → j < n → tokens[j]? = some t →
            t.type ≠ TDefault ∧ (t.type = TCase → t.value ≠ [])) → dflt = st.dflt)
  | 0, _, _, _, _, _, _, h => nomatch h
  | fuel + 1, start, st, depth, i, node, n, h => by
    have ih := parseSwitchLoop_dflt tokens fuel
    obtain ⟨sIf, sFor, sSw⟩ := parse_sound fuel tokens
    have hin : i < n := (((parse_sound (fuel + 1) tokens).2.2 start st depth i).2.1 node n h).1
    rw [parseSwitchLoop] at h
    cases hg : tokens[i]? with
    | none => rw [hg] at h; cases h
    | some t =>
      rw [hg] at h
      simp only [] at h
      have app : ∀ (x : Node) (d j : Nat), i < j →
          parseSwitchLoop fuel tokens start (st.append x) d j = .ok (node, n) →
          ∃ cases dflt, node = SwitchNode st.expr cases dflt ∧
            (st.currentCond ≠ [] →
              (∀ j t, i ≤ j → j < n → tokens[j]? = some t →
                t.type ≠ TDefault ∧ (t.type = TCase → t.value ≠ [])) → dflt = st.dflt) := by
        intro x d j hij hx
        obtain ⟨cases, dflt, e, hd⟩ := ih start (st.append x) d j node n hx
        exact ⟨cases, dflt, e, fun hc hr => hd hc fun j t hj => hr j t (by omega)⟩
      cases hty : t.type <;> rw [hty] at h <;> simp only [] at h
      case TText => exact app _ _ _ (Nat.lt_succ_self i) h
      case TVar => exact app _ _ _ (Nat.lt_succ_self i) h
      case TDefault =>
        by_cases hd : depth = 0
        · rw [if_pos hd] at h
          obtain ⟨cases, dflt, e, _⟩ :=
            ih start { st.flushCase with currentCond := [] } depth (i + 1) node n h
          refine ⟨cases, dflt, ?_, fun _ hr => absurd hty (hr i t (Nat.le_refl i) hin hg).1⟩
          rw [e]
          simp only [st.flushCase_expr]
        · rw [if_neg hd] at h
          exact app _ _ _ (Nat.lt_succ_self i) h
      case TCase =>
        by_cases hd : depth = 0
        · rw [if_pos hd] at h
          obtain ⟨cases, dflt, e, hdf⟩ :=
            ih start { st.flushCase with currentCond := t.value } depth (i + 1) node n h
          refine ⟨cases, dflt, ?_, fun hc hr => ?_⟩
          · rw [e]
            simp only [st.flushCase_expr]
          · rw [hdf ((hr i t (Nat.le_refl i) hin hg).2 hty) fun j t hj => hr j t (by omega)]
            exact st.flushCase_dflt hc
        · rw [if_neg hd] at h
          exact app _ _ _ (Nat.lt_succ_self i) h
      case TEndSwitch =>
        by_cases hd : depth = 0
        · rw [if_pos hd] at h
          cases h
          exact ⟨st.flushCase.cases, st.flushCase.dflt, by rw [st.flushCase_expr],
            fun hc _ => st.flushCase_dflt hc⟩
        · rw [if_neg hd] at h
          exact app _ _ _ (Nat.lt_succ_self i) h
      case TSwitch =>
        cases hn : parseSwitchLoop fuel tokens i ⟨t.value, [], [], [], []⟩ 0 (i + 1) with
        | ok p =>
          obtain ⟨nn, ni⟩ := p
          rw [hn] at h
          simp only [] at h
          have := ((sSw i ⟨t.value, [], [], [], []⟩ 0 (i + 1)).2.1 nn ni hn).1
          exact app _ _ _ (by omega) h
        | error e => rw [hn] at h; cases h
        | fault => rw [hn] at h; cases h
        | diverge => rw [hn] at h; cases h
      case TIf =>
        cases hn : parseIfLoop fuel tokens i ⟨[(t.value, [])], [], false⟩ 0 (i + 1) with
        | ok p =>
          obtain ⟨nn, ni⟩ := p
          rw [hn] at h
          simp only [] at h
          have := ((sIf i ⟨[(t.value, [])], [], false⟩ (i + 1)).2.1 nn ni hn).1
          exact app _ _ _ (by omega) h
        | error e => rw [hn] at h; cases h
        | fault => rw [hn] at h; cases h
        | diverge => rw [hn] at h; cases h
      case TFor =>
        cases hf : forHead t.value with
        | ok q =>
          obtain ⟨iv, it, le⟩ := q
          rw [hf] at h
          simp only [] at h
          cases hn : parseForLoop fuel tokens i iv it le [] 0 (i + 1) with
          | ok p =>
            obtain ⟨nn, ni⟩ := p
            rw [hn] at h
            simp only [] at h
            have := ((sFor i iv it le [] (i + 1)).2.1 nn ni hn).1
            exact app _ _ _ (by omega) h
          | error e => rw [hn] at h; cases h
          | fault => rw [hn] at h; cases h
          | diverge => rw [hn] at h; cases h
        | error e => rw [hf] at h; cases h
        | fault => rw [hf] at h; cases h
        | diverge => rw [hf] at h; cases h
      all_goals cases h

/-- The loop of `parseSwitch` at the first `Case` token, or at the `EndSwitch`
token of a block without case, with the body `B` collected since the switch
tag: the flush takes `B`, a body without condition, for the default body. -/
theorem parseSwitchLoop_first_case (tokens : List Token) (fuel start k n : Nat) (e : Str)
    (B : List Node) (c : Token) (node : Node) (hc : tokens[k]? = some c)
    (hct : c.type = TCase ∨ c.type = TEndSwitch)
    (h : parseSwitchLoop fuel tokens start ⟨e, [], [], [], B⟩ 0 k = .ok (node, n))
    (hr : ∀ j t, k ≤ j → j < n → tokens[j]? = some t →
      t.type ≠ TDefault ∧ (t.type = TCase → t.value ≠ [])) :
    ∃ cases, node = SwitchNode e cases B := by
  have hin : k < n := (((parse_sound fuel tokens).2.2 start _ 0 k).2.1 node n h).1
  cases fuel with
  | zero => cases h
  | succ fuel =>
    rw [parseSwitchLoop, hc] at h
    simp only [] at h
    rcases hct with hty | hty
    · rw [hty] at h
      simp only [if_true] at h
      obtain ⟨cases, dflt, e1, hd⟩ := parseSwitchLoop_dflt tokens fuel start _ 0 (k + 1) node n h
      refine ⟨cases, ?_⟩
      rw [e1, hd ((hr k c (Nat.le_refl k) hin hc).2 hty) fun j t hj => hr j t (by omega)]
      simp only [SwitchState.flushCase_expr, (flushCase_initial e B).2]
    · rw [hty] at h
      simp only [if_true] at h
      cases h
      exact ⟨[], by rw [(flushCase_initial e B).1, (flushCase_initial e B).2,
        SwitchState.flushCase_expr]⟩

theorem evalNodes_single (E : Env) (node : Node) (data : Ctx) :
    evalNodes E [node] data = Node.Eval E node data := by
  rw [evalNodes, evalNodes]
  cases Node.Eval E node data with
  | ok a => simp [Outcome.bind]
  | error e => rfl
  | fault => rfl
  | diverge => rfl

theorem switch_miss (E : Env) (e : Str) (cases : List (Str × List Node)) (dflt : List Node)
    (data : Ctx) (val : Value) (hv : lookupVal data e = .ok val)
    (hmiss : ∀ c ∈ cases, evalConditionWithValue E c.1 val data = .ok false) :
    Node.Eval E (SwitchNode e cases dflt) data = evalNodes E dflt data := by
  rw [Node.Eval, hv]
  simp only [Outcome.bind, evalCases_miss E val data cases hmiss]

theorem parseSwitchLoop_fuel (tokens : List Token) (fuel fuel2 start : Nat) (st : SwitchState)
    (depth i : Nat) (p : Node × Nat) (h : parseSwitchLoop fuel tokens start st depth i = .ok p)
    (h2 : parseSwitchLoop fuel2 tokens start st depth i ≠ .diverge) :
    parseSwitchLoop fuel2 tokens start st depth i = .ok p := by
  have step : ∀ f, parseSwitchLoop f tokens start st depth i ≠ .diverge →
      parseSwitchLoop (f + 1) tokens start st depth i = parseSwitchLoop f tokens start st depth i :=
    fun f => (parse_fuel_succ f tokens).2.2 start st depth i
  have h1 : parseSwitchLoop fuel tokens start st depth i ≠ .diverge := by
    rw [h]; exact fun e => nomatch e
  rcases Nat.le_total fuel fuel2 with hle | hle
  · have := fuel_ge (fun f => parseSwitchLoop f tokens start st depth i) step fuel fuel2 h1 hle
    simp only [] at this
    rw [this, h]
  · have := fuel_ge (fun f => parseSwitchLoop f tokens start st depth i) step fuel2 fuel h2 hle
    simp only [] at this
    rw [← this, h]

theorem switch_whole (tokens : List Token) (fuel : Nat) (sw : Token) (node : Node)
    (hsw : tokens[0]? = some sw) (hty : sw.type = TSwitch)
    (h : parseSwitchLoop fuel tokens 0 ⟨sw.value, [], [], [], []⟩ 0 (0 + 1)
      = .ok (node, tokens.length)) :
    compileTokens tokens = .ok [node] := by
  have hlen := getElem?_lt hsw
  have h2 := parseSwitchLoop_fuel tokens fuel tokens.length 0 _ 0 (0 + 1) _ h
    (((parse_sound tokens.length tokens).2.2 0 _ 0 (0 + 1)).2.2 (by omega) (by omega))
  unfold compileTokens
  rw [compileLoop, hsw]
  simp only [hty]
  rw [h2]
  simp only []
  rw [compileLoop_end tokens _ _ hlen]
  rfl

/-- C16 (amended): a switch block of a template without `default` tag between
its switch tag (the token `s`) and its end (the index `n` that `parseSwitch`
returns), whatever its case bodies hold.  The block compiles to a switch node
with a default body `dflt`, and when no case matches the scrutinee the node
renders what `dflt` renders; when the block is the whole template, that is
the rendering of the template.  The default body is made of what stands
between the switch tag and the first case tag: the body that is open at the
first `Case` token has no condition, and `flushCase` takes a body without
condition for the default.  When texts and variables `pre` stand there,
`dflt` holds their nodes, so the block renders what `pre` renders, and the
empty string only when nothing stands before the first case.  In general
`dflt` is the body `B` with which the loop of `parseSwitch` stands at the
first case tag (or at the closing tag of a block without case). -/
theorem switch_no_match (E : Env) (src : Str) (fuel s n : Nat) (sw : Token) (node : Node)
    (hsw : (tokenize src)[s]? = some sw)
    (hparse : parseSwitch fuel (tokenize src) s = .ok (node, n))
    (hnodef : ∀ j t, s < j → j < n → (tokenize src)[j]? = some t → t.type ≠ TDefault) :
    ∃ cases dflt, node = SwitchNode sw.value cases dflt
      ∧ (∀ data val, lookupVal data sw.value = .ok val →
          (∀ c ∈ cases, evalConditionWithValue E c.1 val data = .ok false) →
          Node.Eval E node data = evalNodes E dflt data
            ∧ (s = 0 → sw.type = TSwitch → n = (tokenize src).length →
                renderSource E src data = evalNodes E dflt data))
      ∧ (∀ pre c rest, (tokenize src).drop (s + 1) = pre ++ c :: rest → (∀ p ∈ pre, IsLeaf p) →
          (c.type = TCase ∨ c.type = TEndSwitch) →
          dflt = pre.map leafNode ∧ (pre = [] → ∀ data, evalNodes E dflt data = .ok []))
      ∧ (∀ fuel0 k B c, s < k → (tokenize src)[k]? = some c →
          (c.type = TCase ∨ c.type = TEndSwitch) →
          parseSwitchLoop fuel0 (tokenize src) s ⟨sw.value, [], [], [], B⟩ 0 k = .ok (node, n) →
          dflt = B) := by
  have hloop : parseSwitchLoop fuel (tokenize src) s ⟨sw.value, [], [], [], []⟩ 0 (s + 1)
      = .ok (node, n) := by
    unfold parseSwitch at hparse
    rw [hsw] at hparse
    exact hparse
  obtain ⟨cases, dflt, hnode, _⟩ := parseSwitchLoop_dflt (tokenize src) fuel s _ 0 (s + 1) node n hloop
  have hstate : ∀ fuel0 k B c, s < k → (tokenize src)[k]? = some c →
      (c.type = TCase ∨ c.type = TEndSwitch) →
      parseSwitchLoop fuel0 (tokenize src) s ⟨sw.value, [], [], [], B⟩ 0 k = .ok (node, n) →
      dflt = B := by
    intro fuel0 k B c hk hc hct hrun
    obtain ⟨cases2, e2⟩ := parseSwitchLoop_first_case (tokenize src) fuel0 s k n sw.value B c node
      hc hct hrun fun j t hj hjn hg =>
        ⟨hnodef j t (by omega) hjn hg, tokenize_case src j t hg⟩
    rw [hnode] at e2
    cases e2
    rfl
  refine ⟨cases, dflt, hnode, fun data val hv hmiss => ?_, fun pre c rest hd hL hct => ?_, hstate⟩
  · have hev : Node.Eval E node data = evalNodes E dflt data := by
      rw [hnode]
      exact switch_miss E sw.value cases dflt data val hv hmiss
    refine ⟨hev, fun hs hty hn => ?_⟩
    subst hs
    rw [hn] at hloop
    unfold renderSource
    rw [switch_whole (tokenize src) fuel sw node hsw hty hloop]
    simp only [Outcome.bind]
    rw [evalNodes_single, hev]
  · have hlift : parseSwitchLoop (fuel + pre.length) (tokenize src) s ⟨sw.value, [], [], [], []⟩ 0
        (s + 1) = .ok (node, n) := by
      have := fuel_add
        (fun f => parseSwitchLoop f (tokenize src) s ⟨sw.value, [], [], [], []⟩ 0 (s + 1))
        (fun f => (parse_fuel_succ f (tokenize src)).2.2 s _ 0 (s + 1)) fuel
        (by simp only []; rw [hloop]; exact fun e => nomatch e) pre.length
      simp only [] at this
      rw [this, hloop]
    have hrun : parseSwitchLoop fuel (tokenize src) s ⟨sw.value, [], [], [], pre.map leafNode⟩ 0
        (s + 1 + pre.length) = .ok (node, n) :=
      (parseSwitchLoop_leaves (tokenize src) s 0 (c :: rest) pre fuel
        ⟨sw.value, [], [], [], []⟩ (s + 1) hd hL).symm.trans hlift
    have hd2 : (tokenize src).drop (s + 1 + pre.length) = c :: rest := by
      rw [← List.drop_drop, hd, List.drop_left]
    have hpre := hstate fuel (s + 1 + pre.length) (pre.map leafNode) c (by omega)
      (getElem?_of_drop hd2).1 hct hrun
    refine ⟨hpre, fun he data => ?_⟩
    rw [hpre, he]
    rfl

/-- C16 (amended) at `<{ switch n }>pre<{ case 0 }><{ if n }>a<{ /if }><{ /switch }>`
and at `<{ switch n }><{ case 0 }>one<{ /switch }>`, with `n = 3`: the case `0`
does not match, the first template renders `pre` and the second the empty
string. -/
theorem switch_no_match_witness :
    renderSource Env.sample switchIfTemplate [("n".toList, .int 3)] = .ok "pre".toList
      ∧ renderSource Env.sample switchZeroTemplate [("n".toList, .int 3)] = .ok [] := by
  constructor
  · obtain ⟨cases, dflt, hnode, hrender, _, _⟩ :=
      switch_no_match Env.sample switchIfTemplate 7 0 7
        { type := TSwitch, value := "n".toList, raw := "switch n".toList }
        (SwitchNode "n".toList
          [("0".toList, [IfNode [("n".toList, [TextNode "a".toList])] []])]
          [TextNode "pre".toList])
        rfl rfl
        (fun j t h1 h2 hg => by
          have htok : tokenize switchIfTemplate
              = [{ type := TSwitch, value := "n".toList, raw := "switch n".toList },
                 { type := TText, value := "pre".toList },
                 { type := TCase, value := "0".toList, raw := "case 0".toList },
                 { type := TIf, value := "n".toList, raw := "if n".toList },
                 { type := TText, value := "a".toList },
                 { type := TEndIf, raw := "/if".toList },
                 { type := TEndSwitch, raw := "/switch".toList }] := by decide
          rw [htok] at hg
          interval_cases j <;> cases hg <;> decide)
    cases hnode
    exact (hrender [("n".toList, .int 3)] (.int 3) rfl
      (fun c hc => by
        rw [List.mem_singleton] at hc
        subst hc
        decide)).2 rfl rfl rfl
  · obtain ⟨cases, dflt, hnode, hrender, _, _⟩ :=
      switch_no_match Env.sample switchZeroTemplate 4 0 4
        { type := TSwitch, value := "n".toList, raw := "switch n".toList }
        (SwitchNode "n".toList [("0".toList, [TextNode "one".toList])] [])
        rfl rfl
        (fun j t h1 h2 hg => by
          have htok : tokenize switchZeroTemplate
              = [{ type := TSwitch, value := "n".toList, raw := "switch n".toList },
                 { type := TCase, value := "0".toList, raw := "case 0".toList },
                 { type := TText, value := "one".toList },
                 { type := TEndSwitch, raw := "/switch".toList }] := by decide
          rw [htok] at hg
          interval_cases j <;> cases hg <;> decide)
    cases hnode
    exact (hrender [("n".toList, .int 3)] (.int 3) rfl
      (fun c hc => by
        rw [List.mem_singleton] at hc
        subst hc
        decide)).2 rfl rfl rfl

/-- C16 as stated fails at `<{ switch n }>pre<{ case 0 }>one<{ /switch }>` with
`n = 3`: no case matches and there is no default tag, and the output is not
empty. -/
theorem switch_no_match_not_empty :
    evalConditionWithValue Env.sample "0".toList (.int 3) [("n".toList, .int 3)] = .ok false
      ∧ renderSource Env.sample switchPreTemplate [("n".toList, .int 3)] ≠ .ok [] := by
  decide

end Vingo
